import Mathlib

/-!
Drift-diffusion assemblers: 3D Poisson (`poisson.cpp`) and 1D hole continuity
(`continuity_p.cpp`).

Shallow embedding of the two assemblers.

* C++ `double` is an arbitrary field `K` (exact arithmetic); `exp` is a parameter of the
  continuity assembler, instantiated with `Real.exp` in the theorems.  Division is the total
  division of the field (`x / 0 = 0`), which stands for the non-finite IEEE result.
* C++ `int` counters are natural numbers without overflow; every counter of the source starts at
  `0` or `1` and is only incremented, the loop bound `Nz-1` is truncated subtraction (an empty
  loop either way), and `Nx = num_cell_x - 1` etc. are meant for grids with at least one cell.
* An access outside a vector, undefined in C++, is a no-op (write) or `0` (read) in the model; the
  theorems assume the sizes under which no such access occurs.
* `std::vector<double>` is `List K`; `v[i] = x` is `List.set`, `v[i]` is `List.getD v i 0`.
* Read-only Eigen tensors (`epsilon`, `epsilon_avg_X`, ...) are functions of their indices.
* `for (int x = lo; x <= hi; x++)` is `forRange lo (hi + 1 - lo)`.
-/

set_option linter.unusedSectionVars false

namespace DriftDiffusion

/-- The loop `for (int x = lo; x < lo + n; x++) body`: `n` iterations, `x = lo, lo+1, ...`. -/
def forRange {σ : Type} (lo n : Nat) (body : Nat → σ → σ) (s : σ) : σ :=
  (List.range' lo n).foldl (fun st x => body x st) s

/-! ## 3D Poisson assembler -/

/-- An `Eigen::Triplet<double>`: one `(row, col, value)` contribution to the sparse matrix. -/
structure Trp (K : Type) where
  row : Nat
  col : Nat
  value : K
deriving DecidableEq

/-- The default-constructed `Eigen::Triplet<double>()`: row 0, column 0, value 0. -/
def Trp.init {K : Type} [Zero K] : Trp K := ⟨0, 0, 0⟩

/-- The pair `(trp_cnt, triplet_list)` that the diagonal setters of `Poisson` mutate. -/
structure TrpBuf (K : Type) where
  trp_cnt : Nat
  triplet_list : List (Trp K)

/-- The statement pair `triplet_list[trp_cnt] = t; trp_cnt++;`. -/
def TrpBuf.put {K : Type} (B : TrpBuf K) (t : Trp K) : TrpBuf K :=
  { trp_cnt := B.trp_cnt + 1, triplet_list := B.triplet_list.set B.trp_cnt t }

/-- `Eigen::SparseMatrix::setFromTriplets`: the entry at `(r, c)` is the sum of the values of all
triplets of the list placed at `(r, c)`. -/
def setFromTriplets {K : Type} [AddMonoid K] (tl : List (Trp K)) : Nat → Nat → K :=
  fun r c => (tl.map (fun t => if t.row = r ∧ t.col = c then t.value else 0)).sum

/-- The fields of `Parameters` read by the `Poisson` constructor. -/
structure Parameters (K : Type) where
  N_dos : K
  dx : K
  dy : K
  dz : K
  eps_active : K
  num_cell_x : Nat
  num_cell_y : Nat
  num_cell_z : Nat
  num_elements : Nat

/-- The data members of class `Poisson` (poisson.h) used by poisson.cpp. -/
structure Poisson (K : Type) where
  CV : K
  num_cell_x : Nat
  num_cell_y : Nat
  num_cell_z : Nat
  Nx : Nat
  Ny : Nat
  Nz : Nat
  num_elements : Nat
  rhs : List K
  V_bottomBC : Nat → Nat → K
  V_topBC : Nat → Nat → K
  epsilon : Nat → Nat → Nat → K
  epsilon_avg_X : Nat → Nat → Nat → K
  epsilon_avg_Y : Nat → Nat → Nat → K
  epsilon_avg_Z : Nat → Nat → Nat → K
  sp_matrix : Nat → Nat → K
  VecXd_rhs : List K
  trp_cnt : Nat
  triplet_list : List (Trp K)

namespace Poisson

variable {K : Type} [Field K]

/-- The constructor `Poisson::Poisson(params)`.  The constants `q`, `epsilon_0`, `Vt` of
constants.h are parameters.  `resize` leaves vectors zero-filled and the triplet list filled with
default triplets; the boundary planes and `trp_cnt`, which the constructor does not set, are `0`. -/
def init (q epsilon_0 Vt : K) (params : Parameters K) : Poisson K :=
  let epsilon : Nat → Nat → Nat → K := fun _ _ _ => params.eps_active
  { CV := (params.N_dos * params.dz * params.dz * q) / (epsilon_0 * Vt)
    num_cell_x := params.num_cell_x
    num_cell_y := params.num_cell_y
    num_cell_z := params.num_cell_z
    Nx := params.num_cell_x - 1
    Ny := params.num_cell_y - 1
    Nz := params.num_cell_z - 1
    num_elements := params.num_elements
    rhs := List.replicate params.num_elements 0
    V_bottomBC := fun _ _ => 0
    V_topBC := fun _ _ => 0
    epsilon := epsilon
    epsilon_avg_X := fun i j k =>
      ((params.dz * params.dz) / (params.dx * params.dx)) * epsilon i j k / 18
    epsilon_avg_Y := fun i j k =>
      ((params.dz * params.dz) / (params.dy * params.dy)) * epsilon i j k / 18
    epsilon_avg_Z := fun i j k => epsilon i j k / 18
    sp_matrix := fun _ _ => 0
    VecXd_rhs := List.replicate params.num_elements 0
    trp_cnt := 0
    triplet_list := List.replicate (11 * params.num_elements) Trp.init }

/-- `Poisson::set_V_topBC`: every entry `(i, j)`, `0 <= i <= num_cell_x`, `0 <= j <= num_cell_y`,
of the top plane becomes `Va/Vt`. -/
def set_V_topBC (P : Poisson K) (Vt Va : K) : Poisson K :=
  { P with V_topBC :=
      forRange 0 (P.num_cell_y + 1) (fun j M =>
        forRange 0 (P.num_cell_x + 1) (fun i M =>
          fun a b => if a = i ∧ b = j then Va / Vt else M a b) M) P.V_topBC }

/-- `Poisson::set_V_bottomBC`: every entry of the bottom plane becomes `0`. -/
def set_V_bottomBC (P : Poisson K) : Poisson K :=
  { P with V_bottomBC :=
      forRange 0 (P.num_cell_y + 1) (fun j M =>
        forRange 0 (P.num_cell_x + 1) (fun i M =>
          fun a b => if a = i ∧ b = j then 0 else M a b) M) P.V_bottomBC }

/-- The mutable triplet buffer of the object. -/
def buf (P : Poisson K) : TrpBuf K := ⟨P.trp_cnt, P.triplet_list⟩

/-- Store a triplet buffer back into the object. -/
def withBuf (P : Poisson K) (B : TrpBuf K) : Poisson K :=
  { P with trp_cnt := B.trp_cnt, triplet_list := B.triplet_list }

/-- `Poisson::set_lowest_diag` (X's left PBC).  Loop state: `(index, (trp_cnt, triplet_list))`. -/
def set_lowest_diag (P : Poisson K) : Poisson K :=
  let i := 1
  P.withBuf (forRange 1 (P.Ny + 1) (fun j (index, B) =>
    let (index, B) := forRange 1 P.Nz (fun k (index, B) =>
      (index + 1,
        B.put ⟨index - 1 + P.Nx * (P.Nz + 1) * (P.Ny + 1), index - 1, -P.epsilon_avg_X i j k⟩))
      (index, B)
    (index + 1, B)) (1, P.buf)).2

/-- `Poisson::set_lower_diag_Xs`. -/
def set_lower_diag_Xs (P : Poisson K) : Poisson K :=
  P.withBuf (forRange 1 P.Nx (fun i (index, B) =>
    forRange 1 (P.Ny + 1) (fun j (index, B) =>
      let (index, B) := forRange 1 P.Nz (fun k (index, B) =>
        (index + 1,
          B.put ⟨index - 1 + (P.Nz + 1) * (P.Ny + 1), index - 1, -P.epsilon_avg_X (i + 1) j k⟩))
        (index, B)
      (index + 1, B)) (index, B)) (1, P.buf)).2

/-- `Poisson::set_lower_diag_Y_PBCs` (Y's left PBC). -/
def set_lower_diag_Y_PBCs (P : Poisson K) : Poisson K :=
  let j := 1
  P.withBuf (forRange 1 (P.Nx + 1) (fun i (index, B) =>
    let (index, B) := forRange 1 P.Nz (fun k (index, B) =>
      (index + 1,
        B.put ⟨index - 1 + (P.Nz + 1) * P.Ny, index - 1, -P.epsilon_avg_Y i j k⟩))
      (index, B)
    (index + 1 + (P.Nz + 1) * P.Ny, B)) (1, P.buf)).2

/-- `Poisson::set_lower_diag_Ys`. -/
def set_lower_diag_Ys (P : Poisson K) : Poisson K :=
  P.withBuf (forRange 1 (P.Nx + 1) (fun i (index, B) =>
    let (index, B) := forRange 1 P.Ny (fun j (index, B) =>
      let (index, B) := forRange 1 P.Nz (fun k (index, B) =>
        (index + 1,
          B.put ⟨index - 1 + (P.Nz + 1), index - 1, -P.epsilon_avg_Y i (j + 1) k⟩))
        (index, B)
      (index + 1, B)) (index, B)
    (index + (P.Nz + 1), B)) (1, P.buf)).2

/-- `Poisson::set_main_lower_diag`. -/
def set_main_lower_diag (P : Poisson K) : Poisson K :=
  P.withBuf (forRange 1 (P.Nx + 1) (fun i (index, B) =>
    forRange 1 (P.Ny + 1) (fun j (index, B) =>
      let (index, B) := forRange 1 (P.Nz - 1) (fun k (index, B) =>
        (index + 1, B.put ⟨index, index - 1, -P.epsilon_avg_Z i j (k + 1)⟩))
        (index, B)
      (index + 1 + 1, B)) (index, B)) (1, P.buf)).2

/-- `Poisson::set_main_diag`: the six-face sum on the rows `k <= Nz`, then the unit entry of the
Dirichlet row. -/
def set_main_diag (P : Poisson K) : Poisson K :=
  P.withBuf (forRange 1 (P.Nx + 1) (fun i (index, B) =>
    forRange 1 (P.Ny + 1) (fun j (index, B) =>
      let (index, B) := forRange 1 P.Nz (fun k (index, B) =>
        (index + 1,
          B.put ⟨index - 1, index - 1,
            P.epsilon_avg_X i j k + P.epsilon_avg_X (i + 1) j k + P.epsilon_avg_Y i j k
              + P.epsilon_avg_Y i (j + 1) k + P.epsilon_avg_Z i j k
              + P.epsilon_avg_Z i j (k + 1)⟩))
        (index, B)
      (index + 1, B.put ⟨index - 1, index - 1, 1⟩)) (index, B)) (1, P.buf)).2

/-- `Poisson::set_main_upper_diag`. -/
def set_main_upper_diag (P : Poisson K) : Poisson K :=
  P.withBuf (forRange 1 (P.Nx + 1) (fun i (index, B) =>
    forRange 1 (P.Ny + 1) (fun j (index, B) =>
      let (index, B) := forRange 1 P.Nz (fun k (index, B) =>
        (index + 1, B.put ⟨index - 1, index, -P.epsilon_avg_Z i j (k + 1)⟩))
        (index, B)
      (index + 1, B)) (index, B)) (1, P.buf)).2

/-- `Poisson::set_upper_diag_Ys`. -/
def set_upper_diag_Ys (P : Poisson K) : Poisson K :=
  P.withBuf (forRange 1 (P.Nx + 1) (fun i (index, B) =>
    let (index, B) := forRange 1 P.Ny (fun j (index, B) =>
      let (index, B) := forRange 1 P.Nz (fun k (index, B) =>
        (index + 1,
          B.put ⟨index - 1, index - 1 + (P.Nz + 1), -P.epsilon_avg_Y i (j + 1) k⟩))
        (index, B)
      (index + 1, B)) (index, B)
    (index + (P.Nz + 1), B)) (1, P.buf)).2

/-- `Poisson::set_upper_diag_Y_PBCs` (Y right PBC). -/
def set_upper_diag_Y_PBCs (P : Poisson K) : Poisson K :=
  let j := P.Ny + 1
  P.withBuf (forRange 1 (P.Nx + 1) (fun i (index, B) =>
    let (index, B) := forRange 1 P.Nz (fun k (index, B) =>
      (index + 1,
        B.put ⟨index - 1, index - 1 + (P.Nz + 1) * P.Ny, -P.epsilon_avg_Y i j k⟩))
      (index, B)
    (index + 1 + (P.Nz + 1) * P.Ny, B)) (1, P.buf)).2

/-- `Poisson::set_upper_diag_Xs`. -/
def set_upper_diag_Xs (P : Poisson K) : Poisson K :=
  P.withBuf (forRange 1 P.Nx (fun i (index, B) =>
    forRange 1 (P.Ny + 1) (fun j (index, B) =>
      let (index, B) := forRange 1 P.Nz (fun k (index, B) =>
        (index + 1,
          B.put ⟨index - 1, index - 1 + (P.Nz + 1) * (P.Ny + 1), -P.epsilon_avg_X (i + 1) j k⟩))
        (index, B)
      (index + 1, B)) (index, B)) (1, P.buf)).2

/-- `Poisson::set_highest_diag` (far upper diagonal, X right PBC). -/
def set_highest_diag (P : Poisson K) : Poisson K :=
  let i := P.Nx + 1
  P.withBuf (forRange 1 (P.Ny + 1) (fun j (index, B) =>
    let (index, B) := forRange 1 P.Nz (fun k (index, B) =>
      (index + 1,
        B.put ⟨index - 1, index - 1 + P.Nx * (P.Nz + 1) * (P.Ny + 1), -P.epsilon_avg_X i j k⟩))
      (index, B)
    (index + 1, B)) (1, P.buf)).2

/-- `Poisson::setup_matrix`: reset `trp_cnt`, run the eleven setters in the order of the source,
then build `sp_matrix` from the whole triplet list. -/
def setup_matrix (P : Poisson K) : Poisson K :=
  let P := { P with trp_cnt := 0 }
  let P := P.set_lowest_diag
  let P := P.set_lower_diag_Xs
  let P := P.set_lower_diag_Y_PBCs
  let P := P.set_lower_diag_Ys
  let P := P.set_main_lower_diag
  let P := P.set_main_diag
  let P := P.set_main_upper_diag
  let P := P.set_upper_diag_Ys
  let P := P.set_upper_diag_Y_PBCs
  let P := P.set_upper_diag_Xs
  let P := P.set_highest_diag
  { P with sp_matrix := setFromTriplets P.triplet_list }

/-- `Poisson::set_rhs(p)`; `p i` is the linear coefficient access `p(i)` of the tensor.
Loop state of the boundary pass: `(index, rhs)`. -/
def set_rhs (P : Poisson K) (p : Nat → K) : Poisson K :=
  let rhs := forRange 0 P.num_elements (fun i rhs => rhs.set i (P.CV * p i / 18)) P.rhs
  let rhs := (forRange 1 (P.Nx + 1) (fun i (index, rhs) =>
    forRange 1 (P.Ny + 1) (fun j (index, rhs) =>
      forRange 1 (P.Nz + 1) (fun k (index, rhs) =>
        let rhs := if k = 1 then
            rhs.set index (rhs.getD index 0 + (P.epsilon i j 0 / 18) * P.V_bottomBC i j)
          else rhs
        let rhs := if k = P.Nz + 1 then rhs.set index (P.V_topBC i j) else rhs
        (index + 1, rhs)) (index, rhs)) (index, rhs)) (0, rhs)).2
  { P with
    rhs := rhs
    VecXd_rhs := forRange 0 P.num_elements (fun i v => v.set i (rhs.getD i 0)) P.VecXd_rhs }

/-- The linearization of the grid unknowns (k fastest, then j, then i), as the spec writes it:
`lin(i,j,k) = (i-1)(Ny+1)(Nz+1) + (j-1)(Nz+1) + (k-1)`. -/
def lin (P : Poisson K) (i j k : Nat) : Nat :=
  (i - 1) * (P.Ny + 1) * (P.Nz + 1) + (j - 1) * (P.Nz + 1) + (k - 1)

end Poisson

/-- All `(a, b)` with `1 <= a <= A`, `1 <= b <= B`, in loop order (`b` fastest). -/
def pairs (A B : Nat) : List (Nat × Nat) :=
  (List.range' 1 A).flatMap fun a => (List.range' 1 B).map fun b => (a, b)

/-- All `(i, j, k)` with `1 <= i <= A`, `1 <= j <= B`, `1 <= k <= C`, in loop order
(`k` fastest, then `j`, then `i`). -/
def nodes (A B C : Nat) : List (Nat × Nat × Nat) :=
  (List.range' 1 A).flatMap fun i =>
    (List.range' 1 B).flatMap fun j => (List.range' 1 C).map fun k => (i, j, k)

/-- Writing a list of triplets at consecutive slots. -/
def TrpBuf.putAll {K : Type} (B : TrpBuf K) (l : List (Trp K)) : TrpBuf K :=
  l.foldl TrpBuf.put B

namespace Poisson

variable {K : Type} [Field K]

/-! ### The closed-form rule of each coupling group (written from the spec) -/

/-- X-periodic-low: `(lin(Nx+1,j,k), lin(1,j,k), -epsX(1,j,k))`, `j` in `1..Ny+1`, `k` in `1..Nz`. -/
def closed_lowest_diag (P : Poisson K) : List (Trp K) :=
  (pairs (P.Ny + 1) P.Nz).map fun (j, k) =>
    ⟨P.lin (P.Nx + 1) j k, P.lin 1 j k, -P.epsilon_avg_X 1 j k⟩

/-- X-interior, lower: `(lin(i+1,j,k), lin(i,j,k), -epsX(i+1,j,k))`, `i` in `1..Nx`. -/
def closed_lower_diag_Xs (P : Poisson K) : List (Trp K) :=
  (nodes P.Nx (P.Ny + 1) P.Nz).map fun (i, j, k) =>
    ⟨P.lin (i + 1) j k, P.lin i j k, -P.epsilon_avg_X (i + 1) j k⟩

/-- Y-periodic-low: `(lin(i,Ny+1,k), lin(i,1,k), -epsY(i,1,k))`, `i` in `1..Nx+1`. -/
def closed_lower_diag_Y_PBCs (P : Poisson K) : List (Trp K) :=
  (pairs (P.Nx + 1) P.Nz).map fun (i, k) =>
    ⟨P.lin i (P.Ny + 1) k, P.lin i 1 k, -P.epsilon_avg_Y i 1 k⟩

/-- Y-interior, lower: `(lin(i,j+1,k), lin(i,j,k), -epsY(i,j+1,k))`, `j` in `1..Ny`. -/
def closed_lower_diag_Ys (P : Poisson K) : List (Trp K) :=
  (nodes (P.Nx + 1) P.Ny P.Nz).map fun (i, j, k) =>
    ⟨P.lin i (j + 1) k, P.lin i j k, -P.epsilon_avg_Y i (j + 1) k⟩

/-- Z-lower: `(lin(i,j,k+1), lin(i,j,k), -epsZ(i,j,k+1))`, `k` in `1..Nz-1`. -/
def closed_main_lower_diag (P : Poisson K) : List (Trp K) :=
  (nodes (P.Nx + 1) (P.Ny + 1) (P.Nz - 1)).map fun (i, j, k) =>
    ⟨P.lin i j (k + 1), P.lin i j k, -P.epsilon_avg_Z i j (k + 1)⟩

/-- Main diagonal: for each `(i, j)` the six-face sum at `(lin(i,j,k), lin(i,j,k))` for `k` in
`1..Nz`, followed by the unit entry of the Dirichlet row `lin(i,j,Nz+1)`. -/
def closed_main_diag (P : Poisson K) : List (Trp K) :=
  (pairs (P.Nx + 1) (P.Ny + 1)).flatMap fun (i, j) =>
    ((List.range' 1 P.Nz).map fun k =>
      (⟨P.lin i j k, P.lin i j k,
        P.epsilon_avg_X i j k + P.epsilon_avg_X (i + 1) j k + P.epsilon_avg_Y i j k
          + P.epsilon_avg_Y i (j + 1) k + P.epsilon_avg_Z i j k
          + P.epsilon_avg_Z i j (k + 1)⟩ : Trp K))
    ++ [⟨P.lin i j (P.Nz + 1), P.lin i j (P.Nz + 1), 1⟩]

/-- Z-upper: `(lin(i,j,k), lin(i,j,k+1), -epsZ(i,j,k+1))`, `k` in `1..Nz`. -/
def closed_main_upper_diag (P : Poisson K) : List (Trp K) :=
  (nodes (P.Nx + 1) (P.Ny + 1) P.Nz).map fun (i, j, k) =>
    ⟨P.lin i j k, P.lin i j (k + 1), -P.epsilon_avg_Z i j (k + 1)⟩

/-- Y-interior, upper: `(lin(i,j,k), lin(i,j+1,k), -epsY(i,j+1,k))`, `j` in `1..Ny`. -/
def closed_upper_diag_Ys (P : Poisson K) : List (Trp K) :=
  (nodes (P.Nx + 1) P.Ny P.Nz).map fun (i, j, k) =>
    ⟨P.lin i j k, P.lin i (j + 1) k, -P.epsilon_avg_Y i (j + 1) k⟩

/-- Y-periodic-high: `(lin(i,1,k), lin(i,Ny+1,k), -epsY(i,Ny+1,k))`. -/
def closed_upper_diag_Y_PBCs (P : Poisson K) : List (Trp K) :=
  (pairs (P.Nx + 1) P.Nz).map fun (i, k) =>
    ⟨P.lin i 1 k, P.lin i (P.Ny + 1) k, -P.epsilon_avg_Y i (P.Ny + 1) k⟩

/-- X-interior, upper: `(lin(i,j,k), lin(i+1,j,k), -epsX(i+1,j,k))`, `i` in `1..Nx`. -/
def closed_upper_diag_Xs (P : Poisson K) : List (Trp K) :=
  (nodes P.Nx (P.Ny + 1) P.Nz).map fun (i, j, k) =>
    ⟨P.lin i j k, P.lin (i + 1) j k, -P.epsilon_avg_X (i + 1) j k⟩

/-- X-periodic-high: `(lin(1,j,k), lin(Nx+1,j,k), -epsX(Nx+1,j,k))`. -/
def closed_highest_diag (P : Poisson K) : List (Trp K) :=
  (pairs (P.Ny + 1) P.Nz).map fun (j, k) =>
    ⟨P.lin 1 j k, P.lin (P.Nx + 1) j k, -P.epsilon_avg_X (P.Nx + 1) j k⟩

/-- The closed-form triplet list: the eleven groups in the order in which `setup_matrix` runs
them. -/
def closed_triplets (P : Poisson K) : List (Trp K) :=
  P.closed_lowest_diag ++ P.closed_lower_diag_Xs ++ P.closed_lower_diag_Y_PBCs
    ++ P.closed_lower_diag_Ys ++ P.closed_main_lower_diag ++ P.closed_main_diag
    ++ P.closed_main_upper_diag ++ P.closed_upper_diag_Ys ++ P.closed_upper_diag_Y_PBCs
    ++ P.closed_upper_diag_Xs ++ P.closed_highest_diag

end Poisson

/-! ## 1D hole continuity assembler -/

/-- The data members of class `Continuity_p` (continuity_p.h) used by continuity_p.cpp. -/
structure Continuity_p (K : Type) where
  main_diag : List K
  upper_diag : List K
  lower_diag : List K
  rhs : List K
  B_p1 : List K
  B_p2 : List K
  p_mob : List K
  Cp : K
  p_leftBC : K
  p_rightBC : K

namespace Continuity_p

/-- The fields of the 1D `Parameters` read by the `Continuity_p` constructor. -/
structure Parameters (K : Type) where
  num_cell : Nat
  p_mob_active : K
  mobil : K
  dx : K
  N : K
  N_HOMO : K
  phi_a : K
  phi_c : K
  E_gap : K

variable {K : Type} [Field K]

/-- The constructor `Continuity_p::Continuity_p(params)`; `exp` and the constant `Vt` of
constants.h are parameters.  `resize` leaves the vectors zero-filled. -/
def init (exp : K → K) (Vt : K) (params : Parameters K) : Continuity_p K :=
  { main_diag := List.replicate params.num_cell 0
    upper_diag := List.replicate (params.num_cell - 1) 0
    lower_diag := List.replicate (params.num_cell - 1) 0
    rhs := List.replicate params.num_cell 0
    B_p1 := List.replicate (params.num_cell + 1) 0
    B_p2 := List.replicate (params.num_cell + 1) 0
    p_mob := List.replicate (params.num_cell + 1) (params.p_mob_active / params.mobil)
    Cp := params.dx * params.dx / (Vt * params.N * params.mobil)
    p_leftBC := (params.N_HOMO * exp (-params.phi_a / Vt)) / params.N
    p_rightBC := (params.N_HOMO * exp (-(params.E_gap - params.phi_c) / Vt)) / params.N }

/-- `Continuity_p::set_main_diag`: `for (i = 1; i < main_diag.size(); i++)`. -/
def set_main_diag (s : Continuity_p K) : Continuity_p K :=
  { s with main_diag :=
      (forRange 1 (s.main_diag.length - 1) (fun i main_diag =>
        main_diag.set i
          (-(s.p_mob.getD i 0 * s.B_p2.getD i 0 + s.p_mob.getD (i + 1) 0 * s.B_p1.getD (i + 1) 0)))
        s.main_diag) }

/-- `Continuity_p::set_upper_diag`. -/
def set_upper_diag (s : Continuity_p K) : Continuity_p K :=
  { s with upper_diag :=
      (forRange 1 (s.upper_diag.length - 1) (fun i upper_diag =>
        upper_diag.set i (s.p_mob.getD (i + 1) 0 * s.B_p2.getD (i + 1) 0))
        s.upper_diag) }

/-- `Continuity_p::set_lower_diag`. -/
def set_lower_diag (s : Continuity_p K) : Continuity_p K :=
  { s with lower_diag :=
      (forRange 1 (s.lower_diag.length - 1) (fun i lower_diag =>
        lower_diag.set i (s.p_mob.getD (i + 1) 0 * s.B_p1.getD (i + 1) 0))
        s.lower_diag) }

/-- `Continuity_p::set_rhs(Up)`: the source term, then the two boundary corrections. -/
def set_rhs (s : Continuity_p K) (Up : List K) : Continuity_p K :=
  let rhs := forRange 1 (s.rhs.length - 1) (fun i rhs => rhs.set i ((-s.Cp) * Up.getD i 0)) s.rhs
  let rhs := rhs.set 1 (rhs.getD 1 0 - s.p_mob.getD 0 0 * s.B_p1.getD 1 0 * s.p_leftBC)
  let rhs := rhs.set (rhs.length - 1)
    (rhs.getD (rhs.length - 1) 0
      - s.p_mob.getD rhs.length 0 * s.B_p2.getD rhs.length 0 * s.p_rightBC)
  { s with rhs := rhs }

/-- `Continuity_p::BernoulliFnc_p(V)`: the local vector `dV`, then the two coefficient vectors;
the second loop carries the pair `(B_p1, B_p2)` and `B_p2[i]` reads the `B_p1[i]` just written.
On an edge with `V[i] = V[i-1]` the source evaluates `0/(exp(0) - 1.0) = 0/0`, a NaN that
propagates through every sum it enters; the total division gives `0` there, so the coefficients
of such an edge are faithful to the source only as "the value of `0/0`", and a statement about
their arithmetic needs `V[i] != V[i-1]`. -/
def BernoulliFnc_p (exp : K → K) (s : Continuity_p K) (V : List K) : Continuity_p K :=
  let dV := forRange 1 (V.length - 1) (fun i dV => dV.set i (V.getD i 0 - V.getD (i - 1) 0))
    (List.replicate V.length 0)
  let B := forRange 1 (V.length - 1) (fun i (B_p1, B_p2) =>
    let B_p1 := B_p1.set i (dV.getD i 0 / (exp (dV.getD i 0) - 1))
    let B_p2 := B_p2.set i (B_p1.getD i 0 * exp (dV.getD i 0))
    (B_p1, B_p2)) (s.B_p1, s.B_p2)
  { s with B_p1 := B.1, B_p2 := B.2 }

/-- `Continuity_p::setup_eqn(V, Up)`. -/
def setup_eqn (exp : K → K) (s : Continuity_p K) (V Up : List K) : Continuity_p K :=
  let s := BernoulliFnc_p exp s V
  let s := s.set_main_diag
  let s := s.set_upper_diag
  let s := s.set_lower_diag
  s.set_rhs Up

/-- The sizes the constructor gives the vectors, for `num_cell = N + 1`. -/
def Sized (s : Continuity_p K) (N : Nat) : Prop :=
  s.main_diag.length = N + 1 ∧ s.upper_diag.length = N ∧ s.lower_diag.length = N
    ∧ s.rhs.length = N + 1 ∧ s.B_p1.length = N + 2 ∧ s.B_p2.length = N + 2
    ∧ s.p_mob.length = N + 2

/-- Parameters of a demo device with `num_cell = 4` (three interior nodes), over any field. -/
def demoCParams (K : Type) [Field K] : Parameters K :=
  { num_cell := 4, p_mob_active := 1, mobil := 1, dx := 1, N := 1, N_HOMO := 1,
    phi_a := 0, phi_c := 0, E_gap := 0 }

/-- A demo potential with non-zero differences on every edge. -/
def demoV (K : Type) [Field K] : List K := [0, 1, 3, 6, 10]

/-- A flat demo potential: every edge has potential difference `0`. -/
def flatV (K : Type) [Field K] : List K := [0, 0, 0, 0, 0]

/-- A demo generation-rate vector. -/
def demoUp (K : Type) [Field K] : List K := [0, 1, 2, 3]

end Continuity_p

/-- The sum, over the triplets of `tl` placed in row `r`, of `φ col value`.  With
`φ c v = if c = c0 then v else 0` this is the matrix entry `(r, c0)`; with `φ c v = v * x c` it is
the `r`-th component of the matrix-vector product; with values in `ℕ` it counts triplets. -/
def rowFold {K M : Type} [AddMonoid M] (φ : Nat → K → M) (tl : List (Trp K)) (r : Nat) : M :=
  (tl.map fun t => if t.row = r then φ t.col t.value else 0).sum

/-- Row `lin i j k` of the operator in stencil form: the contribution of each of the eleven
groups (in the order of `closed_triplets`) to the fold of `φ` over that row. -/
def Poisson.stencil {K M : Type} [Field K] [AddMonoid M] (P : Poisson K) (φ : Nat → K → M)
    (i j k : Nat) : M :=
  (if i = P.Nx + 1 ∧ k ≤ P.Nz then φ (P.lin 1 j k) (-P.epsilon_avg_X 1 j k) else 0)
    + (if 2 ≤ i ∧ k ≤ P.Nz then φ (P.lin (i - 1) j k) (-P.epsilon_avg_X i j k) else 0)
    + (if j = P.Ny + 1 ∧ k ≤ P.Nz then φ (P.lin i 1 k) (-P.epsilon_avg_Y i 1 k) else 0)
    + (if 2 ≤ j ∧ k ≤ P.Nz then φ (P.lin i (j - 1) k) (-P.epsilon_avg_Y i j k) else 0)
    + (if 2 ≤ k ∧ k ≤ P.Nz then φ (P.lin i j (k - 1)) (-P.epsilon_avg_Z i j k) else 0)
    + (if k ≤ P.Nz then
        φ (P.lin i j k) (P.epsilon_avg_X i j k + P.epsilon_avg_X (i + 1) j k
          + P.epsilon_avg_Y i j k + P.epsilon_avg_Y i (j + 1) k + P.epsilon_avg_Z i j k
          + P.epsilon_avg_Z i j (k + 1))
      else φ (P.lin i j k) 1)
    + (if k ≤ P.Nz then φ (P.lin i j (k + 1)) (-P.epsilon_avg_Z i j (k + 1)) else 0)
    + (if j ≤ P.Ny ∧ k ≤ P.Nz then φ (P.lin i (j + 1) k) (-P.epsilon_avg_Y i (j + 1) k) else 0)
    + (if j = 1 ∧ k ≤ P.Nz then φ (P.lin i (P.Ny + 1) k) (-P.epsilon_avg_Y i (P.Ny + 1) k)
      else 0)
    + (if i ≤ P.Nx ∧ k ≤ P.Nz then φ (P.lin (i + 1) j k) (-P.epsilon_avg_X (i + 1) j k) else 0)
    + (if i = 1 ∧ k ≤ P.Nz then φ (P.lin (P.Nx + 1) j k) (-P.epsilon_avg_X (P.Nx + 1) j k)
      else 0)

/-- The `r`-th component of `A * x` for a matrix with `n` columns. -/
def mulVec {K : Type} [Semiring K] (A : Nat → Nat → K) (n : Nat) (x : Nat → K) (r : Nat) : K :=
  ∑ c ∈ Finset.range n, A r c * x c

/-- The candidate solution of the spec: the potential that is linear in the layer,
`x[lin(i,j,k)] = V0 * k / (Nz + 1)`, as a vector indexed by the linear index `r`
(`k - 1 = r mod (Nz+1)`). -/
def Poisson.linearProfile {K : Type} [Field K] (P : Poisson K) (V0 : K) : Nat → K :=
  fun r => V0 * ((r % (P.Nz + 1) + 1 : Nat) : K) / ((P.Nz + 1 : Nat) : K)

/-- A concrete device used to instantiate the theorems: `num_cell_x = num_cell_y = 2`,
`num_cell_z = 3` (so `Nx = Ny = 1`, `Nz = 2`, twelve unknowns), unit spacings, relative
permittivity 18 (every scaled face average is `1`), over `ℚ`. -/
def demoParams : Parameters ℚ :=
  { N_dos := 1, dx := 1, dy := 1, dz := 1, eps_active := 18,
    num_cell_x := 2, num_cell_y := 2, num_cell_z := 3, num_elements := 12 }

/-- The freshly constructed `Poisson` object of `demoParams` (with `q = epsilon_0 = Vt = 1`). -/
def demoPoisson : Poisson ℚ := Poisson.init 1 1 1 demoParams

/-- The demo device with the boundary planes set by the two setters: bottom `0`, top
`Va / Vt = 5 / 1`. -/
def demoBiased : Poisson ℚ := (demoPoisson.set_V_bottomBC).set_V_topBC 1 5

namespace Continuity_p

/-- The device of the flat-potential scenario: the constructor's vectors for `num_cell = 4`
(every mobility `1`, `Cp = 1`), with the contact densities set to `p_leftBC = 2`, `p_rightBC = 3`. -/
def flatDevice {K : Type} [Field K] (exp : K → K) : Continuity_p K :=
  { init exp 1 (demoCParams K) with p_leftBC := 2, p_rightBC := 3 }

/-- The zero generation-rate vector for `num_cell = 4`. -/
def zeroUp (K : Type) [Field K] : List K := [0, 0, 0, 0]

/-- A potential with fewer entries than the configured `num_cell + 1 = 5`. -/
def shortV (K : Type) [Field K] : List K := [0, 1]

end Continuity_p

namespace Continuity_p

/-- A linear demo potential for `num_cell = 4`: `V[i] = 0 + i * 1`. -/
def linearV (K : Type) [Field K] : List K := [0, 1, 2, 3, 4]

end Continuity_p

/-- A single-column device: `num_cell_x = num_cell_y = 1`, `num_cell_z = 2` (so `Nx = Ny = 0`,
`Nz = 1`, two unknowns), unit spacings, relative permittivity 18, over `ℚ`. -/
def columnParams : Parameters ℚ :=
  { N_dos := 1, dx := 1, dy := 1, dz := 1, eps_active := 18,
    num_cell_x := 1, num_cell_y := 1, num_cell_z := 2, num_elements := 2 }

/-- The single-column device with the boundary planes set by the two setters: bottom `0`, top
`Va / Vt = 5 / 1`. -/
def columnBiased : Poisson ℚ :=
  ((Poisson.init 1 1 1 columnParams).set_V_bottomBC).set_V_topBC 1 5

/-- A device with three nodes in each periodic direction: `num_cell_x = num_cell_y = 3`,
`num_cell_z = 2` (so `Nx = Ny = 2`, `Nz = 1`, eighteen unknowns), unit spacings, relative
permittivity 18, over `ℚ`. -/
def wideParams : Parameters ℚ :=
  { N_dos := 1, dx := 1, dy := 1, dz := 1, eps_active := 18,
    num_cell_x := 3, num_cell_y := 3, num_cell_z := 2, num_elements := 18 }

/-- The freshly constructed `Poisson` object of `wideParams`. -/
def widePoisson : Poisson ℚ := Poisson.init 1 1 1 wideParams

namespace Continuity_p

/-- A demo potential with one flat edge: `V[2] = V[1]`. -/
def kinkV (K : Type) [Field K] : List K := [0, 1, 1, 3, 6]

end Continuity_p

/-! ## Theorems -/

/-! ### Counting loops that write triplets -/

section Loops

theorem TrpBuf.putAll_nil {K : Type} (B : TrpBuf K) : B.putAll [] = B := rfl

theorem TrpBuf.putAll_append {K : Type} (B : TrpBuf K) (l₁ l₂ : List (Trp K)) :
    B.putAll (l₁ ++ l₂) = (B.putAll l₁).putAll l₂ := by
  simp [TrpBuf.putAll, List.foldl_append]

theorem TrpBuf.putAll_singleton {K : Type} (B : TrpBuf K) (t : Trp K) :
    B.putAll [t] = B.put t := rfl

/-- A loop that advances a running index by `c` per iteration and writes, at iteration `x` with
index `idx`, the triplets `L idx x`, writes the concatenation of `L (idx0 + (x - lo) * c) x`. -/
theorem forRange_emit {K : Type} (c : Nat) (L : Nat → Nat → List (Trp K))
    (body : Nat → Nat × TrpBuf K → Nat × TrpBuf K)
    (hbody : ∀ x idx B, body x (idx, B) = (idx + c, B.putAll (L idx x)))
    (lo n idx0 : Nat) (B0 : TrpBuf K) :
    forRange lo n body (idx0, B0)
      = (idx0 + n * c,
          B0.putAll ((List.range' lo n).flatMap fun x => L (idx0 + (x - lo) * c) x)) := by
  induction n generalizing lo idx0 B0 with
  | zero => simp [forRange, TrpBuf.putAll]
  | succ n ih =>
    have h := ih (lo + 1) (idx0 + c) (B0.putAll (L idx0 lo))
    unfold forRange at h ⊢
    rw [List.range'_succ, List.foldl_cons, hbody, h, List.flatMap_cons, TrpBuf.putAll_append]
    have hc : (List.range' (lo + 1) n).flatMap (fun x => L (idx0 + c + (x - (lo + 1)) * c) x)
        = (List.range' (lo + 1) n).flatMap (fun x => L (idx0 + (x - lo) * c) x) := by
      apply List.flatMap_congr
      intro x hx
      have hlo : lo + 1 ≤ x := (List.mem_range'_1.mp hx).1
      obtain ⟨d, rfl⟩ : ∃ d, x = lo + 1 + d := ⟨x - (lo + 1), by omega⟩
      congr 1
      have e1 : lo + 1 + d - (lo + 1) = d := by omega
      have e2 : lo + 1 + d - lo = d + 1 := by omega
      rw [e1, e2]; ring
    rw [hc]
    simp only [Nat.sub_self, Nat.zero_mul, Nat.add_zero]
    congr 1
    ring

variable {K : Type}

theorem flatMap_single {α β : Type} (f : α → β) (l : List α) :
    (l.flatMap fun x => [f x]) = l.map f := by
  induction l with
  | nil => rfl
  | cons a l ih => simp [List.flatMap_cons, ih]

/-- Two nested counting loops: the inner one writes `T index a k` and increments `index`; after
it the outer one writes `E index a` and adds `e` to `index`. -/
theorem forRange2_emit (A C e : Nat) (T : Nat → Nat → Nat → Trp K) (E : Nat → Nat → List (Trp K))
    (body : Nat → Nat × TrpBuf K → Nat × TrpBuf K)
    (hbody : ∀ a idx B, body a (idx, B) =
      ((forRange 1 C (fun k st => (st.1 + 1, st.2.put (T st.1 a k))) (idx, B)).1 + e,
       (forRange 1 C (fun k st => (st.1 + 1, st.2.put (T st.1 a k))) (idx, B)).2.putAll
          (E (forRange 1 C (fun k st => (st.1 + 1, st.2.put (T st.1 a k))) (idx, B)).1 a)))
    (lo idx0 : Nat) (B0 : TrpBuf K) :
    forRange lo A body (idx0, B0)
      = (idx0 + A * (C + e),
          B0.putAll ((List.range' lo A).flatMap fun a =>
            ((List.range' 1 C).map fun k => T (idx0 + (a - lo) * (C + e) + (k - 1)) a k)
              ++ E (idx0 + (a - lo) * (C + e) + C) a)) := by
  rw [forRange_emit (C + e) (fun idx a =>
    ((List.range' 1 C).map fun k => T (idx + (k - 1)) a k) ++ E (idx + C) a)]
  intro a idx B
  rw [hbody, forRange_emit 1 (fun idx k => [T idx a k]) _ (fun _ _ _ => rfl)]
  simp only [Nat.mul_one, flatMap_single, TrpBuf.putAll_append, Nat.add_assoc]


theorem forRange3_emit (A Bn C ej ei : Nat) (T : Nat → Nat → Nat → Nat → Trp K)
    (E : Nat → Nat → Nat → List (Trp K))
    (body : Nat → Nat × TrpBuf K → Nat × TrpBuf K)
    (hbody : ∀ i idx B, body i (idx, B) =
      ((forRange 1 Bn (fun j st =>
          ((forRange 1 C (fun k st => (st.1 + 1, st.2.put (T st.1 i j k))) st).1 + ej,
           (forRange 1 C (fun k st => (st.1 + 1, st.2.put (T st.1 i j k))) st).2.putAll
            (E (forRange 1 C (fun k st => (st.1 + 1, st.2.put (T st.1 i j k))) st).1 i j)))
          (idx, B)).1 + ei,
       (forRange 1 Bn (fun j st =>
          ((forRange 1 C (fun k st => (st.1 + 1, st.2.put (T st.1 i j k))) st).1 + ej,
           (forRange 1 C (fun k st => (st.1 + 1, st.2.put (T st.1 i j k))) st).2.putAll
            (E (forRange 1 C (fun k st => (st.1 + 1, st.2.put (T st.1 i j k))) st).1 i j)))
          (idx, B)).2))
    (B0 : TrpBuf K) :
    (forRange 1 A body (1, B0)).2
      = B0.putAll ((List.range' 1 A).flatMap fun i => (List.range' 1 Bn).flatMap fun j =>
            ((List.range' 1 C).map fun k =>
              T (1 + (i - 1) * (Bn * (C + ej) + ei) + (j - 1) * (C + ej) + (k - 1)) i j k)
              ++ E (1 + (i - 1) * (Bn * (C + ej) + ei) + (j - 1) * (C + ej) + C) i j) := by
  rw [forRange_emit (Bn * (C + ej) + ei) (fun idx i => (List.range' 1 Bn).flatMap fun j =>
            ((List.range' 1 C).map fun k => T (idx + (j - 1) * (C + ej) + (k - 1)) i j k)
              ++ E (idx + (j - 1) * (C + ej) + C) i j)]
  intro i idx B
  rw [hbody, forRange2_emit Bn C ej (fun idx j k => T idx i j k) (fun idx j => E idx i j) _
    (fun _ _ _ => rfl)]
  simp only [Nat.add_assoc]

theorem pairs_map {β : Type} (A B : Nat) (f : Nat × Nat → β) :
    (pairs A B).map f
      = (List.range' 1 A).flatMap fun a => (List.range' 1 B).map fun b => f (a, b) := by
  simp only [pairs, List.map_flatMap, List.map_map]; rfl

theorem pairs_flatMap {β : Type} (A B : Nat) (f : Nat × Nat → List β) :
    (pairs A B).flatMap f
      = (List.range' 1 A).flatMap fun a => (List.range' 1 B).flatMap fun b => f (a, b) := by
  simp only [pairs, List.flatMap_assoc, List.flatMap_map]

theorem nodes_map {β : Type} (A B C : Nat) (f : Nat × Nat × Nat → β) :
    (nodes A B C).map f
      = (List.range' 1 A).flatMap fun i => (List.range' 1 B).flatMap fun j =>
          (List.range' 1 C).map fun k => f (i, j, k) := by
  simp only [nodes, List.map_flatMap, List.map_map]; rfl

theorem mem_pairs {A B : Nat} {p : Nat × Nat} :
    p ∈ pairs A B ↔ (1 ≤ p.1 ∧ p.1 ≤ A) ∧ (1 ≤ p.2 ∧ p.2 ≤ B) := by
  obtain ⟨a, b⟩ := p
  simp only [pairs, List.mem_flatMap, List.mem_map, List.mem_range'_1, Prod.mk.injEq]
  constructor
  · rintro ⟨a', ha, b', hb, rfl, rfl⟩; omega
  · rintro ⟨ha, hb⟩; exact ⟨a, by omega, b, by omega, rfl, rfl⟩

theorem mem_nodes {A B C : Nat} {p : Nat × Nat × Nat} :
    p ∈ nodes A B C ↔ (1 ≤ p.1 ∧ p.1 ≤ A) ∧ (1 ≤ p.2.1 ∧ p.2.1 ≤ B) ∧ (1 ≤ p.2.2 ∧ p.2.2 ≤ C) := by
  obtain ⟨a, b, c⟩ := p
  simp only [nodes, List.mem_flatMap, List.mem_map, List.mem_range'_1, Prod.mk.injEq]
  constructor
  · rintro ⟨a', ha, b', hb, c', hc, rfl, rfl, rfl⟩; omega
  · rintro ⟨ha, hb, hc⟩; exact ⟨a, by omega, b, by omega, c, by omega, rfl, rfl, rfl⟩

end Loops

namespace Poisson
variable {K : Type} [Field K]

/-! ### Each setter writes its closed-form group -/

theorem set_lowest_diag_eq (P : Poisson K) :
    P.set_lowest_diag = P.withBuf (P.buf.putAll P.closed_lowest_diag) := by
  unfold set_lowest_diag closed_lowest_diag
  dsimp only
  rw [forRange2_emit (P.Ny + 1) P.Nz 1
    (fun idx j k => ⟨idx - 1 + P.Nx * (P.Nz + 1) * (P.Ny + 1), idx - 1, -P.epsilon_avg_X 1 j k⟩)
    (fun _ _ => []) _ (fun _ _ _ => rfl)]
  dsimp only
  congr 2
  simp only [pairs_map, List.append_nil]
  refine List.flatMap_congr fun j hj => List.map_congr_left fun k hk => ?_
  rw [List.mem_range'_1] at hj hk
  simp only [lin, Trp.mk.injEq, and_true, Nat.add_sub_cancel, Nat.sub_self, Nat.zero_mul,
    Nat.zero_add]
  have e : P.Nx * (P.Nz + 1) * (P.Ny + 1) = P.Nx * (P.Ny + 1) * (P.Nz + 1) := by ring
  constructor <;> omega

theorem set_lower_diag_Xs_eq (P : Poisson K) :
    P.set_lower_diag_Xs = P.withBuf (P.buf.putAll P.closed_lower_diag_Xs) := by
  unfold set_lower_diag_Xs closed_lower_diag_Xs
  rw [forRange3_emit P.Nx (P.Ny + 1) P.Nz 1 0
    (fun idx i j k => ⟨idx - 1 + (P.Nz + 1) * (P.Ny + 1), idx - 1, -P.epsilon_avg_X (i + 1) j k⟩)
    (fun _ _ _ => []) _ (fun _ _ _ => rfl)]
  congr 2
  simp only [nodes_map, List.append_nil]
  refine List.flatMap_congr fun i hi => List.flatMap_congr fun j hj =>
    List.map_congr_left fun k hk => ?_
  rw [List.mem_range'_1] at hi hj hk
  simp only [lin, Trp.mk.injEq, and_true, Nat.add_sub_cancel, Nat.add_zero]
  have e : (P.Nz + 1) * (P.Ny + 1) = (P.Ny + 1) * (P.Nz + 1) := Nat.mul_comm _ _
  have e2 : i * (P.Ny + 1) * (P.Nz + 1)
      = (i - 1) * (P.Ny + 1) * (P.Nz + 1) + (P.Ny + 1) * (P.Nz + 1) := by
    obtain ⟨i, rfl⟩ := Nat.exists_eq_add_of_le' hi.1
    simp only [Nat.add_sub_cancel]; ring
  have e3 : (i - 1) * ((P.Ny + 1) * (P.Nz + 1)) = (i - 1) * (P.Ny + 1) * (P.Nz + 1) := by ring
  constructor <;> omega

theorem set_lower_diag_Y_PBCs_eq (P : Poisson K) :
    P.set_lower_diag_Y_PBCs = P.withBuf (P.buf.putAll P.closed_lower_diag_Y_PBCs) := by
  unfold set_lower_diag_Y_PBCs closed_lower_diag_Y_PBCs
  dsimp only
  rw [forRange2_emit (P.Nx + 1) P.Nz (1 + (P.Nz + 1) * P.Ny)
    (fun idx i k => ⟨idx - 1 + (P.Nz + 1) * P.Ny, idx - 1, -P.epsilon_avg_Y i 1 k⟩)
    (fun _ _ => [])]
  case hbody => exact fun _ _ _ => Prod.ext (Nat.add_assoc _ _ _) rfl
  dsimp only
  congr 2
  simp only [pairs_map, List.append_nil]
  refine List.flatMap_congr fun i hi => List.map_congr_left fun k hk => ?_
  rw [List.mem_range'_1] at hi hk
  simp only [lin, Trp.mk.injEq, and_true, Nat.add_sub_cancel, Nat.sub_self, Nat.zero_mul,
    Nat.add_zero]
  have e : (P.Nz + 1) * P.Ny = P.Ny * (P.Nz + 1) := Nat.mul_comm _ _
  have e3 : (i - 1) * (P.Nz + (1 + (P.Nz + 1) * P.Ny)) = (i - 1) * (P.Ny + 1) * (P.Nz + 1) := by
    ring
  constructor <;> omega

theorem set_lower_diag_Ys_eq (P : Poisson K) :
    P.set_lower_diag_Ys = P.withBuf (P.buf.putAll P.closed_lower_diag_Ys) := by
  unfold set_lower_diag_Ys closed_lower_diag_Ys
  rw [forRange3_emit (P.Nx + 1) P.Ny P.Nz 1 (P.Nz + 1)
    (fun idx i j k => ⟨idx - 1 + (P.Nz + 1), idx - 1, -P.epsilon_avg_Y i (j + 1) k⟩)
    (fun _ _ _ => []) _ (fun _ _ _ => rfl)]
  congr 2
  simp only [nodes_map, List.append_nil]
  refine List.flatMap_congr fun i hi => List.flatMap_congr fun j hj =>
    List.map_congr_left fun k hk => ?_
  rw [List.mem_range'_1] at hi hj hk
  simp only [lin, Trp.mk.injEq, and_true, Nat.add_sub_cancel]
  have e2 : j * (P.Nz + 1) = (j - 1) * (P.Nz + 1) + (P.Nz + 1) := by
    obtain ⟨j, rfl⟩ := Nat.exists_eq_add_of_le' hj.1
    simp only [Nat.add_sub_cancel]; ring
  have e3 : (i - 1) * (P.Ny * (P.Nz + 1) + (P.Nz + 1)) = (i - 1) * (P.Ny + 1) * (P.Nz + 1) := by
    ring
  constructor <;> omega

theorem set_main_lower_diag_eq (P : Poisson K) :
    P.set_main_lower_diag = P.withBuf (P.buf.putAll P.closed_main_lower_diag) := by
  unfold set_main_lower_diag closed_main_lower_diag
  rw [forRange3_emit (P.Nx + 1) (P.Ny + 1) (P.Nz - 1) (1 + 1) 0
    (fun idx i j k => ⟨idx, idx - 1, -P.epsilon_avg_Z i j (k + 1)⟩)
    (fun _ _ _ => []) _ (fun _ _ _ => rfl)]
  congr 2
  simp only [nodes_map, List.append_nil]
  refine List.flatMap_congr fun i hi => List.flatMap_congr fun j hj =>
    List.map_congr_left fun k hk => ?_
  rw [List.mem_range'_1] at hi hj hk
  simp only [lin, Trp.mk.injEq, and_true, Nat.add_sub_cancel, Nat.add_zero]
  have e1 : P.Nz - 1 + (1 + 1) = P.Nz + 1 := by omega
  rw [e1]
  have e3 : (i - 1) * ((P.Ny + 1) * (P.Nz + 1)) = (i - 1) * (P.Ny + 1) * (P.Nz + 1) := by ring
  constructor <;> omega

theorem set_main_diag_eq (P : Poisson K) :
    P.set_main_diag = P.withBuf (P.buf.putAll P.closed_main_diag) := by
  unfold set_main_diag closed_main_diag
  rw [forRange3_emit (P.Nx + 1) (P.Ny + 1) P.Nz 1 0
    (fun idx i j k => ⟨idx - 1, idx - 1,
      P.epsilon_avg_X i j k + P.epsilon_avg_X (i + 1) j k + P.epsilon_avg_Y i j k
        + P.epsilon_avg_Y i (j + 1) k + P.epsilon_avg_Z i j k + P.epsilon_avg_Z i j (k + 1)⟩)
    (fun idx _ _ => [⟨idx - 1, idx - 1, 1⟩]) _ (fun _ _ _ => rfl)]
  congr 2
  simp only [pairs_flatMap]
  refine List.flatMap_congr fun i hi => List.flatMap_congr fun j hj => ?_
  rw [List.mem_range'_1] at hi hj
  have e3 : (i - 1) * ((P.Ny + 1) * (P.Nz + 1)) = (i - 1) * (P.Ny + 1) * (P.Nz + 1) := by ring
  congr 1
  · refine List.map_congr_left fun k hk => ?_
    rw [List.mem_range'_1] at hk
    simp only [lin, Trp.mk.injEq, and_true, Nat.add_zero]
    constructor <;> omega
  · simp only [lin, List.cons.injEq, Trp.mk.injEq, and_true, Nat.add_sub_cancel, Nat.add_zero]
    constructor <;> omega

theorem set_main_upper_diag_eq (P : Poisson K) :
    P.set_main_upper_diag = P.withBuf (P.buf.putAll P.closed_main_upper_diag) := by
  unfold set_main_upper_diag closed_main_upper_diag
  rw [forRange3_emit (P.Nx + 1) (P.Ny + 1) P.Nz 1 0
    (fun idx i j k => ⟨idx - 1, idx, -P.epsilon_avg_Z i j (k + 1)⟩)
    (fun _ _ _ => []) _ (fun _ _ _ => rfl)]
  congr 2
  simp only [nodes_map, List.append_nil]
  refine List.flatMap_congr fun i hi => List.flatMap_congr fun j hj =>
    List.map_congr_left fun k hk => ?_
  rw [List.mem_range'_1] at hi hj hk
  simp only [lin, Trp.mk.injEq, and_true, Nat.add_sub_cancel, Nat.add_zero]
  have e3 : (i - 1) * ((P.Ny + 1) * (P.Nz + 1)) = (i - 1) * (P.Ny + 1) * (P.Nz + 1) := by ring
  constructor <;> omega

theorem set_upper_diag_Ys_eq (P : Poisson K) :
    P.set_upper_diag_Ys = P.withBuf (P.buf.putAll P.closed_upper_diag_Ys) := by
  unfold set_upper_diag_Ys closed_upper_diag_Ys
  rw [forRange3_emit (P.Nx + 1) P.Ny P.Nz 1 (P.Nz + 1)
    (fun idx i j k => ⟨idx - 1, idx - 1 + (P.Nz + 1), -P.epsilon_avg_Y i (j + 1) k⟩)
    (fun _ _ _ => []) _ (fun _ _ _ => rfl)]
  congr 2
  simp only [nodes_map, List.append_nil]
  refine List.flatMap_congr fun i hi => List.flatMap_congr fun j hj =>
    List.map_congr_left fun k hk => ?_
  rw [List.mem_range'_1] at hi hj hk
  simp only [lin, Trp.mk.injEq, and_true, Nat.add_sub_cancel]
  have e2 : j * (P.Nz + 1) = (j - 1) * (P.Nz + 1) + (P.Nz + 1) := by
    obtain ⟨j, rfl⟩ := Nat.exists_eq_add_of_le' hj.1
    simp only [Nat.add_sub_cancel]; ring
  have e3 : (i - 1) * (P.Ny * (P.Nz + 1) + (P.Nz + 1)) = (i - 1) * (P.Ny + 1) * (P.Nz + 1) := by
    ring
  constructor <;> omega

theorem set_upper_diag_Y_PBCs_eq (P : Poisson K) :
    P.set_upper_diag_Y_PBCs = P.withBuf (P.buf.putAll P.closed_upper_diag_Y_PBCs) := by
  unfold set_upper_diag_Y_PBCs closed_upper_diag_Y_PBCs
  dsimp only
  rw [forRange2_emit (P.Nx + 1) P.Nz (1 + (P.Nz + 1) * P.Ny)
    (fun idx i k => ⟨idx - 1, idx - 1 + (P.Nz + 1) * P.Ny, -P.epsilon_avg_Y i (P.Ny + 1) k⟩)
    (fun _ _ => [])]
  case hbody => exact fun _ _ _ => Prod.ext (Nat.add_assoc _ _ _) rfl
  dsimp only
  congr 2
  simp only [pairs_map, List.append_nil]
  refine List.flatMap_congr fun i hi => List.map_congr_left fun k hk => ?_
  rw [List.mem_range'_1] at hi hk
  simp only [lin, Trp.mk.injEq, and_true, Nat.add_sub_cancel, Nat.sub_self, Nat.zero_mul,
    Nat.add_zero]
  have e : (P.Nz + 1) * P.Ny = P.Ny * (P.Nz + 1) := Nat.mul_comm _ _
  have e3 : (i - 1) * (P.Nz + (1 + (P.Nz + 1) * P.Ny)) = (i - 1) * (P.Ny + 1) * (P.Nz + 1) := by
    ring
  constructor <;> omega

theorem set_upper_diag_Xs_eq (P : Poisson K) :
    P.set_upper_diag_Xs = P.withBuf (P.buf.putAll P.closed_upper_diag_Xs) := by
  unfold set_upper_diag_Xs closed_upper_diag_Xs
  rw [forRange3_emit P.Nx (P.Ny + 1) P.Nz 1 0
    (fun idx i j k => ⟨idx - 1, idx - 1 + (P.Nz + 1) * (P.Ny + 1), -P.epsilon_avg_X (i + 1) j k⟩)
    (fun _ _ _ => []) _ (fun _ _ _ => rfl)]
  congr 2
  simp only [nodes_map, List.append_nil]
  refine List.flatMap_congr fun i hi => List.flatMap_congr fun j hj =>
    List.map_congr_left fun k hk => ?_
  rw [List.mem_range'_1] at hi hj hk
  simp only [lin, Trp.mk.injEq, and_true, Nat.add_sub_cancel, Nat.add_zero]
  have e : (P.Nz + 1) * (P.Ny + 1) = (P.Ny + 1) * (P.Nz + 1) := Nat.mul_comm _ _
  have e2 : i * (P.Ny + 1) * (P.Nz + 1)
      = (i - 1) * (P.Ny + 1) * (P.Nz + 1) + (P.Ny + 1) * (P.Nz + 1) := by
    obtain ⟨i, rfl⟩ := Nat.exists_eq_add_of_le' hi.1
    simp only [Nat.add_sub_cancel]; ring
  have e3 : (i - 1) * ((P.Ny + 1) * (P.Nz + 1)) = (i - 1) * (P.Ny + 1) * (P.Nz + 1) := by ring
  constructor <;> omega

theorem set_highest_diag_eq (P : Poisson K) :
    P.set_highest_diag = P.withBuf (P.buf.putAll P.closed_highest_diag) := by
  unfold set_highest_diag closed_highest_diag
  dsimp only
  rw [forRange2_emit (P.Ny + 1) P.Nz 1
    (fun idx j k => ⟨idx - 1, idx - 1 + P.Nx * (P.Nz + 1) * (P.Ny + 1),
      -P.epsilon_avg_X (P.Nx + 1) j k⟩)
    (fun _ _ => []) _ (fun _ _ _ => rfl)]
  dsimp only
  congr 2
  simp only [pairs_map, List.append_nil]
  refine List.flatMap_congr fun j hj => List.map_congr_left fun k hk => ?_
  rw [List.mem_range'_1] at hj hk
  simp only [lin, Trp.mk.injEq, and_true, Nat.add_sub_cancel, Nat.sub_self, Nat.zero_mul,
    Nat.zero_add]
  have e : P.Nx * (P.Nz + 1) * (P.Ny + 1) = P.Nx * (P.Ny + 1) * (P.Nz + 1) := by ring
  constructor <;> omega

end Poisson

/-! ### Consecutive writes into the triplet list -/

section Buf
variable {K : Type}

theorem TrpBuf.putAll_trp_cnt (B : TrpBuf K) (l : List (Trp K)) :
    (B.putAll l).trp_cnt = B.trp_cnt + l.length := by
  induction l generalizing B with
  | nil => rfl
  | cons t l ih =>
    show ((B.put t).putAll l).trp_cnt = _
    rw [ih]; simp only [TrpBuf.put, List.length_cons]; omega

/-- Writing `l` from slot `trp_cnt` on, inside the allocated list, replaces exactly the slots
`trp_cnt, ..., trp_cnt + |l| - 1` by `l`. -/
theorem TrpBuf.putAll_triplet_list (B : TrpBuf K) (l : List (Trp K))
    (h : B.trp_cnt + l.length ≤ B.triplet_list.length) :
    (B.putAll l).triplet_list
      = B.triplet_list.take B.trp_cnt ++ l ++ B.triplet_list.drop (B.trp_cnt + l.length) := by
  induction l generalizing B with
  | nil => simp [TrpBuf.putAll]
  | cons t l ih =>
    show ((B.put t).putAll l).triplet_list = _
    have hlen : (B.put t).triplet_list.length = B.triplet_list.length := by
      simp [TrpBuf.put]
    simp only [List.length_cons] at h
    rw [ih (B.put t) (by rw [hlen]; simp only [TrpBuf.put]; omega)]
    simp only [TrpBuf.put, List.length_cons]
    rw [List.set_eq_take_append_cons_drop, if_pos (by omega)]
    have h1 : (List.take B.trp_cnt B.triplet_list).length = B.trp_cnt := by
      rw [List.length_take]; omega
    rw [List.take_append_eq_append_take, List.drop_append_eq_append_drop]
    simp only [h1, List.take_take, List.length_take]
    have e3 : B.trp_cnt + 1 + l.length - B.trp_cnt = (l.length + 0) + 1 := by omega
    have e4 : List.drop (B.trp_cnt + 1 + l.length) (List.take B.trp_cnt B.triplet_list) = [] := by
      apply List.drop_eq_nil_of_le; rw [h1]; omega
    rw [e3, e4, List.drop_succ_cons, List.drop_drop]
    simp only [List.take_succ_cons, List.take_zero, List.nil_append, List.append_assoc,
      List.singleton_append, List.cons_append]
    have e2 : B.trp_cnt + 1 - B.trp_cnt = 1 := by omega
    have e5 : B.trp_cnt + 1 + l.length = B.trp_cnt + (l.length + 1) := by omega
    rw [e2, e5, show (B.trp_cnt + 1) ⊓ B.trp_cnt = B.trp_cnt from by simp]
    rfl

theorem length_flatMap_const {α β : Type} (l : List α) (f : α → List β) (c : Nat)
    (h : ∀ x ∈ l, (f x).length = c) : (l.flatMap f).length = l.length * c := by
  induction l with
  | nil => simp
  | cons a l ih =>
    rw [List.flatMap_cons, List.length_append, h a (List.mem_cons_self _ _),
      ih (fun x hx => h x (List.mem_cons_of_mem _ hx)), List.length_cons]
    ring

theorem length_pairs (A B : Nat) : (pairs A B).length = A * B := by
  unfold pairs
  rw [length_flatMap_const _ _ B (fun _ _ => by simp)]; simp

theorem length_nodes (A B C : Nat) : (nodes A B C).length = A * B * C := by
  unfold nodes
  rw [length_flatMap_const _ _ (B * C) (fun _ _ => by
    rw [length_flatMap_const _ _ C (fun _ _ => by simp)]; simp)]
  simp [Nat.mul_assoc]

end Buf

namespace Poisson
variable {K : Type} [Field K]

/-! ### `setup_matrix` in closed form -/

theorem withBuf_buf (P : Poisson K) (B : TrpBuf K) : (P.withBuf B).buf = B := rfl

theorem closed_triplets_withBuf (P : Poisson K) (B : TrpBuf K) :
    (P.withBuf B).closed_triplets = P.closed_triplets := rfl

theorem closed_lowest_diag_withBuf (P : Poisson K) (B : TrpBuf K) :
    (P.withBuf B).closed_lowest_diag = P.closed_lowest_diag := rfl

theorem closed_lower_diag_Xs_withBuf (P : Poisson K) (B : TrpBuf K) :
    (P.withBuf B).closed_lower_diag_Xs = P.closed_lower_diag_Xs := rfl

theorem closed_lower_diag_Y_PBCs_withBuf (P : Poisson K) (B : TrpBuf K) :
    (P.withBuf B).closed_lower_diag_Y_PBCs = P.closed_lower_diag_Y_PBCs := rfl

theorem closed_lower_diag_Ys_withBuf (P : Poisson K) (B : TrpBuf K) :
    (P.withBuf B).closed_lower_diag_Ys = P.closed_lower_diag_Ys := rfl

theorem closed_main_lower_diag_withBuf (P : Poisson K) (B : TrpBuf K) :
    (P.withBuf B).closed_main_lower_diag = P.closed_main_lower_diag := rfl

theorem closed_main_diag_withBuf (P : Poisson K) (B : TrpBuf K) :
    (P.withBuf B).closed_main_diag = P.closed_main_diag := rfl

theorem closed_main_upper_diag_withBuf (P : Poisson K) (B : TrpBuf K) :
    (P.withBuf B).closed_main_upper_diag = P.closed_main_upper_diag := rfl

theorem closed_upper_diag_Ys_withBuf (P : Poisson K) (B : TrpBuf K) :
    (P.withBuf B).closed_upper_diag_Ys = P.closed_upper_diag_Ys := rfl

theorem closed_upper_diag_Y_PBCs_withBuf (P : Poisson K) (B : TrpBuf K) :
    (P.withBuf B).closed_upper_diag_Y_PBCs = P.closed_upper_diag_Y_PBCs := rfl

theorem closed_upper_diag_Xs_withBuf (P : Poisson K) (B : TrpBuf K) :
    (P.withBuf B).closed_upper_diag_Xs = P.closed_upper_diag_Xs := rfl

theorem closed_highest_diag_withBuf (P : Poisson K) (B : TrpBuf K) :
    (P.withBuf B).closed_highest_diag = P.closed_highest_diag := rfl

theorem withBuf_withBuf (P : Poisson K) (B B' : TrpBuf K) :
    (P.withBuf B).withBuf B' = P.withBuf B' := rfl

/-- The eleven setters, run in the order of `setup_matrix` from `trp_cnt = 0`, write the
closed-form triplet list at consecutive slots. -/
theorem setup_matrix_eq (P : Poisson K) :
    P.setup_matrix =
      { P.withBuf ((⟨0, P.triplet_list⟩ : TrpBuf K).putAll P.closed_triplets) with
        sp_matrix := setFromTriplets
          ((⟨0, P.triplet_list⟩ : TrpBuf K).putAll P.closed_triplets).triplet_list } := by
  have h0 : ({ P with trp_cnt := 0 } : Poisson K) = P.withBuf ⟨0, P.triplet_list⟩ := rfl
  unfold setup_matrix
  simp only [h0]
  simp only [set_lowest_diag_eq, set_lower_diag_Xs_eq, set_lower_diag_Y_PBCs_eq,
    set_lower_diag_Ys_eq, set_main_lower_diag_eq, set_main_diag_eq, set_main_upper_diag_eq,
    set_upper_diag_Ys_eq, set_upper_diag_Y_PBCs_eq, set_upper_diag_Xs_eq, set_highest_diag_eq,
    withBuf_buf, withBuf_withBuf, closed_lowest_diag_withBuf, closed_lower_diag_Xs_withBuf,
    closed_lower_diag_Y_PBCs_withBuf, closed_lower_diag_Ys_withBuf,
    closed_main_lower_diag_withBuf, closed_main_diag_withBuf, closed_main_upper_diag_withBuf,
    closed_upper_diag_Ys_withBuf, closed_upper_diag_Y_PBCs_withBuf, closed_upper_diag_Xs_withBuf,
    closed_highest_diag_withBuf, ← TrpBuf.putAll_append]
  rfl

theorem length_closed_triplets (P : Poisson K) :
    P.closed_triplets.length = (P.Nx + 1) * (P.Ny + 1) * (6 * P.Nz + (P.Nz - 1) + 1) := by
  have hmain : P.closed_main_diag.length = (P.Nx + 1) * (P.Ny + 1) * (P.Nz + 1) := by
    unfold closed_main_diag
    rw [length_flatMap_const _ _ (P.Nz + 1) (fun _ _ => by simp), length_pairs]
  simp only [closed_triplets, List.length_append, hmain]
  simp only [closed_lowest_diag, closed_lower_diag_Xs, closed_lower_diag_Y_PBCs,
    closed_lower_diag_Ys, closed_main_lower_diag, closed_main_upper_diag, closed_upper_diag_Ys,
    closed_upper_diag_Y_PBCs, closed_upper_diag_Xs, closed_highest_diag, List.length_map,
    length_pairs, length_nodes]
  ring

theorem length_closed_triplets_le (P : Poisson K) :
    P.closed_triplets.length ≤ 11 * ((P.Nx + 1) * (P.Ny + 1) * (P.Nz + 1)) := by
  rw [length_closed_triplets]
  have h : 6 * P.Nz + (P.Nz - 1) + 1 ≤ 11 * (P.Nz + 1) := by omega
  calc (P.Nx + 1) * (P.Ny + 1) * (6 * P.Nz + (P.Nz - 1) + 1)
      ≤ (P.Nx + 1) * (P.Ny + 1) * (11 * (P.Nz + 1)) := Nat.mul_le_mul_left _ h
    _ = 11 * ((P.Nx + 1) * (P.Ny + 1) * (P.Nz + 1)) := by ring


/-- C1. `setup_matrix`, which places triplets through the running counter `index`, produces exactly
the closed-form triplet list: on an object whose triplet list has the allocated length
`11 * num_elements` with `num_elements = (Nx+1)(Ny+1)(Nz+1)`, the list after `setup_matrix` is
`closed_triplets` (the eleven groups `(lin .., lin .., value)` in call order) followed by the
untouched remainder of the allocation, and `trp_cnt` is the number of closed-form triplets. -/
theorem setup_matrix_closed_form (P : Poisson K)
    (hn : P.num_elements = (P.Nx + 1) * (P.Ny + 1) * (P.Nz + 1))
    (hlen : P.triplet_list.length = 11 * P.num_elements) :
    P.setup_matrix.triplet_list
        = P.closed_triplets ++ P.triplet_list.drop P.closed_triplets.length
      ∧ P.setup_matrix.trp_cnt = P.closed_triplets.length := by
  have hle := length_closed_triplets_le P
  rw [setup_matrix_eq]
  dsimp only [withBuf]
  rw [TrpBuf.putAll_triplet_list _ _ (by simp only [Nat.zero_add]; omega),
    TrpBuf.putAll_trp_cnt]
  simp

theorem setup_matrix_closed_form_witness :
    demoPoisson.num_elements = (demoPoisson.Nx + 1) * (demoPoisson.Ny + 1) * (demoPoisson.Nz + 1)
      ∧ demoPoisson.triplet_list.length = 11 * demoPoisson.num_elements
      ∧ (demoPoisson.setup_matrix.triplet_list
          = demoPoisson.closed_triplets
              ++ demoPoisson.triplet_list.drop demoPoisson.closed_triplets.length
        ∧ demoPoisson.setup_matrix.trp_cnt = demoPoisson.closed_triplets.length) :=
  ⟨by decide, by simp [demoPoisson, init, demoParams],
    setup_matrix_closed_form demoPoisson (by decide) (by simp [demoPoisson, init, demoParams])⟩

end Poisson

/-! ### Row folds of triplet lists -/

section RowFold
variable {K : Type} [Field K] {M : Type} [AddCommMonoid M]

theorem rowFold_nil (φ : Nat → K → M) (r : Nat) : rowFold φ ([] : List (Trp K)) r = 0 := rfl

theorem rowFold_cons (φ : Nat → K → M) (t : Trp K) (tl : List (Trp K)) (r : Nat) :
    rowFold φ (t :: tl) r = (if t.row = r then φ t.col t.value else 0) + rowFold φ tl r := by
  simp [rowFold]

theorem rowFold_append (φ : Nat → K → M) (l₁ l₂ : List (Trp K)) (r : Nat) :
    rowFold φ (l₁ ++ l₂) r = rowFold φ l₁ r + rowFold φ l₂ r := by
  simp [rowFold]

theorem rowFold_flatMap {ι : Type} (φ : Nat → K → M) (l : List ι) (f : ι → List (Trp K))
    (r : Nat) :
    rowFold φ (l.flatMap f) r = (l.map fun x => rowFold φ (f x) r).sum := by
  induction l with
  | nil => rfl
  | cons a l ih => simp [List.flatMap_cons, rowFold_append, ih]

theorem rowFold_replicate_init (φ : Nat → K → M) (hφ : ∀ c, φ c 0 = 0) (m r : Nat) :
    rowFold φ (List.replicate m (Trp.init : Trp K)) r = 0 := by
  induction m with
  | zero => rfl
  | succ m ih => rw [List.replicate_succ, rowFold_cons, ih]; simp [Trp.init, hφ]

/-- If exactly one element `x0` of a duplicate-free index list is mapped to row `r`, the row sum
of the mapped list is the contribution of `x0`. -/
theorem rowFold_map_unique {ι : Type} (φ : Nat → K → M) (l : List ι) (hnd : l.Nodup)
    (T : ι → Trp K) (r : Nat) (x0 : ι) (hx0 : x0 ∈ l)
    (h : ∀ x ∈ l, (T x).row = r ↔ x = x0) :
    rowFold φ (l.map T) r = φ (T x0).col (T x0).value := by
  induction l with
  | nil => simp at hx0
  | cons a l ih =>
    rw [List.map_cons, rowFold_cons]
    rw [List.nodup_cons] at hnd
    by_cases ha : a = x0
    · subst ha
      rw [if_pos ((h a (List.mem_cons_self _ _)).2 rfl)]
      have hz : rowFold φ (l.map T) r = 0 := by
        unfold rowFold
        rw [List.map_map]
        apply List.sum_eq_zero
        intro v hv
        obtain ⟨x, hx, rfl⟩ := List.mem_map.1 hv
        have hne : ¬ (T x).row = r := fun hr =>
          hnd.1 ((h x (List.mem_cons_of_mem _ hx)).1 hr ▸ hx)
        simp [hne]
      rw [hz, add_zero]
    · have hne : ¬ (T a).row = r := fun hr => ha ((h a (List.mem_cons_self _ _)).1 hr)
      rw [if_neg hne, zero_add]
      have hx0' : x0 ∈ l := by
        rcases List.mem_cons.1 hx0 with h1 | h1
        · exact absurd h1.symm ha
        · exact h1
      exact ih hnd.2 hx0' (fun x hx => h x (List.mem_cons_of_mem _ hx))

/-- If no element of the index list is mapped to row `r`, the row sum is `0`. -/
theorem rowFold_map_none {ι : Type} (φ : Nat → K → M) (l : List ι)
    (T : ι → Trp K) (r : Nat) (h : ∀ x ∈ l, (T x).row ≠ r) :
    rowFold φ (l.map T) r = 0 := by
  unfold rowFold
  rw [List.map_map]
  apply List.sum_eq_zero
  intro v hv
  obtain ⟨x, hx, rfl⟩ := List.mem_map.1 hv
  simp [h x hx]

theorem nodup_pairs (A B : Nat) : (pairs A B).Nodup := by
  unfold pairs
  rw [List.nodup_flatMap]
  constructor
  · intro a _
    exact (List.nodup_range' 1 B).map (fun b b' h => (Prod.mk.inj h).2)
  · refine (List.nodup_range' 1 A).imp ?_
    intro a a' hne
    simp only [Function.onFun, List.disjoint_left, List.mem_map]
    rintro p ⟨b, _, rfl⟩ ⟨b', _, h⟩
    exact hne (Prod.mk.inj h).1.symm

theorem nodup_nodes (A B C : Nat) : (nodes A B C).Nodup := by
  unfold nodes
  rw [List.nodup_flatMap]
  constructor
  · intro a _
    rw [List.nodup_flatMap]
    constructor
    · intro b _
      exact (List.nodup_range' 1 C).map (fun c c' h => (Prod.mk.inj (Prod.mk.inj h).2).2)
    · refine (List.nodup_range' 1 B).imp ?_
      intro b b' hne
      simp only [Function.onFun, List.disjoint_left, List.mem_map]
      rintro p ⟨c, _, rfl⟩ ⟨c', _, h⟩
      exact hne (Prod.mk.inj (Prod.mk.inj h).2).1.symm
  · refine (List.nodup_range' 1 A).imp ?_
    intro a a' hne
    simp only [Function.onFun, List.disjoint_left, List.mem_flatMap, List.mem_map]
    rintro p ⟨b, _, c, _, rfl⟩ ⟨b', _, c', _, h⟩
    exact hne (Prod.mk.inj h).1.symm

end RowFold

/-! ### The linearization is a bijection onto `0 .. (Nx+1)(Ny+1)(Nz+1) - 1` -/

section Lin

/-- Quotient and remainder of a division by `m` are determined by the number. -/
theorem quot_rem_unique (m q₁ r₁ q₂ r₂ : Nat) (h₁ : r₁ < m) (h₂ : r₂ < m)
    (heq : q₁ * m + r₁ = q₂ * m + r₂) : q₁ = q₂ ∧ r₁ = r₂ := by
  have hq : q₁ = q₂ := by
    rcases Nat.lt_trichotomy q₁ q₂ with hlt | hq | hgt
    · have hstep := Nat.mul_le_mul_right m (Nat.succ_le_of_lt hlt)
      rw [Nat.succ_mul] at hstep
      omega
    · exact hq
    · have hstep := Nat.mul_le_mul_right m (Nat.succ_le_of_lt hgt)
      rw [Nat.succ_mul] at hstep
      omega
  subst hq
  exact ⟨rfl, by omega⟩

variable {K : Type} [Field K]

/-- The linearization is injective on `i >= 1`, `1 <= j <= Ny+1`, `1 <= k <= Nz+1`. -/
theorem Poisson.lin_eq_iff (P : Poisson K) {i j k i' j' k' : Nat} (hi : 1 ≤ i) (hi' : 1 ≤ i')
    (hj : 1 ≤ j ∧ j ≤ P.Ny + 1) (hj' : 1 ≤ j' ∧ j' ≤ P.Ny + 1)
    (hk : 1 ≤ k ∧ k ≤ P.Nz + 1) (hk' : 1 ≤ k' ∧ k' ≤ P.Nz + 1) :
    P.lin i j k = P.lin i' j' k' ↔ i = i' ∧ j = j' ∧ k = k' := by
  constructor
  · intro h
    unfold Poisson.lin at h
    have e : ∀ a b : Nat, a * (P.Ny + 1) * (P.Nz + 1) + b * (P.Nz + 1)
        = (a * (P.Ny + 1) + b) * (P.Nz + 1) := fun a b => by ring
    rw [Nat.add_assoc, Nat.add_assoc, ← Nat.add_assoc _ _ (k - 1), ← Nat.add_assoc _ _ (k' - 1),
      e, e] at h
    obtain ⟨h1, h2⟩ := quot_rem_unique (P.Nz + 1) _ _ _ _ (by omega) (by omega) h
    obtain ⟨h3, h4⟩ := quot_rem_unique (P.Ny + 1) _ _ _ _ (by omega) (by omega) h1
    omega
  · rintro ⟨rfl, rfl, rfl⟩; rfl

/-- Every node of the grid has a linear index below `(Nx+1)(Ny+1)(Nz+1)`. -/
theorem Poisson.lin_lt (P : Poisson K) {i j k : Nat} (hi : 1 ≤ i ∧ i ≤ P.Nx + 1)
    (hj : 1 ≤ j ∧ j ≤ P.Ny + 1) (hk : 1 ≤ k ∧ k ≤ P.Nz + 1) :
    P.lin i j k < (P.Nx + 1) * (P.Ny + 1) * (P.Nz + 1) := by
  unfold Poisson.lin
  have e : ∀ a b : Nat, a * (P.Ny + 1) * (P.Nz + 1) + b * (P.Nz + 1)
      = (a * (P.Ny + 1) + b) * (P.Nz + 1) := fun a b => by ring
  rw [e]
  have h1 : (i - 1) * (P.Ny + 1) + (j - 1) + 1 ≤ (P.Nx + 1) * (P.Ny + 1) := by
    have := Nat.mul_le_mul_right (P.Ny + 1) (show i - 1 + 1 ≤ P.Nx + 1 by omega)
    rw [Nat.succ_mul] at this
    omega
  have h2 := Nat.mul_le_mul_right (P.Nz + 1) h1
  rw [Nat.succ_mul] at h2
  omega

end Lin

namespace Poisson
variable {K : Type} [Field K] {M : Type} [AddCommMonoid M]

/-! ### The contribution of each group to a row: the stencil -/

/-- Row sum of a group indexed by a box of nodes whose rows are the shifted nodes
`lin (a + da) (b + db) (c + dc)`: the only contribution to row `lin i j k` comes from the node
`(i - da, j - db, k - dc)`, when it lies in the box. -/
theorem rowFold_nodes_shift (φ : Nat → K → M) (P : Poisson K) (A B C da db dc : Nat)
    (col : Nat → Nat → Nat → Nat) (val : Nat → Nat → Nat → K)
    (hB : B + db ≤ P.Ny + 1) (hC : C + dc ≤ P.Nz + 1) {i j k : Nat}
    (hi : 1 ≤ i) (hj : 1 ≤ j ∧ j ≤ P.Ny + 1) (hk : 1 ≤ k ∧ k ≤ P.Nz + 1) :
    rowFold φ ((nodes A B C).map fun p =>
        (⟨P.lin (p.1 + da) (p.2.1 + db) (p.2.2 + dc), col p.1 p.2.1 p.2.2,
          val p.1 p.2.1 p.2.2⟩ : Trp K)) (P.lin i j k)
      = if (da + 1 ≤ i ∧ i ≤ A + da) ∧ (db + 1 ≤ j ∧ j ≤ B + db) ∧ (dc + 1 ≤ k ∧ k ≤ C + dc)
        then φ (col (i - da) (j - db) (k - dc)) (val (i - da) (j - db) (k - dc)) else 0 := by
  split_ifs with h
  · rw [rowFold_map_unique φ _ (nodup_nodes A B C) _ _ (i - da, j - db, k - dc)
      (mem_nodes.2 (by dsimp only; omega))]
    rintro ⟨a, b, c⟩ hx
    rw [mem_nodes] at hx
    dsimp only at hx ⊢
    rw [P.lin_eq_iff (by omega) hi (by omega) hj (by omega) hk]
    simp only [Prod.mk.injEq]
    omega
  · apply rowFold_map_none
    rintro ⟨a, b, c⟩ hx heq
    rw [mem_nodes] at hx
    dsimp only at hx heq
    rw [P.lin_eq_iff (by omega) hi (by omega) hj (by omega) hk] at heq
    omega

theorem rowFold_lower_diag_Xs (φ : Nat → K → M) (P : Poisson K) {i j k : Nat}
    (hi : 1 ≤ i ∧ i ≤ P.Nx + 1) (hj : 1 ≤ j ∧ j ≤ P.Ny + 1) (hk : 1 ≤ k ∧ k ≤ P.Nz + 1) :
    rowFold φ P.closed_lower_diag_Xs (P.lin i j k)
      = if 2 ≤ i ∧ k ≤ P.Nz then φ (P.lin (i - 1) j k) (-P.epsilon_avg_X i j k) else 0 := by
  have h := rowFold_nodes_shift φ P P.Nx (P.Ny + 1) P.Nz 1 0 0 (fun a b c => P.lin a b c)
    (fun a b c => -P.epsilon_avg_X (a + 1) b c) (by omega) (by omega) hi.1 hj hk
  refine (h.trans ?_)
  by_cases hc : 2 ≤ i ∧ k ≤ P.Nz
  · rw [if_pos hc, if_pos (by omega)]
    simp only [Nat.sub_zero, Nat.sub_add_cancel (show 1 ≤ i by omega)]
  · rw [if_neg hc, if_neg (by omega)]

theorem rowFold_pairs_X (φ : Nat → K → M) (P : Poisson K) (B C I0 : Nat)
    (col : Nat → Nat → Nat) (val : Nat → Nat → K) (hI0 : 1 ≤ I0)
    (hB : B ≤ P.Ny + 1) (hC : C ≤ P.Nz + 1) {i j k : Nat}
    (hi : 1 ≤ i) (hj : 1 ≤ j ∧ j ≤ P.Ny + 1) (hk : 1 ≤ k ∧ k ≤ P.Nz + 1) :
    rowFold φ ((pairs B C).map fun p =>
        (⟨P.lin I0 p.1 p.2, col p.1 p.2, val p.1 p.2⟩ : Trp K)) (P.lin i j k)
      = if i = I0 ∧ j ≤ B ∧ k ≤ C then φ (col j k) (val j k) else 0 := by
  split_ifs with h
  · rw [rowFold_map_unique φ _ (nodup_pairs B C) _ _ (j, k) (mem_pairs.2 (by dsimp only; omega))]
    rintro ⟨b, c⟩ hx
    rw [mem_pairs] at hx
    dsimp only at hx ⊢
    rw [P.lin_eq_iff hI0 hi (by omega) hj (by omega) hk]
    simp only [Prod.mk.injEq]
    omega
  · apply rowFold_map_none
    rintro ⟨b, c⟩ hx heq
    rw [mem_pairs] at hx
    dsimp only at hx heq
    rw [P.lin_eq_iff hI0 hi (by omega) hj (by omega) hk] at heq
    omega

theorem rowFold_pairs_Y (φ : Nat → K → M) (P : Poisson K) (A C J0 : Nat)
    (col : Nat → Nat → Nat) (val : Nat → Nat → K) (hJ0 : 1 ≤ J0 ∧ J0 ≤ P.Ny + 1)
    (hC : C ≤ P.Nz + 1) {i j k : Nat}
    (hi : 1 ≤ i) (hj : 1 ≤ j ∧ j ≤ P.Ny + 1) (hk : 1 ≤ k ∧ k ≤ P.Nz + 1) :
    rowFold φ ((pairs A C).map fun p =>
        (⟨P.lin p.1 J0 p.2, col p.1 p.2, val p.1 p.2⟩ : Trp K)) (P.lin i j k)
      = if i ≤ A ∧ j = J0 ∧ k ≤ C then φ (col i k) (val i k) else 0 := by
  split_ifs with h
  · rw [rowFold_map_unique φ _ (nodup_pairs A C) _ _ (i, k) (mem_pairs.2 (by dsimp only; omega))]
    rintro ⟨a, c⟩ hx
    rw [mem_pairs] at hx
    dsimp only at hx ⊢
    rw [P.lin_eq_iff (by omega) hi hJ0 hj (by omega) hk]
    simp only [Prod.mk.injEq]
    omega
  · apply rowFold_map_none
    rintro ⟨a, c⟩ hx heq
    rw [mem_pairs] at hx
    dsimp only at hx heq
    rw [P.lin_eq_iff (by omega) hi hJ0 hj (by omega) hk] at heq
    omega

theorem rowFold_pairs_Z (φ : Nat → K → M) (P : Poisson K) (A B K0 : Nat)
    (col : Nat → Nat → Nat) (val : Nat → Nat → K) (hK0 : 1 ≤ K0 ∧ K0 ≤ P.Nz + 1)
    (hB : B ≤ P.Ny + 1) {i j k : Nat}
    (hi : 1 ≤ i) (hj : 1 ≤ j ∧ j ≤ P.Ny + 1) (hk : 1 ≤ k ∧ k ≤ P.Nz + 1) :
    rowFold φ ((pairs A B).map fun p =>
        (⟨P.lin p.1 p.2 K0, col p.1 p.2, val p.1 p.2⟩ : Trp K)) (P.lin i j k)
      = if i ≤ A ∧ j ≤ B ∧ k = K0 then φ (col i j) (val i j) else 0 := by
  split_ifs with h
  · rw [rowFold_map_unique φ _ (nodup_pairs A B) _ _ (i, j) (mem_pairs.2 (by dsimp only; omega))]
    rintro ⟨a, b⟩ hx
    rw [mem_pairs] at hx
    dsimp only at hx ⊢
    rw [P.lin_eq_iff (by omega) hi (by omega) hj hK0 hk]
    simp only [Prod.mk.injEq]
    omega
  · apply rowFold_map_none
    rintro ⟨a, b⟩ hx heq
    rw [mem_pairs] at hx
    dsimp only at hx heq
    rw [P.lin_eq_iff (by omega) hi (by omega) hj hK0 hk] at heq
    omega

theorem rowFold_lowest_diag (φ : Nat → K → M) (P : Poisson K) {i j k : Nat}
    (hi : 1 ≤ i ∧ i ≤ P.Nx + 1) (hj : 1 ≤ j ∧ j ≤ P.Ny + 1) (hk : 1 ≤ k ∧ k ≤ P.Nz + 1) :
    rowFold φ P.closed_lowest_diag (P.lin i j k)
      = if i = P.Nx + 1 ∧ k ≤ P.Nz then φ (P.lin 1 j k) (-P.epsilon_avg_X 1 j k) else 0 := by
  have h := rowFold_pairs_X φ P (P.Ny + 1) P.Nz (P.Nx + 1) (fun b c => P.lin 1 b c)
    (fun b c => -P.epsilon_avg_X 1 b c) (by omega) (by omega) (by omega) hi.1 hj hk
  refine (h.trans ?_)
  by_cases hc : i = P.Nx + 1 ∧ k ≤ P.Nz
  · rw [if_pos hc, if_pos (by omega)]
  · rw [if_neg hc, if_neg (by omega)]

theorem rowFold_lower_diag_Y_PBCs (φ : Nat → K → M) (P : Poisson K) {i j k : Nat}
    (hi : 1 ≤ i ∧ i ≤ P.Nx + 1) (hj : 1 ≤ j ∧ j ≤ P.Ny + 1) (hk : 1 ≤ k ∧ k ≤ P.Nz + 1) :
    rowFold φ P.closed_lower_diag_Y_PBCs (P.lin i j k)
      = if j = P.Ny + 1 ∧ k ≤ P.Nz then φ (P.lin i 1 k) (-P.epsilon_avg_Y i 1 k) else 0 := by
  have h := rowFold_pairs_Y φ P (P.Nx + 1) P.Nz (P.Ny + 1) (fun a c => P.lin a 1 c)
    (fun a c => -P.epsilon_avg_Y a 1 c) (by omega) (by omega) hi.1 hj hk
  refine (h.trans ?_)
  by_cases hc : j = P.Ny + 1 ∧ k ≤ P.Nz
  · rw [if_pos hc, if_pos (by omega)]
  · rw [if_neg hc, if_neg (by omega)]

theorem rowFold_lower_diag_Ys (φ : Nat → K → M) (P : Poisson K) {i j k : Nat}
    (hi : 1 ≤ i ∧ i ≤ P.Nx + 1) (hj : 1 ≤ j ∧ j ≤ P.Ny + 1) (hk : 1 ≤ k ∧ k ≤ P.Nz + 1) :
    rowFold φ P.closed_lower_diag_Ys (P.lin i j k)
      = if 2 ≤ j ∧ k ≤ P.Nz then φ (P.lin i (j - 1) k) (-P.epsilon_avg_Y i j k) else 0 := by
  have h := rowFold_nodes_shift φ P (P.Nx + 1) P.Ny P.Nz 0 1 0 (fun a b c => P.lin a b c)
    (fun a b c => -P.epsilon_avg_Y a (b + 1) c) (by omega) (by omega) hi.1 hj hk
  refine (h.trans ?_)
  by_cases hc : 2 ≤ j ∧ k ≤ P.Nz
  · rw [if_pos hc, if_pos (by omega)]
    simp only [Nat.sub_zero, Nat.sub_add_cancel (show 1 ≤ j by omega)]
  · rw [if_neg hc, if_neg (by omega)]

theorem rowFold_main_lower_diag (φ : Nat → K → M) (P : Poisson K) {i j k : Nat}
    (hi : 1 ≤ i ∧ i ≤ P.Nx + 1) (hj : 1 ≤ j ∧ j ≤ P.Ny + 1) (hk : 1 ≤ k ∧ k ≤ P.Nz + 1) :
    rowFold φ P.closed_main_lower_diag (P.lin i j k)
      = if 2 ≤ k ∧ k ≤ P.Nz then φ (P.lin i j (k - 1)) (-P.epsilon_avg_Z i j k) else 0 := by
  have h := rowFold_nodes_shift φ P (P.Nx + 1) (P.Ny + 1) (P.Nz - 1) 0 0 1
    (fun a b c => P.lin a b c)
    (fun a b c => -P.epsilon_avg_Z a b (c + 1)) (by omega) (by omega) hi.1 hj hk
  refine (h.trans ?_)
  by_cases hc : 2 ≤ k ∧ k ≤ P.Nz
  · rw [if_pos hc, if_pos (by omega)]
    simp only [Nat.sub_zero, Nat.sub_add_cancel (show 1 ≤ k by omega)]
  · rw [if_neg hc, if_neg (by omega)]

theorem rowFold_main_upper_diag (φ : Nat → K → M) (P : Poisson K) {i j k : Nat}
    (hi : 1 ≤ i ∧ i ≤ P.Nx + 1) (hj : 1 ≤ j ∧ j ≤ P.Ny + 1) (hk : 1 ≤ k ∧ k ≤ P.Nz + 1) :
    rowFold φ P.closed_main_upper_diag (P.lin i j k)
      = if k ≤ P.Nz then φ (P.lin i j (k + 1)) (-P.epsilon_avg_Z i j (k + 1)) else 0 := by
  have h := rowFold_nodes_shift φ P (P.Nx + 1) (P.Ny + 1) P.Nz 0 0 0
    (fun a b c => P.lin a b (c + 1))
    (fun a b c => -P.epsilon_avg_Z a b (c + 1)) (by omega) (by omega) hi.1 hj hk
  refine (h.trans ?_)
  by_cases hc : k ≤ P.Nz
  · rw [if_pos hc, if_pos (by omega)]
    simp only [Nat.sub_zero]
  · rw [if_neg hc, if_neg (by omega)]

theorem rowFold_upper_diag_Ys (φ : Nat → K → M) (P : Poisson K) {i j k : Nat}
    (hi : 1 ≤ i ∧ i ≤ P.Nx + 1) (hj : 1 ≤ j ∧ j ≤ P.Ny + 1) (hk : 1 ≤ k ∧ k ≤ P.Nz + 1) :
    rowFold φ P.closed_upper_diag_Ys (P.lin i j k)
      = if j ≤ P.Ny ∧ k ≤ P.Nz then φ (P.lin i (j + 1) k) (-P.epsilon_avg_Y i (j + 1) k)
        else 0 := by
  have h := rowFold_nodes_shift φ P (P.Nx + 1) P.Ny P.Nz 0 0 0
    (fun a b c => P.lin a (b + 1) c)
    (fun a b c => -P.epsilon_avg_Y a (b + 1) c) (by omega) (by omega) hi.1 hj hk
  refine (h.trans ?_)
  by_cases hc : j ≤ P.Ny ∧ k ≤ P.Nz
  · rw [if_pos hc, if_pos (by omega)]
    simp only [Nat.sub_zero]
  · rw [if_neg hc, if_neg (by omega)]

theorem rowFold_upper_diag_Y_PBCs (φ : Nat → K → M) (P : Poisson K) {i j k : Nat}
    (hi : 1 ≤ i ∧ i ≤ P.Nx + 1) (hj : 1 ≤ j ∧ j ≤ P.Ny + 1) (hk : 1 ≤ k ∧ k ≤ P.Nz + 1) :
    rowFold φ P.closed_upper_diag_Y_PBCs (P.lin i j k)
      = if j = 1 ∧ k ≤ P.Nz then φ (P.lin i (P.Ny + 1) k) (-P.epsilon_avg_Y i (P.Ny + 1) k)
        else 0 := by
  have h := rowFold_pairs_Y φ P (P.Nx + 1) P.Nz 1 (fun a c => P.lin a (P.Ny + 1) c)
    (fun a c => -P.epsilon_avg_Y a (P.Ny + 1) c) (by omega) (by omega) hi.1 hj hk
  refine (h.trans ?_)
  by_cases hc : j = 1 ∧ k ≤ P.Nz
  · rw [if_pos hc, if_pos (by omega)]
  · rw [if_neg hc, if_neg (by omega)]

theorem rowFold_upper_diag_Xs (φ : Nat → K → M) (P : Poisson K) {i j k : Nat}
    (hi : 1 ≤ i ∧ i ≤ P.Nx + 1) (hj : 1 ≤ j ∧ j ≤ P.Ny + 1) (hk : 1 ≤ k ∧ k ≤ P.Nz + 1) :
    rowFold φ P.closed_upper_diag_Xs (P.lin i j k)
      = if i ≤ P.Nx ∧ k ≤ P.Nz then φ (P.lin (i + 1) j k) (-P.epsilon_avg_X (i + 1) j k)
        else 0 := by
  have h := rowFold_nodes_shift φ P P.Nx (P.Ny + 1) P.Nz 0 0 0
    (fun a b c => P.lin (a + 1) b c)
    (fun a b c => -P.epsilon_avg_X (a + 1) b c) (by omega) (by omega) hi.1 hj hk
  refine (h.trans ?_)
  by_cases hc : i ≤ P.Nx ∧ k ≤ P.Nz
  · rw [if_pos hc, if_pos (by omega)]
    simp only [Nat.sub_zero]
  · rw [if_neg hc, if_neg (by omega)]

theorem rowFold_highest_diag (φ : Nat → K → M) (P : Poisson K) {i j k : Nat}
    (hi : 1 ≤ i ∧ i ≤ P.Nx + 1) (hj : 1 ≤ j ∧ j ≤ P.Ny + 1) (hk : 1 ≤ k ∧ k ≤ P.Nz + 1) :
    rowFold φ P.closed_highest_diag (P.lin i j k)
      = if i = 1 ∧ k ≤ P.Nz then φ (P.lin (P.Nx + 1) j k) (-P.epsilon_avg_X (P.Nx + 1) j k)
        else 0 := by
  have h := rowFold_pairs_X φ P (P.Ny + 1) P.Nz 1 (fun b c => P.lin (P.Nx + 1) b c)
    (fun b c => -P.epsilon_avg_X (P.Nx + 1) b c) (by omega) (by omega) (by omega) hi.1 hj hk
  refine (h.trans ?_)
  by_cases hc : i = 1 ∧ k ≤ P.Nz
  · rw [if_pos hc, if_pos (by omega)]
  · rw [if_neg hc, if_neg (by omega)]

theorem rowFold_main_diag (φ : Nat → K → M) (P : Poisson K) {i j k : Nat}
    (hi : 1 ≤ i ∧ i ≤ P.Nx + 1) (hj : 1 ≤ j ∧ j ≤ P.Ny + 1) (hk : 1 ≤ k ∧ k ≤ P.Nz + 1) :
    rowFold φ P.closed_main_diag (P.lin i j k)
      = if k ≤ P.Nz then
          φ (P.lin i j k) (P.epsilon_avg_X i j k + P.epsilon_avg_X (i + 1) j k
            + P.epsilon_avg_Y i j k + P.epsilon_avg_Y i (j + 1) k + P.epsilon_avg_Z i j k
            + P.epsilon_avg_Z i j (k + 1))
        else φ (P.lin i j k) 1 := by
  have hsplit : rowFold φ P.closed_main_diag (P.lin i j k)
      = rowFold φ ((nodes (P.Nx + 1) (P.Ny + 1) P.Nz).map fun p =>
          (⟨P.lin (p.1 + 0) (p.2.1 + 0) (p.2.2 + 0), P.lin p.1 p.2.1 p.2.2,
            P.epsilon_avg_X p.1 p.2.1 p.2.2 + P.epsilon_avg_X (p.1 + 1) p.2.1 p.2.2
            + P.epsilon_avg_Y p.1 p.2.1 p.2.2 + P.epsilon_avg_Y p.1 (p.2.1 + 1) p.2.2
            + P.epsilon_avg_Z p.1 p.2.1 p.2.2 + P.epsilon_avg_Z p.1 p.2.1 (p.2.2 + 1)⟩ : Trp K))
          (P.lin i j k)
        + rowFold φ ((pairs (P.Nx + 1) (P.Ny + 1)).map fun p =>
          (⟨P.lin p.1 p.2 (P.Nz + 1), P.lin p.1 p.2 (P.Nz + 1), 1⟩ : Trp K)) (P.lin i j k) := by
    unfold closed_main_diag
    rw [nodes_map, ← flatMap_single _ (pairs (P.Nx + 1) (P.Ny + 1)), pairs_flatMap, pairs_flatMap]
    simp only [rowFold_flatMap, rowFold_append, List.sum_map_add, Nat.add_zero]
  rw [hsplit, rowFold_nodes_shift φ P (P.Nx + 1) (P.Ny + 1) P.Nz 0 0 0
    (fun a b c => P.lin a b c)
    (fun a b c => P.epsilon_avg_X a b c + P.epsilon_avg_X (a + 1) b c
            + P.epsilon_avg_Y a b c + P.epsilon_avg_Y a (b + 1) c
            + P.epsilon_avg_Z a b c + P.epsilon_avg_Z a b (c + 1)) (by omega) (by omega)
    hi.1 hj hk, rowFold_pairs_Z φ P (P.Nx + 1) (P.Ny + 1) (P.Nz + 1)
    (fun a b => P.lin a b (P.Nz + 1)) (fun _ _ => 1) (by omega) (by omega)
    hi.1 hj hk]
  by_cases hc : k ≤ P.Nz
  · rw [if_pos hc, if_pos (by omega), if_neg (by omega), add_zero]
    simp only [Nat.sub_zero]
  · rw [if_neg hc, if_neg (by omega), if_pos (by omega), zero_add]
    have : k = P.Nz + 1 := by omega
    rw [this]


theorem rowFold_closed_triplets (φ : Nat → K → M) (P : Poisson K) {i j k : Nat}
    (hi : 1 ≤ i ∧ i ≤ P.Nx + 1) (hj : 1 ≤ j ∧ j ≤ P.Ny + 1) (hk : 1 ≤ k ∧ k ≤ P.Nz + 1) :
    rowFold φ P.closed_triplets (P.lin i j k) = P.stencil φ i j k := by
  unfold closed_triplets stencil
  simp only [rowFold_append]
  rw [rowFold_lowest_diag φ P hi hj hk, rowFold_lower_diag_Xs φ P hi hj hk,
    rowFold_lower_diag_Y_PBCs φ P hi hj hk, rowFold_lower_diag_Ys φ P hi hj hk,
    rowFold_main_lower_diag φ P hi hj hk, rowFold_main_diag φ P hi hj hk,
    rowFold_main_upper_diag φ P hi hj hk, rowFold_upper_diag_Ys φ P hi hj hk,
    rowFold_upper_diag_Y_PBCs φ P hi hj hk, rowFold_upper_diag_Xs φ P hi hj hk,
    rowFold_highest_diag φ P hi hj hk]

/-- On a freshly constructed object the triplet list after `setup_matrix` is the closed-form
list followed by default triplets. -/
theorem setup_matrix_triplet_list_fresh (P : Poisson K)
    (hn : P.num_elements = (P.Nx + 1) * (P.Ny + 1) * (P.Nz + 1))
    (hfresh : P.triplet_list = List.replicate (11 * P.num_elements) Trp.init) :
    P.setup_matrix.triplet_list
      = P.closed_triplets
        ++ List.replicate (11 * P.num_elements - P.closed_triplets.length) Trp.init := by
  have hle := length_closed_triplets_le P
  rw [setup_matrix_eq]
  dsimp only [withBuf]
  rw [TrpBuf.putAll_triplet_list _ _ (by
    simp only [Nat.zero_add, hfresh, List.length_replicate]; omega)]
  simp [hfresh]

theorem setup_matrix_trp_cnt (P : Poisson K) :
    P.setup_matrix.trp_cnt = P.closed_triplets.length := by
  rw [setup_matrix_eq]
  dsimp only [withBuf]
  rw [TrpBuf.putAll_trp_cnt]; simp

theorem setup_matrix_sp_matrix (P : Poisson K) :
    P.setup_matrix.sp_matrix = setFromTriplets P.setup_matrix.triplet_list := by
  rw [setup_matrix_eq]
  dsimp only [withBuf]

theorem setup_matrix_rowFold (φ : Nat → K → M) (hφ : ∀ c, φ c 0 = 0) (P : Poisson K)
    (hn : P.num_elements = (P.Nx + 1) * (P.Ny + 1) * (P.Nz + 1))
    (hfresh : P.triplet_list = List.replicate (11 * P.num_elements) Trp.init) {i j k : Nat}
    (hi : 1 ≤ i ∧ i ≤ P.Nx + 1) (hj : 1 ≤ j ∧ j ≤ P.Ny + 1) (hk : 1 ≤ k ∧ k ≤ P.Nz + 1) :
    rowFold φ P.setup_matrix.triplet_list (P.lin i j k) = P.stencil φ i j k := by
  rw [setup_matrix_triplet_list_fresh P hn hfresh, rowFold_append,
    rowFold_replicate_init φ hφ, add_zero, rowFold_closed_triplets φ P hi hj hk]

end Poisson

/-! ### Matrix entries and matrix-vector products as row folds -/

section Bridge
variable {K : Type} [Field K]

theorem setFromTriplets_eq_rowFold (tl : List (Trp K)) (r c : Nat) :
    setFromTriplets tl r c = rowFold (fun c' v => if c' = c then v else 0) tl r := by
  unfold setFromTriplets rowFold
  congr 1
  apply List.map_congr_left
  intro t _
  by_cases h1 : t.row = r <;> by_cases h2 : t.col = c <;> simp [h1, h2]

theorem mulVec_setFromTriplets (tl : List (Trp K)) (n : Nat) (x : Nat → K) (r : Nat)
    (hcol : ∀ t ∈ tl, t.col < n) :
    mulVec (setFromTriplets tl) n x r = rowFold (fun c v => v * x c) tl r := by
  induction tl with
  | nil => simp [mulVec, setFromTriplets, rowFold]
  | cons t tl ih =>
    have ih' := ih (fun t' ht' => hcol t' (List.mem_cons_of_mem _ ht'))
    have ht := hcol t (List.mem_cons_self _ _)
    rw [rowFold_cons, ← ih']
    unfold mulVec setFromTriplets
    simp only [List.map_cons, List.sum_cons, add_mul, Finset.sum_add_distrib]
    congr 1
    by_cases h1 : t.row = r
    · simp only [h1, true_and, if_true, ite_mul, zero_mul]
      rw [Finset.sum_ite_eq]
      simp [ht]
    · simp [h1]

end Bridge

namespace Poisson
variable {K : Type} [Field K]

/-! ### Dirichlet rows -/

theorem rowFold_nat_eq_zero (φ : Nat → K → Nat) (tl : List (Trp K)) (r : Nat)
    (h : rowFold φ tl r = 0) : ∀ t ∈ tl, t.row = r → φ t.col t.value = 0 := by
  intro t ht hr
  unfold rowFold at h
  rw [List.sum_eq_zero_iff] at h
  have := h _ (List.mem_map.2 ⟨t, ht, rfl⟩)
  simpa [hr] using this

/-- C2. On a freshly constructed object with `num_elements = (Nx+1)(Ny+1)(Nz+1)` (any
`Nx, Ny, Nz >= 0`), for every lateral node `(i, j)` the Dirichlet row `r = lin(i,j,Nz+1)` of the
matrix assembled by `setup_matrix` has diagonal entry `1` and every off-diagonal entry `0`; and
every triplet written by `setup_matrix` in row `r` is the unit diagonal `(r, r, 1)`. -/
theorem dirichlet_row_unit (P : Poisson K)
    (hn : P.num_elements = (P.Nx + 1) * (P.Ny + 1) * (P.Nz + 1))
    (hfresh : P.triplet_list = List.replicate (11 * P.num_elements) Trp.init) {i j : Nat}
    (hi : 1 ≤ i ∧ i ≤ P.Nx + 1) (hj : 1 ≤ j ∧ j ≤ P.Ny + 1) :
    P.setup_matrix.sp_matrix (P.lin i j (P.Nz + 1)) (P.lin i j (P.Nz + 1)) = 1
      ∧ (∀ c, c ≠ P.lin i j (P.Nz + 1) →
          P.setup_matrix.sp_matrix (P.lin i j (P.Nz + 1)) c = 0)
      ∧ (∀ t ∈ P.setup_matrix.triplet_list.take P.setup_matrix.trp_cnt,
          t.row = P.lin i j (P.Nz + 1) → t.col = P.lin i j (P.Nz + 1) ∧ t.value = 1) := by
  have hk : 1 ≤ P.Nz + 1 ∧ P.Nz + 1 ≤ P.Nz + 1 := ⟨by omega, le_refl _⟩
  refine ⟨?_, ?_, ?_⟩
  · rw [setup_matrix_sp_matrix, setFromTriplets_eq_rowFold,
      setup_matrix_rowFold _ (by simp) P hn hfresh hi hj hk]
    simp [stencil]
  · intro c hc
    rw [setup_matrix_sp_matrix, setFromTriplets_eq_rowFold,
      setup_matrix_rowFold _ (by simp) P hn hfresh hi hj hk]
    simp [stencil, Ne.symm hc]
  · classical
    rw [setup_matrix_triplet_list_fresh P hn hfresh, setup_matrix_trp_cnt,
      List.take_left']
    · intro t ht hr
      have h0 := rowFold_closed_triplets
        (fun c v => if c = P.lin i j (P.Nz + 1) ∧ v = (1 : K) then (0 : Nat) else 1) P hi hj hk
      have hz : P.stencil
          (fun c v => if c = P.lin i j (P.Nz + 1) ∧ v = (1 : K) then (0 : Nat) else 1)
          i j (P.Nz + 1) = 0 := by
        simp [stencil]
      rw [hz] at h0
      have := rowFold_nat_eq_zero _ _ _ h0 t ht hr
      simpa using this
    · rfl

theorem dirichlet_row_unit_witness :
    demoPoisson.num_elements = (demoPoisson.Nx + 1) * (demoPoisson.Ny + 1) * (demoPoisson.Nz + 1)
      ∧ demoPoisson.triplet_list = List.replicate (11 * demoPoisson.num_elements) Trp.init
      ∧ (1 ≤ 1 ∧ 1 ≤ demoPoisson.Nx + 1) ∧ (1 ≤ 2 ∧ 2 ≤ demoPoisson.Ny + 1)
      ∧ (demoPoisson.setup_matrix.sp_matrix (demoPoisson.lin 1 2 (demoPoisson.Nz + 1))
          (demoPoisson.lin 1 2 (demoPoisson.Nz + 1)) = 1
        ∧ (∀ c, c ≠ demoPoisson.lin 1 2 (demoPoisson.Nz + 1) →
            demoPoisson.setup_matrix.sp_matrix (demoPoisson.lin 1 2 (demoPoisson.Nz + 1)) c = 0)
        ∧ (∀ t ∈ demoPoisson.setup_matrix.triplet_list.take demoPoisson.setup_matrix.trp_cnt,
            t.row = demoPoisson.lin 1 2 (demoPoisson.Nz + 1) →
              t.col = demoPoisson.lin 1 2 (demoPoisson.Nz + 1) ∧ t.value = 1)) :=
  ⟨by decide, rfl, ⟨by decide, by decide⟩, ⟨by decide, by decide⟩,
    dirichlet_row_unit demoPoisson (by decide) rfl ⟨by decide, by decide⟩
      ⟨by decide, by decide⟩⟩


/-! ### Rows and columns of the written triplets are in range -/

theorem bounds_map_nodes (P : Poisson K) (A B C : Nat) (T : Nat × Nat × Nat → Trp K)
    (h : ∀ a b c, (1 ≤ a ∧ a ≤ A) → (1 ≤ b ∧ b ≤ B) → (1 ≤ c ∧ c ≤ C) →
      (T (a, b, c)).row < (P.Nx + 1) * (P.Ny + 1) * (P.Nz + 1)
        ∧ (T (a, b, c)).col < (P.Nx + 1) * (P.Ny + 1) * (P.Nz + 1)) :
    ∀ t ∈ (nodes A B C).map T, t.row < (P.Nx + 1) * (P.Ny + 1) * (P.Nz + 1)
        ∧ t.col < (P.Nx + 1) * (P.Ny + 1) * (P.Nz + 1) := by
  intro t ht
  obtain ⟨⟨a, b, c⟩, hp, rfl⟩ := List.mem_map.1 ht
  rw [mem_nodes] at hp
  exact h a b c hp.1 hp.2.1 hp.2.2

theorem bounds_map_pairs (P : Poisson K) (A B : Nat) (T : Nat × Nat → Trp K)
    (h : ∀ a b, (1 ≤ a ∧ a ≤ A) → (1 ≤ b ∧ b ≤ B) →
      (T (a, b)).row < (P.Nx + 1) * (P.Ny + 1) * (P.Nz + 1)
        ∧ (T (a, b)).col < (P.Nx + 1) * (P.Ny + 1) * (P.Nz + 1)) :
    ∀ t ∈ (pairs A B).map T, t.row < (P.Nx + 1) * (P.Ny + 1) * (P.Nz + 1)
        ∧ t.col < (P.Nx + 1) * (P.Ny + 1) * (P.Nz + 1) := by
  intro t ht
  obtain ⟨⟨a, b⟩, hp, rfl⟩ := List.mem_map.1 ht
  rw [mem_pairs] at hp
  exact h a b hp.1 hp.2

/-- Every closed-form triplet has its row and its column below `(Nx+1)(Ny+1)(Nz+1)`. -/
theorem closed_triplets_bounds (P : Poisson K) :
    ∀ t ∈ P.closed_triplets, t.row < (P.Nx + 1) * (P.Ny + 1) * (P.Nz + 1)
        ∧ t.col < (P.Nx + 1) * (P.Ny + 1) * (P.Nz + 1) := by
  intro t ht
  simp only [closed_triplets, List.mem_append] at ht
  rcases ht with (((((((((h | h) | h) | h) | h) | h) | h) | h) | h) | h) | h
  · exact bounds_map_pairs P _ _ _ (fun a b ha hb =>
      ⟨P.lin_lt (by omega) (by omega) (by omega), P.lin_lt (by omega) (by omega) (by omega)⟩) t h
  · exact bounds_map_nodes P _ _ _ _ (fun a b c ha hb hc =>
      ⟨P.lin_lt (by omega) (by omega) (by omega), P.lin_lt (by omega) (by omega) (by omega)⟩) t h
  · exact bounds_map_pairs P _ _ _ (fun a b ha hb =>
      ⟨P.lin_lt (by omega) (by omega) (by omega), P.lin_lt (by omega) (by omega) (by omega)⟩) t h
  · exact bounds_map_nodes P _ _ _ _ (fun a b c ha hb hc =>
      ⟨P.lin_lt (by omega) (by omega) (by omega), P.lin_lt (by omega) (by omega) (by omega)⟩) t h
  · exact bounds_map_nodes P _ _ _ _ (fun a b c ha hb hc =>
      ⟨P.lin_lt (by omega) (by omega) (by omega), P.lin_lt (by omega) (by omega) (by omega)⟩) t h
  · unfold closed_main_diag at h
    obtain ⟨⟨a, b⟩, hp, ht⟩ := List.mem_flatMap.1 h
    rw [mem_pairs] at hp
    rcases List.mem_append.1 ht with h1 | h1
    · obtain ⟨c, hc, rfl⟩ := List.mem_map.1 h1
      rw [List.mem_range'_1] at hc
      exact ⟨P.lin_lt hp.1 hp.2 (by omega), P.lin_lt hp.1 hp.2 (by omega)⟩
    · rw [List.mem_singleton] at h1
      subst h1
      exact ⟨P.lin_lt hp.1 hp.2 (by omega), P.lin_lt hp.1 hp.2 (by omega)⟩
  · exact bounds_map_nodes P _ _ _ _ (fun a b c ha hb hc =>
      ⟨P.lin_lt (by omega) (by omega) (by omega), P.lin_lt (by omega) (by omega) (by omega)⟩) t h
  · exact bounds_map_nodes P _ _ _ _ (fun a b c ha hb hc =>
      ⟨P.lin_lt (by omega) (by omega) (by omega), P.lin_lt (by omega) (by omega) (by omega)⟩) t h
  · exact bounds_map_pairs P _ _ _ (fun a b ha hb =>
      ⟨P.lin_lt (by omega) (by omega) (by omega), P.lin_lt (by omega) (by omega) (by omega)⟩) t h
  · exact bounds_map_nodes P _ _ _ _ (fun a b c ha hb hc =>
      ⟨P.lin_lt (by omega) (by omega) (by omega), P.lin_lt (by omega) (by omega) (by omega)⟩) t h
  · exact bounds_map_pairs P _ _ _ (fun a b ha hb =>
      ⟨P.lin_lt (by omega) (by omega) (by omega), P.lin_lt (by omega) (by omega) (by omega)⟩) t h

theorem setup_matrix_cols_lt (P : Poisson K)
    (hn : P.num_elements = (P.Nx + 1) * (P.Ny + 1) * (P.Nz + 1))
    (hfresh : P.triplet_list = List.replicate (11 * P.num_elements) Trp.init) :
    ∀ t ∈ P.setup_matrix.triplet_list, t.col < P.num_elements := by
  intro t ht
  rw [setup_matrix_triplet_list_fresh P hn hfresh, List.mem_append] at ht
  rcases ht with h | h
  · rw [hn]; exact (closed_triplets_bounds P t h).2
  · rw [List.eq_of_mem_replicate h, hn]
    exact Nat.mul_pos (Nat.mul_pos (Nat.succ_pos _) (Nat.succ_pos _)) (Nat.succ_pos _)

/-- The `r`-th component of `A * x`, for the matrix assembled on a fresh object, in stencil form. -/
theorem setup_matrix_mulVec (P : Poisson K)
    (hn : P.num_elements = (P.Nx + 1) * (P.Ny + 1) * (P.Nz + 1))
    (hfresh : P.triplet_list = List.replicate (11 * P.num_elements) Trp.init) (x : Nat → K)
    {i j k : Nat}
    (hi : 1 ≤ i ∧ i ≤ P.Nx + 1) (hj : 1 ≤ j ∧ j ≤ P.Ny + 1) (hk : 1 ≤ k ∧ k ≤ P.Nz + 1) :
    mulVec P.setup_matrix.sp_matrix P.num_elements x (P.lin i j k)
      = P.stencil (fun c v => v * x c) i j k := by
  rw [setup_matrix_sp_matrix, mulVec_setFromTriplets _ _ _ _ (setup_matrix_cols_lt P hn hfresh),
    setup_matrix_rowFold _ (by simp) P hn hfresh hi hj hk]

theorem setup_matrix_entry (P : Poisson K)
    (hn : P.num_elements = (P.Nx + 1) * (P.Ny + 1) * (P.Nz + 1))
    (hfresh : P.triplet_list = List.replicate (11 * P.num_elements) Trp.init) (c : Nat)
    {i j k : Nat}
    (hi : 1 ≤ i ∧ i ≤ P.Nx + 1) (hj : 1 ≤ j ∧ j ≤ P.Ny + 1) (hk : 1 ≤ k ∧ k ≤ P.Nz + 1) :
    P.setup_matrix.sp_matrix (P.lin i j k) c
      = P.stencil (fun c' v => if c' = c then v else 0) i j k := by
  rw [setup_matrix_sp_matrix, setFromTriplets_eq_rowFold,
    setup_matrix_rowFold _ (by simp) P hn hfresh hi hj hk]


/-! ### Symmetry and row sums with uniform permittivity -/

/-- A coupling `(a,b,c) -> (i',j',k')` seen from row `(i,j,k)` under `cond` equals the coupling
`(a',b',c') -> (i,j,k)` seen from row `(i',j',k')` under `cond'`, when the two descriptions agree
in coordinates. -/
theorem link_symm (P : Poisson K) (v : K) (cond cond' : Prop) [Decidable cond] [Decidable cond']
    (a b c a' b' c' : Nat) {i j k i' j' k' : Nat}
    (hi : 1 ≤ i) (hj : 1 ≤ j ∧ j ≤ P.Ny + 1) (hk : 1 ≤ k ∧ k ≤ P.Nz + 1)
    (hi' : 1 ≤ i') (hj' : 1 ≤ j' ∧ j' ≤ P.Ny + 1) (hk' : 1 ≤ k' ∧ k' ≤ P.Nz + 1)
    (hbox : cond → 1 ≤ a ∧ (1 ≤ b ∧ b ≤ P.Ny + 1) ∧ (1 ≤ c ∧ c ≤ P.Nz + 1))
    (hbox' : cond' → 1 ≤ a' ∧ (1 ≤ b' ∧ b' ≤ P.Ny + 1) ∧ (1 ≤ c' ∧ c' ≤ P.Nz + 1))
    (hcoord : (cond ∧ a = i' ∧ b = j' ∧ c = k') ↔ (cond' ∧ a' = i ∧ b' = j ∧ c' = k)) :
    (if cond then (if P.lin a b c = P.lin i' j' k' then v else 0) else 0)
      = (if cond' then (if P.lin a' b' c' = P.lin i j k then v else 0) else 0) := by
  rw [← ite_and, ← ite_and]
  apply if_congr _ rfl rfl
  constructor
  · rintro ⟨hc, he⟩
    obtain ⟨h1, h2, h3⟩ := hbox hc
    have h := hcoord.1 ⟨hc, (P.lin_eq_iff h1 hi' h2 hj' h3 hk').1 he⟩
    obtain ⟨g1, g2, g3⟩ := hbox' h.1
    exact ⟨h.1, (P.lin_eq_iff g1 hi g2 hj g3 hk).2 h.2⟩
  · rintro ⟨hc, he⟩
    obtain ⟨h1, h2, h3⟩ := hbox' hc
    have h := hcoord.2 ⟨hc, (P.lin_eq_iff h1 hi h2 hj h3 hk).1 he⟩
    obtain ⟨g1, g2, g3⟩ := hbox h.1
    exact ⟨h.1, (P.lin_eq_iff g1 hi' g2 hj' g3 hk').2 h.2⟩

/-- C8. With uniform permittivity (each face average constant over the grid), on a freshly
constructed object, the assembled matrix is symmetric on the non-Dirichlet unknowns:
`entry(r,c) = entry(c,r)` for `r = lin(i,j,k)`, `c = lin(i',j',k')` with `k, k' <= Nz`, periodic
wrap pairs included. -/
theorem sp_matrix_symmetric (P : Poisson K) (ex ey ez : K)
    (hX : ∀ i j k, P.epsilon_avg_X i j k = ex) (hY : ∀ i j k, P.epsilon_avg_Y i j k = ey)
    (hZ : ∀ i j k, P.epsilon_avg_Z i j k = ez)
    (hn : P.num_elements = (P.Nx + 1) * (P.Ny + 1) * (P.Nz + 1))
    (hfresh : P.triplet_list = List.replicate (11 * P.num_elements) Trp.init)
    {i j k i' j' k' : Nat}
    (hi : 1 ≤ i ∧ i ≤ P.Nx + 1) (hj : 1 ≤ j ∧ j ≤ P.Ny + 1) (hk : 1 ≤ k ∧ k ≤ P.Nz)
    (hi' : 1 ≤ i' ∧ i' ≤ P.Nx + 1) (hj' : 1 ≤ j' ∧ j' ≤ P.Ny + 1) (hk' : 1 ≤ k' ∧ k' ≤ P.Nz) :
    P.setup_matrix.sp_matrix (P.lin i j k) (P.lin i' j' k')
      = P.setup_matrix.sp_matrix (P.lin i' j' k') (P.lin i j k) := by
  have hkb : 1 ≤ k ∧ k ≤ P.Nz + 1 := ⟨hk.1, by omega⟩
  have hkb' : 1 ≤ k' ∧ k' ≤ P.Nz + 1 := ⟨hk'.1, by omega⟩
  rw [setup_matrix_entry P hn hfresh _ hi hj hkb, setup_matrix_entry P hn hfresh _ hi' hj' hkb']
  unfold stencil
  simp only [hX, hY, hZ, if_pos hk.2, if_pos hk'.2]
  have e1 := link_symm P (-ex) (i = P.Nx + 1 ∧ k ≤ P.Nz) (i' = 1 ∧ k' ≤ P.Nz)
    1 j k (P.Nx + 1) j' k' hi.1 hj hkb hi'.1 hj' hkb' (by omega) (by omega) (by omega)
  have e2 := link_symm P (-ex) (2 ≤ i ∧ k ≤ P.Nz) (i' ≤ P.Nx ∧ k' ≤ P.Nz)
    (i - 1) j k (i' + 1) j' k' hi.1 hj hkb hi'.1 hj' hkb' (by omega) (by omega) (by omega)
  have e3 := link_symm P (-ey) (j = P.Ny + 1 ∧ k ≤ P.Nz) (j' = 1 ∧ k' ≤ P.Nz)
    i 1 k i' (P.Ny + 1) k' hi.1 hj hkb hi'.1 hj' hkb' (by omega) (by omega) (by omega)
  have e4 := link_symm P (-ey) (2 ≤ j ∧ k ≤ P.Nz) (j' ≤ P.Ny ∧ k' ≤ P.Nz)
    i (j - 1) k i' (j' + 1) k' hi.1 hj hkb hi'.1 hj' hkb' (by omega) (by omega) (by omega)
  have e5 := link_symm P (-ez) (2 ≤ k ∧ k ≤ P.Nz) True
    i j (k - 1) i' j' (k' + 1) hi.1 hj hkb hi'.1 hj' hkb' (by omega)
    (fun _ => ⟨hi'.1, hj', by omega⟩) (by simp only [true_and]; omega)
  have e6 := link_symm P (ex + ex + ey + ey + ez + ez) True True
    i j k i' j' k' hi.1 hj hkb hi'.1 hj' hkb' (fun _ => ⟨hi.1, hj, hkb⟩)
    (fun _ => ⟨hi'.1, hj', hkb'⟩) (by simp only [true_and]; omega)
  have e7 := link_symm P (-ez) True (2 ≤ k' ∧ k' ≤ P.Nz)
    i j (k + 1) i' j' (k' - 1) hi.1 hj hkb hi'.1 hj' hkb'
    (fun _ => ⟨hi.1, hj, by omega⟩) (by omega) (by simp only [true_and]; omega)
  have e8 := link_symm P (-ey) (j ≤ P.Ny ∧ k ≤ P.Nz) (2 ≤ j' ∧ k' ≤ P.Nz)
    i (j + 1) k i' (j' - 1) k' hi.1 hj hkb hi'.1 hj' hkb' (by omega) (by omega) (by omega)
  have e9 := link_symm P (-ey) (j = 1 ∧ k ≤ P.Nz) (j' = P.Ny + 1 ∧ k' ≤ P.Nz)
    i (P.Ny + 1) k i' 1 k' hi.1 hj hkb hi'.1 hj' hkb' (by omega) (by omega) (by omega)
  have e10 := link_symm P (-ex) (i ≤ P.Nx ∧ k ≤ P.Nz) (2 ≤ i' ∧ k' ≤ P.Nz)
    (i + 1) j k (i' - 1) j' k' hi.1 hj hkb hi'.1 hj' hkb' (by omega) (by omega) (by omega)
  have e11 := link_symm P (-ex) (i = 1 ∧ k ≤ P.Nz) (i' = P.Nx + 1 ∧ k' ≤ P.Nz)
    (P.Nx + 1) j k 1 j' k' hi.1 hj hkb hi'.1 hj' hkb' (by omega) (by omega) (by omega)
  simp only [if_true] at e5 e6 e7
  rw [e1, e2, e3, e4, e5, e6, e7, e8, e9, e10, e11]
  ring


theorem demoPoisson_uniform :
    (∀ i j k, demoPoisson.epsilon_avg_X i j k = 1) ∧ (∀ i j k, demoPoisson.epsilon_avg_Y i j k = 1)
      ∧ (∀ i j k, demoPoisson.epsilon_avg_Z i j k = 1) := by
  refine ⟨fun _ _ _ => ?_, fun _ _ _ => ?_, fun _ _ _ => ?_⟩ <;>
    simp [demoPoisson, init, demoParams]

theorem sp_matrix_symmetric_witness :
    demoPoisson.setup_matrix.sp_matrix (demoPoisson.lin 1 1 1) (demoPoisson.lin 2 1 1)
      = demoPoisson.setup_matrix.sp_matrix (demoPoisson.lin 2 1 1) (demoPoisson.lin 1 1 1) :=
  sp_matrix_symmetric demoPoisson 1 1 1 demoPoisson_uniform.1 demoPoisson_uniform.2.1
    demoPoisson_uniform.2.2 (by decide) rfl ⟨by decide, by decide⟩ ⟨by decide, by decide⟩
    ⟨by decide, by decide⟩ ⟨by decide, by decide⟩ ⟨by decide, by decide⟩ ⟨by decide, by decide⟩

/-- With uniform permittivity and a vector that depends on the layer `k` only
(`x[lin(a,b,c)] = ξ c`), the lateral couplings of a non-Dirichlet row cancel and the row of
`A * x` is the 1D stencil `2 ez ξ(k) - [k >= 2] ez ξ(k-1) - ez ξ(k+1)`. -/
theorem mulVec_layered (P : Poisson K) (ex ey ez : K)
    (hX : ∀ i j k, P.epsilon_avg_X i j k = ex) (hY : ∀ i j k, P.epsilon_avg_Y i j k = ey)
    (hZ : ∀ i j k, P.epsilon_avg_Z i j k = ez)
    (hn : P.num_elements = (P.Nx + 1) * (P.Ny + 1) * (P.Nz + 1))
    (hfresh : P.triplet_list = List.replicate (11 * P.num_elements) Trp.init)
    (x ξ : Nat → K)
    (hx : ∀ a b c, (1 ≤ a ∧ a ≤ P.Nx + 1) → (1 ≤ b ∧ b ≤ P.Ny + 1) → (1 ≤ c ∧ c ≤ P.Nz + 1) →
      x (P.lin a b c) = ξ c)
    {i j k : Nat}
    (hi : 1 ≤ i ∧ i ≤ P.Nx + 1) (hj : 1 ≤ j ∧ j ≤ P.Ny + 1) (hk : 1 ≤ k ∧ k ≤ P.Nz) :
    mulVec P.setup_matrix.sp_matrix P.num_elements x (P.lin i j k)
      = 2 * ez * ξ k - (if 2 ≤ k then ez * ξ (k - 1) else 0) - ez * ξ (k + 1) := by
  have hkb : 1 ≤ k ∧ k ≤ P.Nz + 1 := ⟨hk.1, by omega⟩
  rw [setup_matrix_mulVec P hn hfresh x hi hj hkb]
  unfold stencil
  simp only [hX, hY, hZ, if_pos hk.2]
  have hXp : (if i = P.Nx + 1 ∧ k ≤ P.Nz then -ex * x (P.lin 1 j k) else 0)
      + (if 2 ≤ i ∧ k ≤ P.Nz then -ex * x (P.lin (i - 1) j k) else 0)
      + (if i ≤ P.Nx ∧ k ≤ P.Nz then -ex * x (P.lin (i + 1) j k) else 0)
      + (if i = 1 ∧ k ≤ P.Nz then -ex * x (P.lin (P.Nx + 1) j k) else 0)
      = -2 * ex * ξ k := by
    split_ifs <;> first
      | (exfalso; omega)
      | (simp (disch := omega) only [hx]; ring)
  have hYp : (if j = P.Ny + 1 ∧ k ≤ P.Nz then -ey * x (P.lin i 1 k) else 0)
      + (if 2 ≤ j ∧ k ≤ P.Nz then -ey * x (P.lin i (j - 1) k) else 0)
      + (if j ≤ P.Ny ∧ k ≤ P.Nz then -ey * x (P.lin i (j + 1) k) else 0)
      + (if j = 1 ∧ k ≤ P.Nz then -ey * x (P.lin i (P.Ny + 1) k) else 0)
      = -2 * ey * ξ k := by
    split_ifs <;> first
      | (exfalso; omega)
      | (simp (disch := omega) only [hx]; ring)
  have hZp : (if 2 ≤ k ∧ k ≤ P.Nz then -ez * x (P.lin i j (k - 1)) else 0)
      = -(if 2 ≤ k then ez * ξ (k - 1) else 0) := by
    split_ifs <;> first
      | (exfalso; omega)
      | (simp (disch := omega) only [hx]; ring)
      | simp
  rw [hx i j k hi hj hkb, hx i j (k + 1) hi hj (by omega)]
  linear_combination hXp + hYp + hZp

/-- A Dirichlet row of `A * x` is the component of `x` itself. -/
theorem mulVec_dirichlet (P : Poisson K)
    (hn : P.num_elements = (P.Nx + 1) * (P.Ny + 1) * (P.Nz + 1))
    (hfresh : P.triplet_list = List.replicate (11 * P.num_elements) Trp.init)
    (x : Nat → K) {i j : Nat}
    (hi : 1 ≤ i ∧ i ≤ P.Nx + 1) (hj : 1 ≤ j ∧ j ≤ P.Ny + 1) :
    mulVec P.setup_matrix.sp_matrix P.num_elements x (P.lin i j (P.Nz + 1))
      = x (P.lin i j (P.Nz + 1)) := by
  rw [setup_matrix_mulVec P hn hfresh x hi hj ⟨by omega, le_refl _⟩]
  simp [stencil]

/-- Row sums of the matrix assembled with uniform permittivity: `0` on the rows `2 <= k <= Nz`,
and the Z face coefficient on the rows `k = 1`, whose bottom neighbour is not an unknown. -/
theorem row_sum_uniform (P : Poisson K) (ex ey ez : K)
    (hX : ∀ i j k, P.epsilon_avg_X i j k = ex) (hY : ∀ i j k, P.epsilon_avg_Y i j k = ey)
    (hZ : ∀ i j k, P.epsilon_avg_Z i j k = ez)
    (hn : P.num_elements = (P.Nx + 1) * (P.Ny + 1) * (P.Nz + 1))
    (hfresh : P.triplet_list = List.replicate (11 * P.num_elements) Trp.init)
    {i j k : Nat}
    (hi : 1 ≤ i ∧ i ≤ P.Nx + 1) (hj : 1 ≤ j ∧ j ≤ P.Ny + 1) (hk : 1 ≤ k ∧ k ≤ P.Nz) :
    ∑ c ∈ Finset.range P.num_elements, P.setup_matrix.sp_matrix (P.lin i j k) c
      = if k = 1 then ez else 0 := by
  have h := mulVec_layered P ex ey ez hX hY hZ hn hfresh (fun _ => 1) (fun _ => 1)
    (fun _ _ _ _ _ _ => rfl) hi hj hk
  simp only [mulVec, mul_one] at h
  rw [h]
  by_cases h1 : k = 1
  · rw [if_neg (by omega), if_pos h1]; ring
  · rw [if_pos (by omega), if_neg h1]; ring

/-- C9 (amended). With uniform permittivity, on a freshly constructed object, a non-Dirichlet row
`r = lin(i,j,k)` of the assembled matrix sums to `0` when `2 <= k <= Nz`; on the rows `k = 1`,
next to the bottom boundary plane (which is not an unknown), the row sums to the constant value
`ez` of `epsilon_avg_Z`. -/
theorem row_sum_interior (P : Poisson K) (ex ey ez : K)
    (hX : ∀ i j k, P.epsilon_avg_X i j k = ex) (hY : ∀ i j k, P.epsilon_avg_Y i j k = ey)
    (hZ : ∀ i j k, P.epsilon_avg_Z i j k = ez)
    (hn : P.num_elements = (P.Nx + 1) * (P.Ny + 1) * (P.Nz + 1))
    (hfresh : P.triplet_list = List.replicate (11 * P.num_elements) Trp.init)
    {i j k : Nat}
    (hi : 1 ≤ i ∧ i ≤ P.Nx + 1) (hj : 1 ≤ j ∧ j ≤ P.Ny + 1) (hk : 1 ≤ k ∧ k ≤ P.Nz) :
    (2 ≤ k → ∑ c ∈ Finset.range P.num_elements, P.setup_matrix.sp_matrix (P.lin i j k) c = 0)
      ∧ (k = 1 →
          ∑ c ∈ Finset.range P.num_elements, P.setup_matrix.sp_matrix (P.lin i j k) c = ez) := by
  have h := row_sum_uniform P ex ey ez hX hY hZ hn hfresh hi hj hk
  constructor
  · intro h2; rw [h, if_neg (by omega)]
  · intro h1; rw [h, if_pos h1]

theorem row_sum_interior_witness :
    (2 ≤ 2 → ∑ c ∈ Finset.range demoPoisson.num_elements,
        demoPoisson.setup_matrix.sp_matrix (demoPoisson.lin 2 1 2) c = 0)
      ∧ (2 = 1 → ∑ c ∈ Finset.range demoPoisson.num_elements,
        demoPoisson.setup_matrix.sp_matrix (demoPoisson.lin 2 1 2) c = 1) :=
  row_sum_interior demoPoisson 1 1 1 demoPoisson_uniform.1 demoPoisson_uniform.2.1
    demoPoisson_uniform.2.2 (by decide) rfl ⟨by decide, by decide⟩ ⟨by decide, by decide⟩
    ⟨by decide, by decide⟩

/-- C9 as stated fails on the rows `k = 1`: for `Nx = Ny = 1`, `Nz = 2` and unit face coefficients
the row `lin(1,1,1) = 0` holds `6` on the diagonal and five couplings `-1`, so it sums to `1`. -/
theorem row_sum_bottom_counterexample :
    ((∀ i j k, demoPoisson.epsilon_avg_X i j k = 1)
        ∧ (∀ i j k, demoPoisson.epsilon_avg_Y i j k = 1)
        ∧ (∀ i j k, demoPoisson.epsilon_avg_Z i j k = 1))
      ∧ (1 ≤ 1 ∧ 1 ≤ demoPoisson.Nz)
      ∧ ¬ (∑ c ∈ Finset.range demoPoisson.num_elements,
            demoPoisson.setup_matrix.sp_matrix (demoPoisson.lin 1 1 1) c = 0) := by
  refine ⟨demoPoisson_uniform, ⟨by decide, by decide⟩, ?_⟩
  rw [row_sum_uniform demoPoisson 1 1 1 demoPoisson_uniform.1 demoPoisson_uniform.2.1
    demoPoisson_uniform.2.2 (by decide) rfl ⟨by decide, by decide⟩ ⟨by decide, by decide⟩
    ⟨by decide, by decide⟩]
  simp

end Poisson

/-! ### Loops that write vectors -/

section Vectors
variable {K : Type} [Field K]

theorem forRange_succ {σ : Type} (lo n : Nat) (body : Nat → σ → σ) (s : σ) :
    forRange lo (n + 1) body s = forRange (lo + 1) n body (body lo s) := by
  unfold forRange; rw [List.range'_succ, List.foldl_cons]

/-- A loop whose only effect is to advance a running index by `c` and apply `G index x` to the
rest of the state visits `x = lo, lo+1, ...` with `index = idx0 + (x - lo) * c`. -/
theorem forRange_index {σ : Type} (c : Nat) (G : Nat → Nat → σ → σ)
    (body : Nat → Nat × σ → Nat × σ)
    (hbody : ∀ x idx s, body x (idx, s) = (idx + c, G idx x s))
    (lo n idx0 : Nat) (s0 : σ) :
    forRange lo n body (idx0, s0)
      = (idx0 + n * c, (List.range' lo n).foldl (fun s x => G (idx0 + (x - lo) * c) x s) s0) := by
  induction n generalizing lo idx0 s0 with
  | zero => simp [forRange]
  | succ n ih =>
    rw [forRange_succ, hbody, ih, List.range'_succ, List.foldl_cons]
    simp only [Nat.sub_self, Nat.zero_mul, Nat.add_zero]
    congr 1
    · ring
    · apply List.foldl_ext
      intro s x hx
      have hlo : lo + 1 ≤ x := (List.mem_range'_1.mp hx).1
      obtain ⟨d, rfl⟩ : ∃ d, x = lo + 1 + d := ⟨x - (lo + 1), by omega⟩
      have e1 : lo + 1 + d - (lo + 1) = d := by omega
      have e2 : lo + 1 + d - lo = d + 1 := by omega
      rw [e1, e2]
      congr 1
      ring

theorem foldl_flatMap {α β σ : Type} (f : σ → β → σ) (g : α → List β) (l : List α) (s : σ) :
    (l.flatMap g).foldl f s = l.foldl (fun s a => (g a).foldl f s) s := by
  induction l generalizing s with
  | nil => rfl
  | cons a l ih => simp [List.flatMap_cons, List.foldl_append, ih]

theorem set_getD_self (l : List K) (i : Nat) : l.set i (l.getD i 0) = l := by
  induction l generalizing i with
  | nil => rfl
  | cons a l ih =>
    cases i with
    | zero => rfl
    | succ i => simp only [List.set_cons_succ, List.getD_cons_succ, ih]

theorem getD_set (l : List K) (i r : Nat) (v : K) :
    (l.set i v).getD r 0 = if i = r ∧ i < l.length then v else l.getD r 0 := by
  simp only [List.getD_eq_getElem?_getD, List.getElem?_set]
  by_cases h : i = r
  · subst h
    by_cases h2 : i < l.length
    · simp [h2]
    · simp [h2, List.getElem?_eq_none (Nat.le_of_not_lt h2)]
  · simp [h]

/-- The loop `for (i = lo; i < lo + n; i++) v[i] = f i`. -/
theorem forRange_set (f : Nat → K) (lo n : Nat) (v : List K) :
    (forRange lo n (fun i v => v.set i (f i)) v).length = v.length
      ∧ ∀ r, (forRange lo n (fun i v => v.set i (f i)) v).getD r 0
          = if lo ≤ r ∧ r < lo + n ∧ r < v.length then f r else v.getD r 0 := by
  induction n generalizing lo v with
  | zero =>
    refine ⟨rfl, fun r => ?_⟩
    rw [if_neg (by omega)]; rfl
  | succ n ih =>
    rw [forRange_succ]
    obtain ⟨h1, h2⟩ := ih (lo + 1) (v.set lo (f lo))
    refine ⟨by rw [h1, List.length_set], fun r => ?_⟩
    have hlen : (v.set lo (f lo)).length = v.length := List.length_set _ _ _
    rw [h2, hlen, getD_set]
    by_cases hc : lo + 1 ≤ r ∧ r < lo + 1 + n ∧ r < v.length
    · rw [if_pos hc, if_pos (by omega)]
    · rw [if_neg hc]
      by_cases hr : lo = r ∧ lo < v.length
      · rw [if_pos hr, if_pos (by omega), hr.1]
      · rw [if_neg hr, if_neg (by omega)]

/-- A fold of point updates `s[pos x] = val x s[pos x]` over a duplicate-free list on which `pos`
is injective: every visited slot is updated exactly once, from its initial value, and the other
slots keep their value. -/
theorem foldl_point_update {ι : Type} (pos : ι → Nat) (val : ι → K → K) (l : List ι)
    (hnd : l.Nodup) (hinj : ∀ x ∈ l, ∀ y ∈ l, pos x = pos y → x = y) (s0 : List K) :
    (l.foldl (fun s x => s.set (pos x) (val x (s.getD (pos x) 0))) s0).length = s0.length
      ∧ (∀ x0 ∈ l, pos x0 < s0.length →
          (l.foldl (fun s x => s.set (pos x) (val x (s.getD (pos x) 0))) s0).getD (pos x0) 0
            = val x0 (s0.getD (pos x0) 0))
      ∧ (∀ r, (∀ x ∈ l, pos x ≠ r) →
          (l.foldl (fun s x => s.set (pos x) (val x (s.getD (pos x) 0))) s0).getD r 0
            = s0.getD r 0) := by
  induction l generalizing s0 with
  | nil => exact ⟨rfl, fun x0 hx0 => absurd hx0 (List.not_mem_nil _), fun _ _ => rfl⟩
  | cons a l ih =>
    rw [List.nodup_cons] at hnd
    obtain ⟨h1, h2, h3⟩ := ih hnd.2
      (fun x hx y hy => hinj x (List.mem_cons_of_mem _ hx) y (List.mem_cons_of_mem _ hy))
      (s0.set (pos a) (val a (s0.getD (pos a) 0)))
    simp only [List.foldl_cons]
    refine ⟨by rw [h1, List.length_set], ?_, ?_⟩
    · intro x0 hx0 hlt
      rcases List.mem_cons.1 hx0 with rfl | hx0'
      · rw [h3 (pos x0) (fun x hx hp => hnd.1
          (hinj x (List.mem_cons_of_mem _ hx) x0 (List.mem_cons_self _ _) hp ▸ hx)),
          getD_set, if_pos ⟨rfl, hlt⟩]
      · rw [h2 x0 hx0' (by rw [List.length_set]; exact hlt), getD_set]
        have hne : ¬ pos a = pos x0 := fun hp =>
          hnd.1 (hinj a (List.mem_cons_self _ _) x0 hx0 hp ▸ hx0')
        rw [if_neg (fun h => hne h.1)]
    · intro r hr
      rw [h3 r (fun x hx => hr x (List.mem_cons_of_mem _ hx)), getD_set,
        if_neg (fun h => hr a (List.mem_cons_self _ _) h.1)]

end Vectors

namespace Poisson
variable {K : Type} [Field K]

/-! ### The right-hand side of the Poisson system -/

/-- The boundary pass of `set_rhs` is a fold of point updates over the nodes in loop order, the
running `index` being `lin(i,j,k)`. -/
theorem set_rhs_rhs_eq (P : Poisson K) (p : Nat → K) :
    (P.set_rhs p).rhs
      = (nodes (P.Nx + 1) (P.Ny + 1) (P.Nz + 1)).foldl
          (fun s x => s.set (P.lin x.1 x.2.1 x.2.2)
            ((fun (x : Nat × Nat × Nat) (v : K) =>
                if x.2.2 = P.Nz + 1 then P.V_topBC x.1 x.2.1
                else if x.2.2 = 1 then v + (P.epsilon x.1 x.2.1 0 / 18) * P.V_bottomBC x.1 x.2.1
                else v) x (s.getD (P.lin x.1 x.2.1 x.2.2) 0)))
          (forRange 0 P.num_elements (fun i rhs => rhs.set i (P.CV * p i / 18)) P.rhs) := by
  unfold set_rhs
  dsimp only
  rw [forRange_index ((P.Ny + 1) * ((P.Nz + 1) * 1))
    (fun idx i rhs => (List.range' 1 (P.Ny + 1)).foldl (fun s j =>
      (List.range' 1 (P.Nz + 1)).foldl (fun s k =>
        (fun rhs : List K => if k = P.Nz + 1 then rhs.set (idx + (j - 1) * ((P.Nz + 1) * 1)
            + (k - 1) * 1) (P.V_topBC i j) else rhs)
          (if k = 1 then s.set (idx + (j - 1) * ((P.Nz + 1) * 1) + (k - 1) * 1)
            (s.getD (idx + (j - 1) * ((P.Nz + 1) * 1) + (k - 1) * 1) 0
              + (P.epsilon i j 0 / 18) * P.V_bottomBC i j) else s)) s) rhs)]
  · dsimp only
    unfold nodes
    rw [foldl_flatMap]
    apply List.foldl_ext
    intro s i hi
    rw [foldl_flatMap]
    apply List.foldl_ext
    intro s j hj
    rw [List.foldl_map]
    apply List.foldl_ext
    intro s k hk
    rw [List.mem_range'_1] at hi hj hk
    have hidx : 0 + (i - 1) * ((P.Ny + 1) * ((P.Nz + 1) * 1)) + (j - 1) * ((P.Nz + 1) * 1)
        + (k - 1) * 1 = P.lin i j k := by
      unfold lin; ring
    rw [hidx]
    dsimp only
    by_cases h1 : k = 1 <;> by_cases h2 : k = P.Nz + 1
    · have h3 : (1 : Nat) = P.Nz + 1 := by omega
      simp only [h1, if_true, List.set_set, if_pos h3]
    · simp only [h1, if_true]; rw [if_neg (by omega), if_neg (by omega)]
    · simp only [h2, if_true]; rw [if_neg (by omega)]
    · simp only [if_neg h1, if_neg h2, set_getD_self]
  · intro i idx rhs
    rw [forRange_index ((P.Nz + 1) * 1)
      (fun idx j rhs => (List.range' 1 (P.Nz + 1)).foldl (fun s k =>
        (fun rhs : List K => if k = P.Nz + 1 then rhs.set (idx + (k - 1) * 1) (P.V_topBC i j)
          else rhs)
          (if k = 1 then s.set (idx + (k - 1) * 1)
            (s.getD (idx + (k - 1) * 1) 0 + (P.epsilon i j 0 / 18) * P.V_bottomBC i j)
            else s)) rhs)]
    · intro j idx rhs
      rw [forRange_index 1
        (fun idx k rhs => (fun rhs : List K => if k = P.Nz + 1 then rhs.set idx (P.V_topBC i j)
          else rhs)
          (if k = 1 then rhs.set idx
            (rhs.getD idx 0 + (P.epsilon i j 0 / 18) * P.V_bottomBC i j) else rhs))
        _ (fun _ _ _ => rfl)]


theorem getElem?_eq_some_getD (l : List K) (r : Nat) (h : r < l.length) :
    l[r]? = some (l.getD r 0) := by
  simp [List.getD_eq_getElem?_getD, List.getElem?_eq_getElem h]

theorem set_rhs_VecXd_rhs_eq (P : Poisson K) (p : Nat → K) :
    (P.set_rhs p).VecXd_rhs
      = forRange 0 P.num_elements (fun i v => v.set i ((P.set_rhs p).rhs.getD i 0))
          P.VecXd_rhs := rfl

/-- Length and entries of `rhs` after `set_rhs`, on an object whose `rhs` has `num_elements`
entries. -/
theorem set_rhs_getD (P : Poisson K) (p : Nat → K)
    (hn : P.num_elements = (P.Nx + 1) * (P.Ny + 1) * (P.Nz + 1))
    (hr : P.rhs.length = P.num_elements) :
    (P.set_rhs p).rhs.length = P.num_elements
      ∧ ∀ i j k, (1 ≤ i ∧ i ≤ P.Nx + 1) → (1 ≤ j ∧ j ≤ P.Ny + 1) → (1 ≤ k ∧ k ≤ P.Nz + 1) →
        (P.set_rhs p).rhs.getD (P.lin i j k) 0
          = if k = P.Nz + 1 then P.V_topBC i j
            else if k = 1 then
              P.CV * p (P.lin i j k) / 18 + (P.epsilon i j 0 / 18) * P.V_bottomBC i j
            else P.CV * p (P.lin i j k) / 18 := by
  obtain ⟨g1, g2⟩ := forRange_set (fun i => P.CV * p i / 18) 0 P.num_elements P.rhs
  have hinj : ∀ x ∈ nodes (P.Nx + 1) (P.Ny + 1) (P.Nz + 1),
      ∀ y ∈ nodes (P.Nx + 1) (P.Ny + 1) (P.Nz + 1),
      P.lin x.1 x.2.1 x.2.2 = P.lin y.1 y.2.1 y.2.2 → x = y := by
    rintro ⟨a, b, c⟩ hx ⟨a', b', c'⟩ hy h
    rw [mem_nodes] at hx hy
    dsimp only at hx hy h
    obtain ⟨e1, e2, e3⟩ := (P.lin_eq_iff hx.1.1 hy.1.1 hx.2.1 hy.2.1 hx.2.2 hy.2.2).1 h
    rw [e1, e2, e3]
  obtain ⟨f1, f2, -⟩ := foldl_point_update (fun x : Nat × Nat × Nat => P.lin x.1 x.2.1 x.2.2)
    (fun (x : Nat × Nat × Nat) (v : K) =>
      if x.2.2 = P.Nz + 1 then P.V_topBC x.1 x.2.1
      else if x.2.2 = 1 then v + (P.epsilon x.1 x.2.1 0 / 18) * P.V_bottomBC x.1 x.2.1
      else v)
    (nodes (P.Nx + 1) (P.Ny + 1) (P.Nz + 1)) (nodup_nodes _ _ _) hinj
    (forRange 0 P.num_elements (fun i rhs => rhs.set i (P.CV * p i / 18)) P.rhs)
  rw [set_rhs_rhs_eq]
  refine ⟨by rw [f1, g1, hr], ?_⟩
  intro i j k hi hj hk
  have hlt : P.lin i j k < P.num_elements := by rw [hn]; exact P.lin_lt hi hj hk
  have h := f2 (i, j, k) (mem_nodes.2 ⟨hi, hj, hk⟩) (by dsimp only; rw [g1, hr]; exact hlt)
  dsimp only at h
  have hcond : 0 ≤ P.lin i j k ∧ P.lin i j k < 0 + P.num_elements
      ∧ P.lin i j k < P.rhs.length := ⟨Nat.zero_le _, by omega, by rw [hr]; exact hlt⟩
  rw [h, g2, if_pos hcond]

/-- C3. On an object whose `rhs` and `VecXd_rhs` have `num_elements = (Nx+1)(Ny+1)(Nz+1)` entries
and `Nz >= 1`, `set_rhs(p)` leaves at `r = lin(i,j,k)`:
`CV*p[r]/18 + (epsilon(i,j,0)/18)*V_bottomBC(i,j)` when `k = 1`, `CV*p[r]/18` when
`2 <= k <= Nz`, and `V_topBC(i,j)` (independent of `p`) when `k = Nz+1`; and `VecXd_rhs` equals
`rhs` entry for entry. -/
theorem set_rhs_spec (P : Poisson K) (p : Nat → K)
    (hn : P.num_elements = (P.Nx + 1) * (P.Ny + 1) * (P.Nz + 1))
    (hr : P.rhs.length = P.num_elements) (hv : P.VecXd_rhs.length = P.num_elements)
    (hNz : 1 ≤ P.Nz) {i j k : Nat}
    (hi : 1 ≤ i ∧ i ≤ P.Nx + 1) (hj : 1 ≤ j ∧ j ≤ P.Ny + 1) (hk : 1 ≤ k ∧ k ≤ P.Nz + 1) :
    (P.set_rhs p).rhs[P.lin i j k]?
        = some (if k = 1 then
              P.CV * p (P.lin i j k) / 18 + (P.epsilon i j 0 / 18) * P.V_bottomBC i j
            else if k ≤ P.Nz then P.CV * p (P.lin i j k) / 18
            else P.V_topBC i j)
      ∧ (P.set_rhs p).VecXd_rhs = (P.set_rhs p).rhs := by
  obtain ⟨hlen, hget⟩ := set_rhs_getD P p hn hr
  have hlt : P.lin i j k < P.num_elements := by rw [hn]; exact P.lin_lt hi hj hk
  constructor
  · rw [getElem?_eq_some_getD _ _ (by rw [hlen]; exact hlt), hget i j k hi hj hk]
    congr 1
    by_cases h1 : k = 1
    · rw [if_neg (by omega), if_pos h1, if_pos h1]
    · by_cases h2 : k ≤ P.Nz
      · rw [if_neg (by omega), if_neg h1, if_neg h1, if_pos h2]
      · rw [if_pos (by omega), if_neg h1, if_neg h2]
  · obtain ⟨v1, v2⟩ := forRange_set (fun i => (P.set_rhs p).rhs.getD i 0) 0 P.num_elements
      P.VecXd_rhs
    rw [set_rhs_VecXd_rhs_eq]
    apply List.ext_getElem?
    intro r
    by_cases hr' : r < P.num_elements
    · have hcond : 0 ≤ r ∧ r < 0 + P.num_elements ∧ r < P.VecXd_rhs.length :=
        ⟨Nat.zero_le _, by omega, by rw [hv]; exact hr'⟩
      rw [getElem?_eq_some_getD _ _ (by rw [v1, hv]; exact hr'),
        getElem?_eq_some_getD _ _ (by rw [hlen]; exact hr'), v2, if_pos hcond]
    · rw [List.getElem?_eq_none (by rw [v1, hv]; omega),
        List.getElem?_eq_none (by rw [hlen]; omega)]

theorem set_rhs_spec_witness :
    (demoPoisson.set_rhs (fun _ => 1)).rhs[demoPoisson.lin 1 2 1]?
        = some (if 1 = 1 then
              demoPoisson.CV * (fun _ => (1 : ℚ)) (demoPoisson.lin 1 2 1) / 18
                + (demoPoisson.epsilon 1 2 0 / 18) * demoPoisson.V_bottomBC 1 2
            else if 1 ≤ demoPoisson.Nz then
              demoPoisson.CV * (fun _ => (1 : ℚ)) (demoPoisson.lin 1 2 1) / 18
            else demoPoisson.V_topBC 1 2)
      ∧ (demoPoisson.set_rhs (fun _ => 1)).VecXd_rhs = (demoPoisson.set_rhs (fun _ => 1)).rhs :=
  set_rhs_spec demoPoisson (fun _ => 1) (by decide) (by decide) (by decide) (by decide)
    ⟨by decide, by decide⟩ ⟨by decide, by decide⟩ ⟨by decide, by decide⟩


/-! ### The linear potential profile solves the assembled system -/

theorem lin_mod (P : Poisson K) {i j k : Nat} (hk : 1 ≤ k ∧ k ≤ P.Nz + 1) :
    P.lin i j k % (P.Nz + 1) = k - 1 := by
  unfold lin
  have e : (i - 1) * (P.Ny + 1) * (P.Nz + 1) + (j - 1) * (P.Nz + 1)
      = (P.Nz + 1) * ((i - 1) * (P.Ny + 1) + (j - 1)) := by ring
  rw [e, Nat.mul_add_mod, Nat.mod_eq_of_lt (by omega)]

/-- Every index below `(Nx+1)(Ny+1)(Nz+1)` is the linear index of a node of the grid. -/
theorem exists_lin (P : Poisson K) (r : Nat) (hr : r < (P.Nx + 1) * (P.Ny + 1) * (P.Nz + 1)) :
    ∃ i j k, (1 ≤ i ∧ i ≤ P.Nx + 1) ∧ (1 ≤ j ∧ j ≤ P.Ny + 1) ∧ (1 ≤ k ∧ k ≤ P.Nz + 1)
      ∧ P.lin i j k = r := by
  refine ⟨r / (P.Nz + 1) / (P.Ny + 1) + 1, r / (P.Nz + 1) % (P.Ny + 1) + 1,
    r % (P.Nz + 1) + 1, ⟨Nat.le_add_left 1 _, ?_⟩, ⟨Nat.le_add_left 1 _, ?_⟩,
    ⟨Nat.le_add_left 1 _, ?_⟩, ?_⟩
  · have h1 : r / (P.Nz + 1) < (P.Nx + 1) * (P.Ny + 1) :=
      (Nat.div_lt_iff_lt_mul (Nat.succ_pos _)).2 hr
    have h2 : r / (P.Nz + 1) / (P.Ny + 1) < P.Nx + 1 :=
      (Nat.div_lt_iff_lt_mul (Nat.succ_pos _)).2 h1
    exact Nat.succ_le_of_lt h2
  · exact Nat.succ_le_of_lt (Nat.mod_lt _ (Nat.succ_pos _))
  · exact Nat.succ_le_of_lt (Nat.mod_lt _ (Nat.succ_pos _))
  · unfold lin
    simp only [Nat.add_sub_cancel]
    have h1 := Nat.div_add_mod r (P.Nz + 1)
    have h2 := Nat.div_add_mod (r / (P.Nz + 1)) (P.Ny + 1)
    calc r / (P.Nz + 1) / (P.Ny + 1) * (P.Ny + 1) * (P.Nz + 1)
          + r / (P.Nz + 1) % (P.Ny + 1) * (P.Nz + 1) + r % (P.Nz + 1)
        = (P.Nz + 1) * ((P.Ny + 1) * (r / (P.Nz + 1) / (P.Ny + 1))
            + r / (P.Nz + 1) % (P.Ny + 1)) + r % (P.Nz + 1) := by ring
      _ = r := by rw [h2, h1]

theorem linearProfile_lin (P : Poisson K) (V0 : K) {i j k : Nat}
    (hk : 1 ≤ k ∧ k ≤ P.Nz + 1) :
    P.linearProfile V0 (P.lin i j k) = V0 * (k : K) / ((P.Nz + 1 : Nat) : K) := by
  unfold linearProfile
  rw [P.lin_mod hk, Nat.sub_add_cancel hk.1]

theorem setup_matrix_fields (P : Poisson K) :
    P.setup_matrix.Nx = P.Nx ∧ P.setup_matrix.Ny = P.Ny ∧ P.setup_matrix.Nz = P.Nz
      ∧ P.setup_matrix.num_elements = P.num_elements ∧ P.setup_matrix.CV = P.CV
      ∧ P.setup_matrix.rhs = P.rhs ∧ P.setup_matrix.epsilon = P.epsilon
      ∧ P.setup_matrix.V_bottomBC = P.V_bottomBC ∧ P.setup_matrix.V_topBC = P.V_topBC
      ∧ P.setup_matrix.VecXd_rhs = P.VecXd_rhs := by
  rw [setup_matrix_eq]
  dsimp only [withBuf]
  exact ⟨rfl, rfl, rfl, rfl, rfl, rfl, rfl, rfl, rfl, rfl⟩

/-- `set_rhs` reads only the grid sizes, `CV`, `epsilon`, the boundary planes and `rhs`. -/
theorem set_rhs_rhs_congr (P Q : Poisson K) (p : Nat → K)
    (h : Q.Nx = P.Nx ∧ Q.Ny = P.Ny ∧ Q.Nz = P.Nz
      ∧ Q.num_elements = P.num_elements ∧ Q.CV = P.CV
      ∧ Q.rhs = P.rhs ∧ Q.epsilon = P.epsilon
      ∧ Q.V_bottomBC = P.V_bottomBC ∧ Q.V_topBC = P.V_topBC
      ∧ Q.VecXd_rhs = P.VecXd_rhs) :
    (Q.set_rhs p).rhs = (P.set_rhs p).rhs := by
  obtain ⟨h1, h2, h3, h4, h5, h6, h7, h8, h9, -⟩ := h
  unfold set_rhs
  simp only [h1, h2, h3, h4, h5, h6, h7, h8, h9]

theorem set_rhs_sp_matrix (Q : Poisson K) (p : Nat → K) :
    (Q.set_rhs p).sp_matrix = Q.sp_matrix ∧ (Q.set_rhs p).num_elements = Q.num_elements :=
  ⟨rfl, rfl⟩


/-- The double loop of the boundary-plane setters: every entry `(a, b)` with `a < m`, `b < n`
becomes `v`, the others keep their value. -/
theorem forRange_plane (v : K) (m : Nat) (M0 : Nat → Nat → K) (lo n a b : Nat) :
    forRange lo n (fun j M => forRange 0 m (fun i M =>
        fun a b => if a = i ∧ b = j then v else M a b) M) M0 a b
      = if a < m ∧ (lo ≤ b ∧ b < lo + n) then v else M0 a b := by
  have inner : ∀ (j lo' m' : Nat) (M : Nat → Nat → K),
      forRange lo' m' (fun i M => fun a b => if a = i ∧ b = j then v else M a b) M a b
        = if (lo' ≤ a ∧ a < lo' + m') ∧ b = j then v else M a b := by
    intro j lo' m' M
    induction m' generalizing lo' M with
    | zero => rw [if_neg (by omega)]; rfl
    | succ m' ih =>
      rw [forRange_succ, ih]
      by_cases h1 : (lo' + 1 ≤ a ∧ a < lo' + 1 + m') ∧ b = j
      · rw [if_pos h1, if_pos ⟨by omega, h1.2⟩]
      · rw [if_neg h1]
        by_cases h2 : a = lo' ∧ b = j
        · rw [if_pos h2, if_pos ⟨by omega, h2.2⟩]
        · rw [if_neg h2, if_neg (by omega)]
  induction n generalizing lo M0 with
  | zero => rw [if_neg (by omega)]; rfl
  | succ n ih =>
    rw [forRange_succ, ih, inner]
    by_cases h1 : a < m ∧ (lo + 1 ≤ b ∧ b < lo + 1 + n)
    · rw [if_pos h1, if_pos (by omega)]
    · rw [if_neg h1]
      by_cases h2 : (0 ≤ a ∧ a < 0 + m) ∧ b = lo
      · rw [if_pos h2, if_pos (by omega)]
      · rw [if_neg h2, if_neg (by omega)]

theorem set_V_topBC_apply (P : Poisson K) (Vt Va : K) {i j : Nat}
    (hi : i ≤ P.num_cell_x) (hj : j ≤ P.num_cell_y) :
    (P.set_V_topBC Vt Va).V_topBC i j = Va / Vt := by
  unfold set_V_topBC
  dsimp only
  rw [forRange_plane, if_pos (by omega)]

theorem set_V_bottomBC_apply (P : Poisson K) {i j : Nat}
    (hi : i ≤ P.num_cell_x) (hj : j ≤ P.num_cell_y) :
    (P.set_V_bottomBC).V_bottomBC i j = 0 := by
  unfold set_V_bottomBC
  dsimp only
  rw [forRange_plane, if_pos (by omega)]

/-- C10. With uniform permittivity, zero net charge, `V_bottomBC = 0` and `V_topBC = V0` on the
grid, on a freshly constructed object with `Nz >= 1`, the vector `x[lin(i,j,k)] = V0*k/(Nz+1)`
(linear in `k`, the same at every `(i,j)`) solves the system assembled by `setup_matrix` and
`set_rhs`: every component of `A * x` equals the corresponding entry of `rhs`. -/
theorem linear_profile_solves [CharZero K] (P : Poisson K) (ex ey ez V0 : K)
    (hX : ∀ i j k, P.epsilon_avg_X i j k = ex) (hY : ∀ i j k, P.epsilon_avg_Y i j k = ey)
    (hZ : ∀ i j k, P.epsilon_avg_Z i j k = ez)
    (hn : P.num_elements = (P.Nx + 1) * (P.Ny + 1) * (P.Nz + 1))
    (hfresh : P.triplet_list = List.replicate (11 * P.num_elements) Trp.init)
    (hr : P.rhs.length = P.num_elements)
    (p : Nat → K) (hp : ∀ r, p r = 0)
    (hbot : ∀ i j, (1 ≤ i ∧ i ≤ P.Nx + 1) → (1 ≤ j ∧ j ≤ P.Ny + 1) → P.V_bottomBC i j = 0)
    (htop : ∀ i j, (1 ≤ i ∧ i ≤ P.Nx + 1) → (1 ≤ j ∧ j ≤ P.Ny + 1) → P.V_topBC i j = V0) :
    (∀ i j k, (1 ≤ i ∧ i ≤ P.Nx + 1) → (1 ≤ j ∧ j ≤ P.Ny + 1) → (1 ≤ k ∧ k ≤ P.Nz + 1) →
        P.linearProfile V0 (P.lin i j k) = V0 * (k : K) / ((P.Nz : K) + 1))
      ∧ ∀ r, r < P.num_elements →
          (P.setup_matrix.set_rhs p).rhs[r]?
            = some (mulVec (P.setup_matrix.set_rhs p).sp_matrix
                (P.setup_matrix.set_rhs p).num_elements (P.linearProfile V0) r) := by
  have hNz0 : ((P.Nz : K) + 1) ≠ 0 := Nat.cast_add_one_ne_zero P.Nz
  have hprof : ∀ i j k, (1 ≤ i ∧ i ≤ P.Nx + 1) → (1 ≤ j ∧ j ≤ P.Ny + 1) →
      (1 ≤ k ∧ k ≤ P.Nz + 1) →
      P.linearProfile V0 (P.lin i j k) = V0 * (k : K) / ((P.Nz : K) + 1) := by
    intro i j k _ _ hk
    rw [linearProfile_lin P V0 hk, Nat.cast_add, Nat.cast_one]
  refine ⟨hprof, ?_⟩
  intro r hrn
  obtain ⟨hlen, hget⟩ := set_rhs_getD P p hn hr
  obtain ⟨i, j, k, hi, hj, hk, rfl⟩ := P.exists_lin r (hn ▸ hrn)
  rw [(set_rhs_sp_matrix P.setup_matrix p).1, (set_rhs_sp_matrix P.setup_matrix p).2,
    (setup_matrix_fields P).2.2.2.1, set_rhs_rhs_congr P P.setup_matrix p (setup_matrix_fields P),
    getElem?_eq_some_getD _ _ (by rw [hlen]; exact hrn), hget i j k hi hj hk]
  congr 1
  by_cases hkz : k ≤ P.Nz
  · rw [mulVec_layered P ex ey ez hX hY hZ hn hfresh (P.linearProfile V0)
      (fun c => V0 * (c : K) / ((P.Nz : K) + 1)) (fun a b c ha hb hc => hprof a b c ha hb hc)
      hi hj ⟨hk.1, hkz⟩]
    rw [if_neg (by omega), hp, hbot i j hi hj]
    by_cases h1 : k = 1
    · subst h1
      rw [if_pos rfl, if_neg (by omega)]
      field_simp
      ring
    · rw [if_neg h1, if_pos (by omega)]
      obtain ⟨m, rfl⟩ : ∃ m, k = m + 2 := ⟨k - 2, by omega⟩
      have e : m + 2 - 1 = m + 1 := by omega
      rw [e]
      field_simp
      ring
  · have hk' : k = P.Nz + 1 := by omega
    subst hk'
    rw [if_pos rfl, mulVec_dirichlet P hn hfresh _ hi hj, hprof i j (P.Nz + 1) hi hj hk,
      htop i j hi hj]
    push_cast
    field_simp

theorem linear_profile_solves_witness :
    (∀ i j k, (1 ≤ i ∧ i ≤ demoBiased.Nx + 1) → (1 ≤ j ∧ j ≤ demoBiased.Ny + 1) →
        (1 ≤ k ∧ k ≤ demoBiased.Nz + 1) →
        demoBiased.linearProfile (5 / 1) (demoBiased.lin i j k)
          = 5 / 1 * (k : ℚ) / ((demoBiased.Nz : ℚ) + 1))
      ∧ ∀ r, r < demoBiased.num_elements →
          (demoBiased.setup_matrix.set_rhs (fun _ => 0)).rhs[r]?
            = some (mulVec (demoBiased.setup_matrix.set_rhs (fun _ => 0)).sp_matrix
                (demoBiased.setup_matrix.set_rhs (fun _ => 0)).num_elements
                (demoBiased.linearProfile (5 / 1)) r) :=
  linear_profile_solves demoBiased 1 1 1 (5 / 1) demoPoisson_uniform.1 demoPoisson_uniform.2.1
    demoPoisson_uniform.2.2 (by decide) rfl (by decide) (fun _ => 0) (fun _ => rfl)
    (fun _ _ hi hj => set_V_bottomBC_apply demoPoisson hi.2 hj.2)
    (fun _ _ hi hj => set_V_topBC_apply demoPoisson.set_V_bottomBC 1 5 hi.2 hj.2)

end Poisson

namespace Continuity_p
variable {K : Type} [Field K]

/-! ### Continuity assembler: Bernoulli coefficients, diagonals, right-hand side -/

/-- The coefficient loop of `BernoulliFnc_p`, which carries the pair `(B_p1, B_p2)`, splits into
two independent loops when `B_p1` is long enough for every write. -/
theorem forRange_pair (f g : Nat → K) (lo n : Nat) (B1 B2 : List K)
    (h : lo + n ≤ B1.length) :
    forRange lo n (fun i (B : List K × List K) =>
        ((B.1.set i (f i)), B.2.set i ((B.1.set i (f i)).getD i 0 * g i))) (B1, B2)
      = (forRange lo n (fun i v => v.set i (f i)) B1,
         forRange lo n (fun i v => v.set i (f i * g i)) B2) := by
  induction n generalizing lo B1 B2 with
  | zero => rfl
  | succ n ih =>
    rw [forRange_succ, forRange_succ, forRange_succ]
    dsimp only
    rw [getD_set, if_pos ⟨rfl, by omega⟩]
    exact ih (lo + 1) _ _ (by rw [List.length_set]; omega)

theorem BernoulliFnc_p_fields (exp : K → K) (s : Continuity_p K) (V : List K) :
    (BernoulliFnc_p exp s V).main_diag = s.main_diag
      ∧ (BernoulliFnc_p exp s V).upper_diag = s.upper_diag
      ∧ (BernoulliFnc_p exp s V).lower_diag = s.lower_diag
      ∧ (BernoulliFnc_p exp s V).rhs = s.rhs
      ∧ (BernoulliFnc_p exp s V).p_mob = s.p_mob
      ∧ (BernoulliFnc_p exp s V).Cp = s.Cp
      ∧ (BernoulliFnc_p exp s V).p_leftBC = s.p_leftBC
      ∧ (BernoulliFnc_p exp s V).p_rightBC = s.p_rightBC :=
  ⟨rfl, rfl, rfl, rfl, rfl, rfl, rfl, rfl⟩

/-- The entries of `B_p1`, `B_p2` after `BernoulliFnc_p(V)` on the edges `1 <= i < |V|`, when the
two vectors are at least as long as `V`: `B_p1[i] = D/(exp D - 1)`, `B_p2[i] = B_p1[i] * exp D`
with `D = V[i] - V[i-1]`. -/
theorem BernoulliFnc_p_getD (exp : K → K) (s : Continuity_p K) (V : List K)
    (h1 : V.length ≤ s.B_p1.length) (h2 : V.length ≤ s.B_p2.length)
    {i : Nat} (hi : 1 ≤ i) (hiV : i < V.length) :
    (BernoulliFnc_p exp s V).B_p1.getD i 0
        = (V.getD i 0 - V.getD (i - 1) 0) / (exp (V.getD i 0 - V.getD (i - 1) 0) - 1)
      ∧ (BernoulliFnc_p exp s V).B_p2.getD i 0
        = (V.getD i 0 - V.getD (i - 1) 0) / (exp (V.getD i 0 - V.getD (i - 1) 0) - 1)
            * exp (V.getD i 0 - V.getD (i - 1) 0) := by
  obtain ⟨-, d2⟩ := forRange_set (fun i => V.getD i 0 - V.getD (i - 1) 0) 1 (V.length - 1)
    (List.replicate V.length 0)
  have hd : (forRange 1 (V.length - 1) (fun i dV => dV.set i (V.getD i 0 - V.getD (i - 1) 0))
      (List.replicate V.length 0)).getD i 0 = V.getD i 0 - V.getD (i - 1) 0 := by
    rw [d2, if_pos ⟨hi, by omega, by rw [List.length_replicate]; exact hiV⟩]
  unfold BernoulliFnc_p
  dsimp only
  rw [forRange_pair _ _ _ _ _ _ (by omega)]
  dsimp only
  obtain ⟨-, b1⟩ := forRange_set (fun i =>
    (forRange 1 (V.length - 1) (fun i dV => dV.set i (V.getD i 0 - V.getD (i - 1) 0))
      (List.replicate V.length 0)).getD i 0
    / (exp ((forRange 1 (V.length - 1) (fun i dV => dV.set i (V.getD i 0 - V.getD (i - 1) 0))
      (List.replicate V.length 0)).getD i 0) - 1)) 1 (V.length - 1) s.B_p1
  obtain ⟨-, b2⟩ := forRange_set (fun i =>
    (forRange 1 (V.length - 1) (fun i dV => dV.set i (V.getD i 0 - V.getD (i - 1) 0))
      (List.replicate V.length 0)).getD i 0
    / (exp ((forRange 1 (V.length - 1) (fun i dV => dV.set i (V.getD i 0 - V.getD (i - 1) 0))
      (List.replicate V.length 0)).getD i 0) - 1)
    * exp ((forRange 1 (V.length - 1) (fun i dV => dV.set i (V.getD i 0 - V.getD (i - 1) 0))
      (List.replicate V.length 0)).getD i 0)) 1 (V.length - 1) s.B_p2
  rw [b1, b2, if_pos ⟨hi, by omega, by omega⟩, if_pos ⟨hi, by omega, by omega⟩, hd]
  exact ⟨rfl, rfl⟩

/-- C6. Over the reals, for every potential vector `V` and every edge `1 <= i <= |V|-1` whose
potential difference `D = V[i] - V[i-1]` is non-zero, the pair computed by `BernoulliFnc_p`
satisfies `B_p2[i] - B_p1[i] = D` (the coefficient vectors being at least as long as `V`). -/
theorem bernoulli_difference (s : Continuity_p ℝ) (V : List ℝ)
    (h1 : V.length ≤ s.B_p1.length) (h2 : V.length ≤ s.B_p2.length)
    {i : Nat} (hi : 1 ≤ i) (hiV : i < V.length)
    (hD : V.getD i 0 - V.getD (i - 1) 0 ≠ 0) :
    (BernoulliFnc_p Real.exp s V).B_p2.getD i 0 - (BernoulliFnc_p Real.exp s V).B_p1.getD i 0
      = V.getD i 0 - V.getD (i - 1) 0 := by
  obtain ⟨e1, e2⟩ := BernoulliFnc_p_getD Real.exp s V h1 h2 hi hiV
  rw [e1, e2]
  generalize V.getD i 0 - V.getD (i - 1) 0 = D at hD
  have hne : Real.exp D - 1 ≠ 0 := fun h => hD ((Real.exp_eq_one_iff D).1 (sub_eq_zero.1 h))
  field_simp
  ring

theorem bernoulli_difference_witness :
    (demoV ℝ).getD 2 0 - (demoV ℝ).getD (2 - 1) 0 ≠ 0
      ∧ (BernoulliFnc_p Real.exp (init Real.exp 1 (demoCParams ℝ)) (demoV ℝ)).B_p2.getD 2 0
          - (BernoulliFnc_p Real.exp (init Real.exp 1 (demoCParams ℝ)) (demoV ℝ)).B_p1.getD 2 0
        = (demoV ℝ).getD 2 0 - (demoV ℝ).getD (2 - 1) 0 :=
  ⟨by norm_num [demoV],
    bernoulli_difference (init Real.exp 1 (demoCParams ℝ)) (demoV ℝ) (by decide) (by decide)
      (by decide) (by decide) (by norm_num [demoV])⟩

/-- C7 fails on the code: `BernoulliFnc_p` has no branch for a zero potential difference.  On the
flat potential `[0,0,0,0,0]` the denominator `exp(V[1]-V[0]) - 1` is `0`, and the coefficients of
edge 1 are the value of `0/0` (the default `0` of the total division, a NaN in IEEE arithmetic),
not the limiting pair `(1, 1)`. -/
theorem bernoulli_flat_edge :
    Real.exp ((flatV ℝ).getD 1 0 - (flatV ℝ).getD (1 - 1) 0) - 1 = 0
      ∧ (BernoulliFnc_p Real.exp (init Real.exp 1 (demoCParams ℝ)) (flatV ℝ)).B_p1.getD 1 0 = 0
      ∧ (BernoulliFnc_p Real.exp (init Real.exp 1 (demoCParams ℝ)) (flatV ℝ)).B_p2.getD 1 0 = 0
      ∧ (BernoulliFnc_p Real.exp (init Real.exp 1 (demoCParams ℝ)) (flatV ℝ)).B_p1.getD 1 0
          ≠ 1 := by
  obtain ⟨e1, e2⟩ := BernoulliFnc_p_getD Real.exp (init Real.exp 1 (demoCParams ℝ)) (flatV ℝ)
    (by decide) (by decide) (i := 1) (by decide) (by decide)
  rw [e1, e2]
  simp [flatV]


theorem setup_eqn_fields (exp : K → K) (s : Continuity_p K) (V Up : List K) :
    (setup_eqn exp s V Up).main_diag
        = forRange 1 (s.main_diag.length - 1) (fun i main_diag =>
            main_diag.set i
              (-((setup_eqn exp s V Up).p_mob.getD i 0 * (setup_eqn exp s V Up).B_p2.getD i 0
                + (setup_eqn exp s V Up).p_mob.getD (i + 1) 0
                  * (setup_eqn exp s V Up).B_p1.getD (i + 1) 0))) s.main_diag
      ∧ (setup_eqn exp s V Up).upper_diag
        = forRange 1 (s.upper_diag.length - 1) (fun i upper_diag =>
            upper_diag.set i ((setup_eqn exp s V Up).p_mob.getD (i + 1) 0
              * (setup_eqn exp s V Up).B_p2.getD (i + 1) 0)) s.upper_diag
      ∧ (setup_eqn exp s V Up).lower_diag
        = forRange 1 (s.lower_diag.length - 1) (fun i lower_diag =>
            lower_diag.set i ((setup_eqn exp s V Up).p_mob.getD (i + 1) 0
              * (setup_eqn exp s V Up).B_p1.getD (i + 1) 0)) s.lower_diag :=
  ⟨rfl, rfl, rfl⟩

/-- C4. For `N = num_cell - 1 >= 1` and vectors of the constructor's sizes, after
`setup_eqn(V, Up)`: `main_diag[i] = -(p_mob[i]*B_p2[i] + p_mob[i+1]*B_p1[i+1])` for `1 <= i <= N`;
`upper_diag[i] = p_mob[i+1]*B_p2[i+1]` and `lower_diag[i] = p_mob[i+1]*B_p1[i+1]` for
`1 <= i <= N-1`; each off-diagonal is one entry shorter than the main diagonal; and, for a
potential of `N + 2` entries, `B_p1[i]`, `B_p2[i]` are the Bernoulli pair of the edge between
nodes `i-1` and `i`. -/
theorem setup_eqn_diagonals (exp : K → K) (s : Continuity_p K) (V Up : List K) (N : Nat)
    (hN : 1 ≤ N) (hs : s.Sized N) (hV : V.length = N + 2) :
    (∀ i, 1 ≤ i → i ≤ N →
        (setup_eqn exp s V Up).main_diag[i]?
          = some (-((setup_eqn exp s V Up).p_mob.getD i 0 * (setup_eqn exp s V Up).B_p2.getD i 0
              + (setup_eqn exp s V Up).p_mob.getD (i + 1) 0
                * (setup_eqn exp s V Up).B_p1.getD (i + 1) 0)))
      ∧ (∀ i, 1 ≤ i → i ≤ N - 1 →
          (setup_eqn exp s V Up).upper_diag[i]?
              = some ((setup_eqn exp s V Up).p_mob.getD (i + 1) 0
                  * (setup_eqn exp s V Up).B_p2.getD (i + 1) 0)
            ∧ (setup_eqn exp s V Up).lower_diag[i]?
              = some ((setup_eqn exp s V Up).p_mob.getD (i + 1) 0
                  * (setup_eqn exp s V Up).B_p1.getD (i + 1) 0))
      ∧ (setup_eqn exp s V Up).upper_diag.length + 1 = (setup_eqn exp s V Up).main_diag.length
      ∧ (setup_eqn exp s V Up).lower_diag.length + 1
          = (setup_eqn exp s V Up).main_diag.length
      ∧ (∀ i, 1 ≤ i → i ≤ N + 1 →
          (setup_eqn exp s V Up).B_p1.getD i 0
              = (V.getD i 0 - V.getD (i - 1) 0) / (exp (V.getD i 0 - V.getD (i - 1) 0) - 1)
            ∧ (setup_eqn exp s V Up).B_p2.getD i 0
              = (setup_eqn exp s V Up).B_p1.getD i 0 * exp (V.getD i 0 - V.getD (i - 1) 0)) := by
  obtain ⟨hm, hu, hl, -, hb1, hb2, -⟩ := hs
  obtain ⟨em, eu, el⟩ := setup_eqn_fields exp s V Up
  obtain ⟨m1, m2⟩ := forRange_set (fun i =>
    -((setup_eqn exp s V Up).p_mob.getD i 0 * (setup_eqn exp s V Up).B_p2.getD i 0
      + (setup_eqn exp s V Up).p_mob.getD (i + 1) 0
        * (setup_eqn exp s V Up).B_p1.getD (i + 1) 0)) 1 (s.main_diag.length - 1) s.main_diag
  obtain ⟨u1, u2⟩ := forRange_set (fun i => (setup_eqn exp s V Up).p_mob.getD (i + 1) 0
    * (setup_eqn exp s V Up).B_p2.getD (i + 1) 0) 1 (s.upper_diag.length - 1) s.upper_diag
  obtain ⟨l1, l2⟩ := forRange_set (fun i => (setup_eqn exp s V Up).p_mob.getD (i + 1) 0
    * (setup_eqn exp s V Up).B_p1.getD (i + 1) 0) 1 (s.lower_diag.length - 1) s.lower_diag
  rw [← em] at m1 m2
  rw [← eu] at u1 u2
  rw [← el] at l1 l2
  refine ⟨fun i h1 h2 => ?_, fun i h1 h2 => ⟨?_, ?_⟩, by omega, by omega, fun i h1 h2 => ?_⟩
  · rw [Poisson.getElem?_eq_some_getD _ _ (by omega), m2, if_pos (by omega)]
  · rw [Poisson.getElem?_eq_some_getD _ _ (by omega), u2, if_pos (by omega)]
  · rw [Poisson.getElem?_eq_some_getD _ _ (by omega), l2, if_pos (by omega)]
  · obtain ⟨b1, b2⟩ := BernoulliFnc_p_getD exp s V (by omega) (by omega) h1
      (show i < V.length by omega)
    have e1 : (setup_eqn exp s V Up).B_p1 = (BernoulliFnc_p exp s V).B_p1 := rfl
    have e2 : (setup_eqn exp s V Up).B_p2 = (BernoulliFnc_p exp s V).B_p2 := rfl
    rw [e1, e2, b1, b2]
    exact ⟨rfl, rfl⟩

theorem demo_sized : (init Real.exp 1 (demoCParams ℝ)).Sized 3 :=
  ⟨rfl, rfl, rfl, rfl, rfl, rfl, rfl⟩

theorem setup_eqn_diagonals_witness :
    (setup_eqn Real.exp (init Real.exp 1 (demoCParams ℝ)) (demoV ℝ) (demoUp ℝ)).upper_diag.length
        + 1
      = (setup_eqn Real.exp (init Real.exp 1 (demoCParams ℝ)) (demoV ℝ) (demoUp ℝ)).main_diag.length
      ∧ (setup_eqn Real.exp (init Real.exp 1 (demoCParams ℝ)) (demoV ℝ) (demoUp ℝ)).main_diag[2]?
        = some (-((setup_eqn Real.exp (init Real.exp 1 (demoCParams ℝ)) (demoV ℝ)
                (demoUp ℝ)).p_mob.getD 2 0
              * (setup_eqn Real.exp (init Real.exp 1 (demoCParams ℝ)) (demoV ℝ)
                (demoUp ℝ)).B_p2.getD 2 0
            + (setup_eqn Real.exp (init Real.exp 1 (demoCParams ℝ)) (demoV ℝ)
                (demoUp ℝ)).p_mob.getD (2 + 1) 0
              * (setup_eqn Real.exp (init Real.exp 1 (demoCParams ℝ)) (demoV ℝ)
                (demoUp ℝ)).B_p1.getD (2 + 1) 0)) :=
  ⟨(setup_eqn_diagonals Real.exp (init Real.exp 1 (demoCParams ℝ)) (demoV ℝ) (demoUp ℝ) 3
      (by decide) demo_sized rfl).2.2.1,
    (setup_eqn_diagonals Real.exp (init Real.exp 1 (demoCParams ℝ)) (demoV ℝ) (demoUp ℝ) 3
      (by decide) demo_sized rfl).1 2 (by decide) (by decide)⟩

/-- The entries of `rhs` after `set_rhs(Up)`, for a vector of `N + 1` entries. -/
theorem continuity_set_rhs_getD (s : Continuity_p K) (Up : List K) (N : Nat) (hr : s.rhs.length = N + 1) :
    (s.set_rhs Up).rhs.length = N + 1
      ∧ ∀ i, 1 ≤ i → i ≤ N →
        (s.set_rhs Up).rhs.getD i 0
          = (-s.Cp) * Up.getD i 0
            - (if i = 1 then s.p_mob.getD 0 0 * s.B_p1.getD 1 0 * s.p_leftBC else 0)
            - (if i = N then s.p_mob.getD (N + 1) 0 * s.B_p2.getD (N + 1) 0 * s.p_rightBC
                else 0) := by
  obtain ⟨r1, r2⟩ := forRange_set (fun i => (-s.Cp) * Up.getD i 0) 1 (s.rhs.length - 1) s.rhs
  have r1' := r1.trans hr
  have r2' : ∀ r, 1 ≤ r → r ≤ N →
      (forRange 1 (s.rhs.length - 1) (fun i v => v.set i ((-s.Cp) * Up.getD i 0)) s.rhs).getD r 0
        = (-s.Cp) * Up.getD r 0 := fun r h1 h2 => by
    rw [r2, if_pos ⟨h1, by omega, by omega⟩]
  unfold set_rhs
  dsimp only
  generalize forRange 1 (s.rhs.length - 1) (fun i v => v.set i ((-s.Cp) * Up.getD i 0)) s.rhs
    = R1 at r1' r2'
  simp only [List.length_set, r1', Nat.add_sub_cancel, getD_set]
  refine ⟨trivial, fun i h1 h2 => ?_⟩
  by_cases hi1 : i = 1 <;> by_cases hiN : i = N
  · subst hi1; subst hiN
    rw [if_pos ⟨rfl, by omega⟩, if_pos ⟨rfl, by omega⟩, if_pos rfl, if_pos rfl, r2' 1 h1 h2]
  · subst hi1
    rw [if_neg (fun h => hiN h.1.symm), if_pos ⟨rfl, by omega⟩, if_pos rfl, if_neg hiN,
      r2' 1 h1 h2, sub_zero]
  · subst hiN
    rw [if_pos ⟨rfl, by omega⟩, if_neg (fun h => hi1 h.1.symm), if_neg hi1, if_pos rfl,
      r2' i h1 h2, sub_zero]
  · rw [if_neg (fun h => hiN h.1.symm), if_neg (fun h => hi1 h.1.symm), if_neg hi1, if_neg hiN,
      r2' i h1 h2, sub_zero, sub_zero]

/-- C5. For `N = num_cell - 1 >= 1` and `rhs` of `N + 1` entries, `set_rhs(Up)` leaves
`rhs[i] = -Cp*Up[i]` for `1 < i < N`; when `N >= 2`,
`rhs[1] = -Cp*Up[1] - p_mob[0]*B_p1[1]*p_leftBC` and
`rhs[N] = -Cp*Up[N] - p_mob[N+1]*B_p2[N+1]*p_rightBC`; and when `N = 1`, `rhs[1]` carries both
boundary subtractions. -/
theorem continuity_rhs_spec (s : Continuity_p K) (Up : List K) (N : Nat) (hN : 1 ≤ N)
    (hs : s.Sized N) :
    (∀ i, 1 < i → i < N → (s.set_rhs Up).rhs[i]? = some ((-s.Cp) * Up.getD i 0))
      ∧ (2 ≤ N →
          (s.set_rhs Up).rhs[1]?
              = some ((-s.Cp) * Up.getD 1 0 - s.p_mob.getD 0 0 * s.B_p1.getD 1 0 * s.p_leftBC)
            ∧ (s.set_rhs Up).rhs[N]?
              = some ((-s.Cp) * Up.getD N 0
                  - s.p_mob.getD (N + 1) 0 * s.B_p2.getD (N + 1) 0 * s.p_rightBC))
      ∧ (N = 1 →
          (s.set_rhs Up).rhs[1]?
            = some ((-s.Cp) * Up.getD 1 0 - s.p_mob.getD 0 0 * s.B_p1.getD 1 0 * s.p_leftBC
                - s.p_mob.getD 2 0 * s.B_p2.getD 2 0 * s.p_rightBC)) := by
  obtain ⟨hlen, hget⟩ := continuity_set_rhs_getD s Up N hs.2.2.2.1
  refine ⟨fun i h1 h2 => ?_, fun h => ⟨?_, ?_⟩, fun h => ?_⟩
  · rw [Poisson.getElem?_eq_some_getD _ _ (by omega), hget i (by omega) (by omega),
      if_neg (by omega), if_neg (by omega), sub_zero, sub_zero]
  · rw [Poisson.getElem?_eq_some_getD _ _ (by omega), hget 1 (by omega) (by omega),
      if_pos rfl, if_neg (by omega), sub_zero]
  · rw [Poisson.getElem?_eq_some_getD _ _ (by omega), hget N (by omega) (by omega),
      if_neg (by omega), if_pos rfl, sub_zero]
  · subst h
    rw [Poisson.getElem?_eq_some_getD _ _ (by omega), hget 1 (by omega) (by omega),
      if_pos rfl, if_pos rfl]

theorem continuity_rhs_spec_witness :
    ((init Real.exp 1 (demoCParams ℝ)).set_rhs (demoUp ℝ)).rhs[1]?
        = some ((-(init Real.exp 1 (demoCParams ℝ)).Cp) * (demoUp ℝ).getD 1 0
            - (init Real.exp 1 (demoCParams ℝ)).p_mob.getD 0 0
              * (init Real.exp 1 (demoCParams ℝ)).B_p1.getD 1 0
              * (init Real.exp 1 (demoCParams ℝ)).p_leftBC)
      ∧ ((init Real.exp 1 (demoCParams ℝ)).set_rhs (demoUp ℝ)).rhs[3]?
        = some ((-(init Real.exp 1 (demoCParams ℝ)).Cp) * (demoUp ℝ).getD 3 0
            - (init Real.exp 1 (demoCParams ℝ)).p_mob.getD (3 + 1) 0
              * (init Real.exp 1 (demoCParams ℝ)).B_p2.getD (3 + 1) 0
              * (init Real.exp 1 (demoCParams ℝ)).p_rightBC) :=
  (continuity_rhs_spec (init Real.exp 1 (demoCParams ℝ)) (demoUp ℝ) 3 (by decide)
    demo_sized).2.1 (by decide)

end Continuity_p

namespace Continuity_p
variable {K : Type} [Field K]

/-- Every entry written by `setup_eqn(V, Up)` on vectors of the constructor's sizes
(`num_cell = N + 1`), whatever the lengths of `V` and `Up`: the diagonals and `rhs` are computed
from `p_mob` and from the coefficient vectors left by `BernoulliFnc_p(V)`. -/
theorem setup_eqn_getD (exp : K → K) (s : Continuity_p K) (V Up : List K) (N : Nat)
    (hs : s.Sized N) :
    (setup_eqn exp s V Up).main_diag.length = N + 1
      ∧ (setup_eqn exp s V Up).upper_diag.length = N
      ∧ (setup_eqn exp s V Up).lower_diag.length = N
      ∧ (setup_eqn exp s V Up).rhs.length = N + 1
      ∧ (∀ i, 1 ≤ i → i ≤ N →
          (setup_eqn exp s V Up).main_diag.getD i 0
            = -(s.p_mob.getD i 0 * (BernoulliFnc_p exp s V).B_p2.getD i 0
                + s.p_mob.getD (i + 1) 0 * (BernoulliFnc_p exp s V).B_p1.getD (i + 1) 0))
      ∧ (∀ i, 1 ≤ i → i + 1 ≤ N →
          (setup_eqn exp s V Up).upper_diag.getD i 0
            = s.p_mob.getD (i + 1) 0 * (BernoulliFnc_p exp s V).B_p2.getD (i + 1) 0)
      ∧ (∀ i, 1 ≤ i → i + 1 ≤ N →
          (setup_eqn exp s V Up).lower_diag.getD i 0
            = s.p_mob.getD (i + 1) 0 * (BernoulliFnc_p exp s V).B_p1.getD (i + 1) 0)
      ∧ (∀ i, 1 ≤ i → i ≤ N →
          (setup_eqn exp s V Up).rhs.getD i 0
            = (-s.Cp) * Up.getD i 0
              - (if i = 1 then
                  s.p_mob.getD 0 0 * (BernoulliFnc_p exp s V).B_p1.getD 1 0 * s.p_leftBC
                else 0)
              - (if i = N then
                  s.p_mob.getD (N + 1) 0 * (BernoulliFnc_p exp s V).B_p2.getD (N + 1) 0
                    * s.p_rightBC
                else 0)) := by
  obtain ⟨hm, hu, hl, hr, -⟩ := hs
  obtain ⟨em, eu, el⟩ := setup_eqn_fields exp s V Up
  have ep : (setup_eqn exp s V Up).p_mob = s.p_mob := rfl
  have e1 : (setup_eqn exp s V Up).B_p1 = (BernoulliFnc_p exp s V).B_p1 := rfl
  have e2 : (setup_eqn exp s V Up).B_p2 = (BernoulliFnc_p exp s V).B_p2 := rfl
  simp only [ep, e1, e2] at em eu el
  obtain ⟨m1, m2⟩ := forRange_set (fun i =>
    -(s.p_mob.getD i 0 * (BernoulliFnc_p exp s V).B_p2.getD i 0
      + s.p_mob.getD (i + 1) 0 * (BernoulliFnc_p exp s V).B_p1.getD (i + 1) 0))
    1 (s.main_diag.length - 1) s.main_diag
  obtain ⟨u1, u2⟩ := forRange_set (fun i => s.p_mob.getD (i + 1) 0
    * (BernoulliFnc_p exp s V).B_p2.getD (i + 1) 0) 1 (s.upper_diag.length - 1) s.upper_diag
  obtain ⟨l1, l2⟩ := forRange_set (fun i => s.p_mob.getD (i + 1) 0
    * (BernoulliFnc_p exp s V).B_p1.getD (i + 1) 0) 1 (s.lower_diag.length - 1) s.lower_diag
  rw [← em] at m1 m2
  rw [← eu] at u1 u2
  rw [← el] at l1 l2
  obtain ⟨rl, rg⟩ := continuity_set_rhs_getD
    (((BernoulliFnc_p exp s V).set_main_diag).set_upper_diag).set_lower_diag Up N hr
  refine ⟨by omega, by omega, by omega, rl, fun i h1 h2 => ?_, fun i h1 h2 => ?_,
    fun i h1 h2 => ?_, fun i h1 h2 => rg i h1 h2⟩
  · rw [m2, if_pos (by omega)]
  · rw [u2, if_pos (by omega)]
  · rw [l2, if_pos (by omega)]

/-- Flux conservation on non-flat edges.  Over the reals, for vectors of the constructor's sizes
(`num_cell = N + 1`), a potential of `N + 2` entries, any generation `Up` and any mobilities,
and an interior column `2 <= i <= N-1` whose two edges have non-zero potential differences
(`V[i] != V[i-1]`, `V[i+1] != V[i]`): the denominators `exp(V[i]-V[i-1]) - 1` and
`exp(V[i+1]-V[i]) - 1` of the two Bernoulli pairs entering the column are non-zero, the three
entries `main_diag[i]`, `upper_diag[i-1]` (row `i-1`, column `i`) and `lower_diag[i]` (row
`i+1`, column `i`) are in range, and `main_diag[i] + upper_diag[i-1] + lower_diag[i] = 0`. -/
theorem column_sum_zero (s : Continuity_p ℝ) (V Up : List ℝ) (N : Nat)
    (hs : s.Sized N) (hV : V.length = N + 2) {i : Nat} (h2 : 2 ≤ i) (hN : i ≤ N - 1)
    (hD1 : V.getD i 0 ≠ V.getD (i - 1) 0) (hD2 : V.getD (i + 1) 0 ≠ V.getD i 0) :
    Real.exp (V.getD i 0 - V.getD (i - 1) 0) - 1 ≠ 0
      ∧ Real.exp (V.getD (i + 1) 0 - V.getD i 0) - 1 ≠ 0
      ∧ ∃ m u l, (setup_eqn Real.exp s V Up).main_diag[i]? = some m
          ∧ (setup_eqn Real.exp s V Up).upper_diag[i - 1]? = some u
          ∧ (setup_eqn Real.exp s V Up).lower_diag[i]? = some l
          ∧ m = -(s.p_mob.getD i 0
                  * ((V.getD i 0 - V.getD (i - 1) 0)
                      / (Real.exp (V.getD i 0 - V.getD (i - 1) 0) - 1)
                    * Real.exp (V.getD i 0 - V.getD (i - 1) 0))
                + s.p_mob.getD (i + 1) 0
                  * ((V.getD (i + 1) 0 - V.getD i 0)
                      / (Real.exp (V.getD (i + 1) 0 - V.getD i 0) - 1)))
          ∧ m + u + l = 0 := by
  obtain ⟨lm, lu, ll, -, gm, gu, gl, -⟩ := setup_eqn_getD Real.exp s V Up N hs
  obtain ⟨-, b2⟩ := BernoulliFnc_p_getD Real.exp s V (by rw [hV, hs.2.2.2.2.1])
    (by rw [hV, hs.2.2.2.2.2.1]) (show 1 ≤ i by omega) (show i < V.length by omega)
  obtain ⟨b1, -⟩ := BernoulliFnc_p_getD Real.exp s V (by rw [hV, hs.2.2.2.2.1])
    (by rw [hV, hs.2.2.2.2.2.1]) (show 1 ≤ i + 1 by omega) (show i + 1 < V.length by omega)
  rw [Nat.add_sub_cancel] at b1
  refine ⟨fun h => hD1 (sub_eq_zero.1 ((Real.exp_eq_one_iff _).1 (sub_eq_zero.1 h))),
    fun h => hD2 (sub_eq_zero.1 ((Real.exp_eq_one_iff _).1 (sub_eq_zero.1 h))),
    _, _, _, Poisson.getElem?_eq_some_getD _ _ (by omega),
    Poisson.getElem?_eq_some_getD _ _ (by omega), Poisson.getElem?_eq_some_getD _ _ (by omega),
    ?_, ?_⟩
  · rw [gm i (by omega) (by omega), b2, b1]
  · rw [gm i (by omega) (by omega), gu (i - 1) (by omega) (by omega), gl i (by omega) (by omega),
      Nat.sub_add_cancel (by omega : 1 ≤ i)]
    ring

theorem column_sum_zero_witness :
    (demoV ℝ).getD 2 0 ≠ (demoV ℝ).getD (2 - 1) 0
      ∧ (demoV ℝ).getD (2 + 1) 0 ≠ (demoV ℝ).getD 2 0
      ∧ ∃ m u l,
        (setup_eqn Real.exp (init Real.exp 1 (demoCParams ℝ)) (demoV ℝ) (demoUp ℝ)).main_diag[2]?
            = some m
          ∧ (setup_eqn Real.exp (init Real.exp 1 (demoCParams ℝ)) (demoV ℝ)
              (demoUp ℝ)).upper_diag[2 - 1]? = some u
          ∧ (setup_eqn Real.exp (init Real.exp 1 (demoCParams ℝ)) (demoV ℝ)
              (demoUp ℝ)).lower_diag[2]? = some l
          ∧ m + u + l = 0 := by
  obtain ⟨-, -, m, u, l, hm, hu, hl, -, hsum⟩ :=
    column_sum_zero (init Real.exp 1 (demoCParams ℝ)) (demoV ℝ) (demoUp ℝ) 3 demo_sized rfl
      (i := 2) (by decide) (by decide) (by norm_num [demoV]) (by norm_num [demoV])
  exact ⟨by norm_num [demoV], by norm_num [demoV], m, u, l, hm, hu, hl, hsum⟩

/-- C20 fails on the code for a potential with a flat edge, through the defect of C7:
`BernoulliFnc_p` has no branch for a zero potential difference.  With `num_cell = 4`
(`N = 3`, the only interior column is `i = 2`) and `V = [0, 1, 1, 3, 6]`, the denominator
`exp(V[2]-V[1]) - 1` is `0`, so `B_p1[2]` and `B_p2[2]` are the value of `0/0` (the default `0`
of the total division, a NaN in IEEE arithmetic), and two of the three entries of column 2 are
computed from it: `upper_diag[1] = p_mob[2]*B_p2[2]` and
`main_diag[2] = -(p_mob[2]*B_p2[2] + p_mob[3]*B_p1[3])`. -/
theorem column_sum_flat_edge :
    (2 ≤ 2 ∧ 2 ≤ 3 - 1)
      ∧ Real.exp ((kinkV ℝ).getD 2 0 - (kinkV ℝ).getD (2 - 1) 0) - 1 = 0
      ∧ (setup_eqn Real.exp (init Real.exp 1 (demoCParams ℝ)) (kinkV ℝ) (demoUp ℝ)).B_p1.getD 2 0
        = 0
      ∧ (setup_eqn Real.exp (init Real.exp 1 (demoCParams ℝ)) (kinkV ℝ) (demoUp ℝ)).B_p2.getD 2 0
        = 0
      ∧ (setup_eqn Real.exp (init Real.exp 1 (demoCParams ℝ)) (kinkV ℝ)
          (demoUp ℝ)).upper_diag.getD (2 - 1) 0
        = (init Real.exp 1 (demoCParams ℝ)).p_mob.getD 2 0
          * (setup_eqn Real.exp (init Real.exp 1 (demoCParams ℝ)) (kinkV ℝ)
              (demoUp ℝ)).B_p2.getD 2 0
      ∧ (setup_eqn Real.exp (init Real.exp 1 (demoCParams ℝ)) (kinkV ℝ)
          (demoUp ℝ)).main_diag.getD 2 0
        = -((init Real.exp 1 (demoCParams ℝ)).p_mob.getD 2 0
              * (setup_eqn Real.exp (init Real.exp 1 (demoCParams ℝ)) (kinkV ℝ)
                  (demoUp ℝ)).B_p2.getD 2 0
            + (init Real.exp 1 (demoCParams ℝ)).p_mob.getD (2 + 1) 0
              * (setup_eqn Real.exp (init Real.exp 1 (demoCParams ℝ)) (kinkV ℝ)
                  (demoUp ℝ)).B_p1.getD (2 + 1) 0) := by
  obtain ⟨-, -, -, -, gm, gu, -, -⟩ :=
    setup_eqn_getD Real.exp (init Real.exp 1 (demoCParams ℝ)) (kinkV ℝ) (demoUp ℝ) 3 demo_sized
  obtain ⟨e1, e2⟩ := BernoulliFnc_p_getD Real.exp (init Real.exp 1 (demoCParams ℝ)) (kinkV ℝ)
    (by decide) (by decide) (i := 2) (by decide) (by decide)
  have hflat : (kinkV ℝ).getD 2 0 - (kinkV ℝ).getD (2 - 1) 0 = 0 := by norm_num [kinkV]
  have hB1 : (setup_eqn Real.exp (init Real.exp 1 (demoCParams ℝ)) (kinkV ℝ)
      (demoUp ℝ)).B_p1.getD 2 0 = 0 := by
    show (BernoulliFnc_p Real.exp (init Real.exp 1 (demoCParams ℝ)) (kinkV ℝ)).B_p1.getD 2 0 = 0
    rw [e1, hflat]
    simp
  have hB2 : (setup_eqn Real.exp (init Real.exp 1 (demoCParams ℝ)) (kinkV ℝ)
      (demoUp ℝ)).B_p2.getD 2 0 = 0 := by
    show (BernoulliFnc_p Real.exp (init Real.exp 1 (demoCParams ℝ)) (kinkV ℝ)).B_p2.getD 2 0 = 0
    rw [e2, hflat]
    simp
  refine ⟨⟨by decide, by decide⟩, by rw [hflat]; simp, hB1, hB2, ?_, ?_⟩
  · exact gu 1 (by decide) (by decide)
  · exact gm 2 (by decide) (by decide)

end Continuity_p

namespace Continuity_p

/-- C15. Over the reals, for every potential `V` and every edge `1 <= i < |V|` with
`V[i] != V[i-1]` (difference `D = V[i] - V[i-1]`, coefficient vectors at least as long as `V`):
`BernoulliFnc_p` computes `B_p1[i] = B1(D) = D/(exp D - 1)` and `B_p2[i] = B2(D) = B1(D)*exp D`;
the formulas satisfy `B1(-D) = B2(D)` and `B2(-D) = B1(D)`; and `BernoulliFnc_p` on the negated
potential `-V` returns, on that edge, the two coefficients of `V` exchanged. -/
theorem bernoulli_negation (s : Continuity_p ℝ) (V : List ℝ)
    (h1 : V.length ≤ s.B_p1.length) (h2 : V.length ≤ s.B_p2.length)
    {i : Nat} (hi : 1 ≤ i) (hiV : i < V.length)
    (hD : V.getD i 0 ≠ V.getD (i - 1) 0) :
    (BernoulliFnc_p Real.exp s V).B_p1.getD i 0
        = (V.getD i 0 - V.getD (i - 1) 0) / (Real.exp (V.getD i 0 - V.getD (i - 1) 0) - 1)
      ∧ (BernoulliFnc_p Real.exp s V).B_p2.getD i 0
        = (V.getD i 0 - V.getD (i - 1) 0) / (Real.exp (V.getD i 0 - V.getD (i - 1) 0) - 1)
            * Real.exp (V.getD i 0 - V.getD (i - 1) 0)
      ∧ (-(V.getD i 0 - V.getD (i - 1) 0))
            / (Real.exp (-(V.getD i 0 - V.getD (i - 1) 0)) - 1)
        = (V.getD i 0 - V.getD (i - 1) 0) / (Real.exp (V.getD i 0 - V.getD (i - 1) 0) - 1)
            * Real.exp (V.getD i 0 - V.getD (i - 1) 0)
      ∧ (-(V.getD i 0 - V.getD (i - 1) 0))
            / (Real.exp (-(V.getD i 0 - V.getD (i - 1) 0)) - 1)
            * Real.exp (-(V.getD i 0 - V.getD (i - 1) 0))
        = (V.getD i 0 - V.getD (i - 1) 0) / (Real.exp (V.getD i 0 - V.getD (i - 1) 0) - 1)
      ∧ (BernoulliFnc_p Real.exp s (V.map fun v => -v)).B_p1.getD i 0
        = (BernoulliFnc_p Real.exp s V).B_p2.getD i 0
      ∧ (BernoulliFnc_p Real.exp s (V.map fun v => -v)).B_p2.getD i 0
        = (BernoulliFnc_p Real.exp s V).B_p1.getD i 0 := by
  obtain ⟨e1, e2⟩ := BernoulliFnc_p_getD Real.exp s V h1 h2 hi hiV
  obtain ⟨n1, n2⟩ := BernoulliFnc_p_getD Real.exp s (V.map fun v => -v)
    (by rw [List.length_map]; exact h1) (by rw [List.length_map]; exact h2) hi
    (by rw [List.length_map]; exact hiV)
  have hneg : ∀ r, r < V.length → (V.map fun v => -v).getD r 0 = -V.getD r 0 := fun r hr => by
    rw [List.getD_eq_getElem _ _ (by rw [List.length_map]; exact hr), List.getD_eq_getElem _ _ hr,
      List.getElem_map]
  rw [hneg i hiV, hneg (i - 1) (by omega)] at n1 n2
  have hsub : -V.getD i 0 - -V.getD (i - 1) 0 = -(V.getD i 0 - V.getD (i - 1) 0) := by ring
  rw [hsub] at n1 n2
  rw [e1, e2, n1, n2]
  have hD' : V.getD i 0 - V.getD (i - 1) 0 ≠ 0 := sub_ne_zero.2 hD
  generalize V.getD i 0 - V.getD (i - 1) 0 = D at hD'
  have hne : Real.exp D - 1 ≠ 0 := fun h => hD' ((Real.exp_eq_one_iff D).1 (sub_eq_zero.1 h))
  have hpos : Real.exp D ≠ 0 := (Real.exp_pos D).ne.symm
  have hinv : Real.exp (-D) = (Real.exp D)⁻¹ := Real.exp_neg D
  have hne' : (Real.exp D)⁻¹ - 1 ≠ 0 := fun h => hne (by
    have : (Real.exp D)⁻¹ = 1 := sub_eq_zero.1 h
    rw [inv_eq_one] at this
    rw [this, sub_self])
  have hne2 : 1 - Real.exp D ≠ 0 := fun h => hne (by linarith)
  have k1 : -D / ((Real.exp D)⁻¹ - 1) = D / (Real.exp D - 1) * Real.exp D := by
    field_simp
    ring
  have k2 : -D / ((Real.exp D)⁻¹ - 1) * (Real.exp D)⁻¹ = D / (Real.exp D - 1) := by
    rw [k1]
    field_simp
    ring
  rw [hinv]
  exact ⟨rfl, rfl, k1, k2, k1, k2⟩

theorem bernoulli_negation_witness :
    (demoV ℝ).getD 2 0 ≠ (demoV ℝ).getD (2 - 1) 0
      ∧ (BernoulliFnc_p Real.exp (init Real.exp 1 (demoCParams ℝ))
            ((demoV ℝ).map fun v => -v)).B_p1.getD 2 0
        = (BernoulliFnc_p Real.exp (init Real.exp 1 (demoCParams ℝ)) (demoV ℝ)).B_p2.getD 2 0
      ∧ (BernoulliFnc_p Real.exp (init Real.exp 1 (demoCParams ℝ))
            ((demoV ℝ).map fun v => -v)).B_p2.getD 2 0
        = (BernoulliFnc_p Real.exp (init Real.exp 1 (demoCParams ℝ)) (demoV ℝ)).B_p1.getD 2 0 :=
  ⟨by norm_num [demoV],
    (bernoulli_negation (init Real.exp 1 (demoCParams ℝ)) (demoV ℝ) (by decide) (by decide)
      (i := 2) (by decide) (by decide) (by norm_num [demoV])).2.2.2.2⟩

end Continuity_p

namespace Continuity_p

theorem flatDevice_sized : (flatDevice Real.exp).Sized 3 :=
  ⟨rfl, rfl, rfl, rfl, rfl, rfl, rfl⟩

/-- C12 fails on the code: with `num_cell = 4`, every mobility `1`, the all-zero potential,
zero generation, `p_leftBC = 2` and `p_rightBC = 3`, the denominator `exp(V[i]-V[i-1]) - 1` of
`BernoulliFnc_p` is `0` on every edge, the Bernoulli pairs are the value of `0/0` (the default
`0` of the total division, a NaN in IEEE arithmetic) instead of `(1, 1)`, and that value is what
`setup_eqn` puts into the system: `main_diag[1..3]` is not `[-2,-2,-2]`, `upper_diag[1..2]` and
`lower_diag[1..2]` are not `[1,1]`, and `rhs[1]`, `rhs[3]` are not `-2`, `-3`. -/
theorem flat_potential_assembly :
    (∀ i, 1 ≤ i → i ≤ 4 →
        Real.exp ((flatV ℝ).getD i 0 - (flatV ℝ).getD (i - 1) 0) - 1 = 0
          ∧ (setup_eqn Real.exp (flatDevice Real.exp) (flatV ℝ) (zeroUp ℝ)).B_p1.getD i 0 = 0
          ∧ (setup_eqn Real.exp (flatDevice Real.exp) (flatV ℝ) (zeroUp ℝ)).B_p2.getD i 0 = 0)
      ∧ (∀ i, 1 ≤ i → i ≤ 3 →
          (setup_eqn Real.exp (flatDevice Real.exp) (flatV ℝ) (zeroUp ℝ)).main_diag.getD i 0 = 0)
      ∧ (∀ i, 1 ≤ i → i ≤ 2 →
          (setup_eqn Real.exp (flatDevice Real.exp) (flatV ℝ) (zeroUp ℝ)).upper_diag.getD i 0 = 0
            ∧ (setup_eqn Real.exp (flatDevice Real.exp) (flatV ℝ) (zeroUp ℝ)).lower_diag.getD i 0
              = 0)
      ∧ (∀ i, 1 ≤ i → i ≤ 3 →
          (setup_eqn Real.exp (flatDevice Real.exp) (flatV ℝ) (zeroUp ℝ)).rhs.getD i 0 = 0)
      ∧ (setup_eqn Real.exp (flatDevice Real.exp) (flatV ℝ) (zeroUp ℝ)).main_diag.getD 1 0 ≠ -2
      ∧ (setup_eqn Real.exp (flatDevice Real.exp) (flatV ℝ) (zeroUp ℝ)).upper_diag.getD 1 0 ≠ 1
      ∧ (setup_eqn Real.exp (flatDevice Real.exp) (flatV ℝ) (zeroUp ℝ)).rhs.getD 1 0 ≠ -2 := by
  obtain ⟨-, -, -, -, gm, gu, gl, gr⟩ :=
    setup_eqn_getD Real.exp (flatDevice Real.exp) (flatV ℝ) (zeroUp ℝ) 3 flatDevice_sized
  have hflat : ∀ i, (flatV ℝ).getD i 0 = 0 := fun i => by
    match i with
    | 0 | 1 | 2 | 3 | 4 => rfl
    | _ + 5 => rfl
  have hB : ∀ i, 1 ≤ i → i ≤ 4 →
      (BernoulliFnc_p Real.exp (flatDevice Real.exp) (flatV ℝ)).B_p1.getD i 0 = 0
        ∧ (BernoulliFnc_p Real.exp (flatDevice Real.exp) (flatV ℝ)).B_p2.getD i 0 = 0 :=
    fun i h1 h2 => by
      obtain ⟨e1, e2⟩ := BernoulliFnc_p_getD Real.exp (flatDevice Real.exp) (flatV ℝ)
        (by decide) (by decide) h1 (show i < (flatV ℝ).length from Nat.lt_succ_of_le h2)
      rw [e1, e2, hflat, hflat]
      simp
  have hUp : ∀ i, (zeroUp ℝ).getD i 0 = 0 := fun i => by
    match i with
    | 0 | 1 | 2 | 3 => rfl
    | _ + 4 => rfl
  have hm : ∀ i, 1 ≤ i → i ≤ 3 →
      (setup_eqn Real.exp (flatDevice Real.exp) (flatV ℝ) (zeroUp ℝ)).main_diag.getD i 0 = 0 :=
    fun i h1 h2 => by
      rw [gm i h1 h2, (hB i h1 (by omega)).2, (hB (i + 1) (by omega) (by omega)).1]
      simp
  have hu : ∀ i, 1 ≤ i → i ≤ 2 →
      (setup_eqn Real.exp (flatDevice Real.exp) (flatV ℝ) (zeroUp ℝ)).upper_diag.getD i 0 = 0 :=
    fun i h1 h2 => by
      rw [gu i h1 (by omega), (hB (i + 1) (by omega) (by omega)).2]
      simp
  have hr : ∀ i, 1 ≤ i → i ≤ 3 →
      (setup_eqn Real.exp (flatDevice Real.exp) (flatV ℝ) (zeroUp ℝ)).rhs.getD i 0 = 0 :=
    fun i h1 h2 => by
      rw [gr i h1 h2, hUp, (hB 1 (by omega) (by omega)).1, (hB 4 (by omega) (by omega)).2]
      simp
  refine ⟨fun i h1 h2 => ⟨by rw [hflat, hflat]; simp, hB i h1 h2⟩, hm,
    fun i h1 h2 => ⟨hu i h1 h2, ?_⟩, hr, ?_, ?_, ?_⟩
  · rw [gl i h1 (by omega), (hB (i + 1) (by omega) (by omega)).1]
    simp
  · rw [hm 1 (by omega) (by omega)]
    norm_num
  · rw [hu 1 (by omega) (by omega)]
    norm_num
  · rw [hr 1 (by omega) (by omega)]
    norm_num

end Continuity_p

namespace Continuity_p
variable {K : Type} [Field K]

/-- C14 fails on the code: `setup_eqn` has no length check.  On the constructor's state for
`num_cell = 4` and a potential of 2 entries instead of 5 (with `Up` of the configured length 4,
so that every vector access is in range) it completes and overwrites the vectors: `rhs[2]`
goes from `0` to `-Cp*Up[2] = -2`, and `main_diag[1]` is overwritten with a non-zero value. -/
theorem dimension_mismatch_counterexample :
    (shortV ℝ).length ≠ (demoCParams ℝ).num_cell + 1
      ∧ (demoUp ℝ).length = (demoCParams ℝ).num_cell
      ∧ (init Real.exp 1 (demoCParams ℝ)).rhs.getD 2 0 = 0
      ∧ (setup_eqn Real.exp (init Real.exp 1 (demoCParams ℝ)) (shortV ℝ) (demoUp ℝ)).rhs.getD 2 0
        = -2
      ∧ (init Real.exp 1 (demoCParams ℝ)).main_diag.getD 1 0 = 0
      ∧ (setup_eqn Real.exp (init Real.exp 1 (demoCParams ℝ)) (shortV ℝ)
          (demoUp ℝ)).main_diag.getD 1 0 ≠ 0 := by
  obtain ⟨-, -, -, -, gm, -, -, gr⟩ :=
    setup_eqn_getD Real.exp (init Real.exp 1 (demoCParams ℝ)) (shortV ℝ) (demoUp ℝ) 3 demo_sized
  obtain ⟨-, e2⟩ := BernoulliFnc_p_getD Real.exp (init Real.exp 1 (demoCParams ℝ)) (shortV ℝ)
    (by decide) (by decide) (i := 1) (by decide) (by decide)
  have e3 : (BernoulliFnc_p Real.exp (init Real.exp 1 (demoCParams ℝ)) (shortV ℝ)).B_p1.getD 2 0
      = 0 := by
    unfold BernoulliFnc_p
    dsimp only
    rw [forRange_pair _ _ _ _ _ _ (by decide)]
    dsimp only
    obtain ⟨-, b1⟩ := forRange_set (fun i =>
      (forRange 1 ((shortV ℝ).length - 1)
        (fun i dV => dV.set i ((shortV ℝ).getD i 0 - (shortV ℝ).getD (i - 1) 0))
        (List.replicate (shortV ℝ).length 0)).getD i 0
      / (Real.exp ((forRange 1 ((shortV ℝ).length - 1)
        (fun i dV => dV.set i ((shortV ℝ).getD i 0 - (shortV ℝ).getD (i - 1) 0))
        (List.replicate (shortV ℝ).length 0)).getD i 0) - 1)) 1 ((shortV ℝ).length - 1)
      (init Real.exp 1 (demoCParams ℝ)).B_p1
    rw [b1, if_neg (by decide)]
    rfl
  refine ⟨by decide, rfl, rfl, ?_, rfl, ?_⟩
  · rw [gr 2 (by decide) (by decide), if_neg (by decide), if_neg (by decide)]
    simp [init, demoCParams, demoUp]
  · rw [gm 1 (by decide) (by decide), e2, e3]
    have h1 : (shortV ℝ).getD 1 0 - (shortV ℝ).getD (1 - 1) 0 = 1 := by norm_num [shortV]
    have hp : (init Real.exp 1 (demoCParams ℝ)).p_mob.getD 1 0 = 1 := by
      simp [init, demoCParams]
    rw [h1, hp]
    have hne : Real.exp 1 - 1 ≠ 0 := fun h =>
      one_ne_zero ((Real.exp_eq_one_iff 1).1 (sub_eq_zero.1 h))
    have hpos : Real.exp 1 ≠ 0 := (Real.exp_pos 1).ne.symm
    simp only [mul_zero, add_zero, one_mul, neg_ne_zero]
    exact mul_ne_zero (div_ne_zero one_ne_zero hne) hpos

/-- C14, amended. `setup_eqn(V, Up)` has no length check and no failure condition.  For vectors
of the constructor's sizes (`num_cell = N + 1 >= 2`), every potential of at most `num_cell + 1`
entries and every `Up` of at least `num_cell` entries (the lengths for which every vector access
is in range, the configured lengths among them), it completes and overwrites `main_diag[i]` and
`rhs[i]` for `1 <= i <= N` and `upper_diag[i]`, `lower_diag[i]` for `1 <= i <= N-1` with the
values computed from `p_mob`, `Up` and the coefficient vectors as `BernoulliFnc_p(V)` leaves
them, keeping the lengths of the four vectors. -/
theorem setup_eqn_unchecked (exp : K → K) (s : Continuity_p K) (V Up : List K) (N : Nat)
    (hN : 1 ≤ N) (hs : s.Sized N) (_hV : V.length ≤ N + 2) (_hUp : N + 1 ≤ Up.length) :
    (setup_eqn exp s V Up).main_diag.length = s.main_diag.length
      ∧ (setup_eqn exp s V Up).upper_diag.length = s.upper_diag.length
      ∧ (setup_eqn exp s V Up).lower_diag.length = s.lower_diag.length
      ∧ (setup_eqn exp s V Up).rhs.length = s.rhs.length
      ∧ (∀ i, 1 ≤ i → i ≤ N →
          (setup_eqn exp s V Up).main_diag[i]?
            = some (-(s.p_mob.getD i 0 * (BernoulliFnc_p exp s V).B_p2.getD i 0
                + s.p_mob.getD (i + 1) 0 * (BernoulliFnc_p exp s V).B_p1.getD (i + 1) 0)))
      ∧ (∀ i, 1 ≤ i → i ≤ N - 1 →
          (setup_eqn exp s V Up).upper_diag[i]?
              = some (s.p_mob.getD (i + 1) 0 * (BernoulliFnc_p exp s V).B_p2.getD (i + 1) 0)
            ∧ (setup_eqn exp s V Up).lower_diag[i]?
              = some (s.p_mob.getD (i + 1) 0 * (BernoulliFnc_p exp s V).B_p1.getD (i + 1) 0))
      ∧ (∀ i, 1 ≤ i → i ≤ N →
          (setup_eqn exp s V Up).rhs[i]?
            = some ((-s.Cp) * Up.getD i 0
              - (if i = 1 then
                  s.p_mob.getD 0 0 * (BernoulliFnc_p exp s V).B_p1.getD 1 0 * s.p_leftBC
                else 0)
              - (if i = N then
                  s.p_mob.getD (N + 1) 0 * (BernoulliFnc_p exp s V).B_p2.getD (N + 1) 0
                    * s.p_rightBC
                else 0))) := by
  obtain ⟨lm, lu, ll, lr, gm, gu, gl, gr⟩ := setup_eqn_getD exp s V Up N hs
  obtain ⟨hm, hu, hl, hr, -⟩ := hs
  refine ⟨by omega, by omega, by omega, by omega, fun i h1 h2 => ?_,
    fun i h1 h2 => ⟨?_, ?_⟩, fun i h1 h2 => ?_⟩
  · rw [Poisson.getElem?_eq_some_getD _ _ (by omega), gm i h1 h2]
  · rw [Poisson.getElem?_eq_some_getD _ _ (by omega), gu i h1 (by omega)]
  · rw [Poisson.getElem?_eq_some_getD _ _ (by omega), gl i h1 (by omega)]
  · rw [Poisson.getElem?_eq_some_getD _ _ (by omega), gr i h1 h2]

theorem setup_eqn_unchecked_witness :
    (shortV ℝ).length ≤ 3 + 2 ∧ 3 + 1 ≤ (demoUp ℝ).length
      ∧ (setup_eqn Real.exp (init Real.exp 1 (demoCParams ℝ)) (shortV ℝ) (demoUp ℝ)).rhs[2]?
        = some ((-(init Real.exp 1 (demoCParams ℝ)).Cp) * (demoUp ℝ).getD 2 0
            - (if 2 = 1 then
                (init Real.exp 1 (demoCParams ℝ)).p_mob.getD 0 0
                  * (BernoulliFnc_p Real.exp (init Real.exp 1 (demoCParams ℝ))
                      (shortV ℝ)).B_p1.getD 1 0
                  * (init Real.exp 1 (demoCParams ℝ)).p_leftBC
              else 0)
            - (if 2 = 3 then
                (init Real.exp 1 (demoCParams ℝ)).p_mob.getD (3 + 1) 0
                  * (BernoulliFnc_p Real.exp (init Real.exp 1 (demoCParams ℝ))
                      (shortV ℝ)).B_p2.getD (3 + 1) 0
                  * (init Real.exp 1 (demoCParams ℝ)).p_rightBC
              else 0)) :=
  ⟨by decide, by decide,
    (setup_eqn_unchecked Real.exp (init Real.exp 1 (demoCParams ℝ)) (shortV ℝ) (demoUp ℝ) 3
      (by decide) demo_sized (by decide) (by decide)).2.2.2.2.2.2 2 (by decide) (by decide)⟩

end Continuity_p

namespace Continuity_p

/-- C11. Over the reals, for `N = num_cell - 1 >= 1` interior nodes, zero generation, the same
mobility `m` at every node and a linear potential `V[i] = V0 + i*D` (`0 <= i <= N+1`) with
`D != 0`: constants `A`, `B` with `A + B*exp(-V[0]) = p_leftBC` and
`A + B*exp(-V[N+1]) = p_rightBC` exist, and for any such `A`, `B` the profile
`p[i] = A + B*exp(-V[i])` satisfies every row `1 <= i <= N` of the system assembled by
`setup_eqn`: `lower_diag[i-1]*p[i-1] + main_diag[i]*p[i] + upper_diag[i]*p[i+1] = rhs[i]`, where
row 1 has no term in `p[0]` and row `N` no term in `p[N+1]` on the left (they are the ones
subtracted in `rhs`). -/
theorem exponential_profile_solves (s : Continuity_p ℝ) (V Up : List ℝ) (N : Nat) (m V0 D : ℝ)
    (hN : 1 ≤ N) (hs : s.Sized N) (hV : V.length = N + 2)
    (hlin : ∀ i, i ≤ N + 1 → V.getD i 0 = V0 + (i : ℝ) * D) (hD : D ≠ 0)
    (hUp : Up = List.replicate (N + 1) 0)
    (hm : ∀ i, i ≤ N + 1 → s.p_mob.getD i 0 = m) :
    (∃ A B : ℝ, A + B * Real.exp (-V.getD 0 0) = s.p_leftBC
        ∧ A + B * Real.exp (-V.getD (N + 1) 0) = s.p_rightBC)
      ∧ ∀ A B : ℝ, A + B * Real.exp (-V.getD 0 0) = s.p_leftBC →
          A + B * Real.exp (-V.getD (N + 1) 0) = s.p_rightBC →
          ∀ i, 1 ≤ i → i ≤ N →
            (if i = 1 then 0
              else (setup_eqn Real.exp s V Up).lower_diag.getD (i - 1) 0
                * (A + B * Real.exp (-V.getD (i - 1) 0)))
              + (setup_eqn Real.exp s V Up).main_diag.getD i 0
                * (A + B * Real.exp (-V.getD i 0))
              + (if i = N then 0
                else (setup_eqn Real.exp s V Up).upper_diag.getD i 0
                  * (A + B * Real.exp (-V.getD (i + 1) 0)))
            = (setup_eqn Real.exp s V Up).rhs.getD i 0 := by
  constructor
  · have hne : Real.exp (-V.getD 0 0) - Real.exp (-V.getD (N + 1) 0) ≠ 0 := by
      intro h
      have h2 := Real.exp_injective (sub_eq_zero.1 h)
      rw [hlin 0 (by omega), hlin (N + 1) (by omega)] at h2
      have h3 : ((N + 1 : ℕ) : ℝ) * D = 0 := by
        push_cast at h2 ⊢
        linarith
      rcases mul_eq_zero.1 h3 with h4 | h4
      · exact absurd h4 (Nat.cast_ne_zero.2 (Nat.succ_ne_zero N))
      · exact hD h4
    generalize Real.exp (-V.getD 0 0) = X0 at hne
    generalize Real.exp (-V.getD (N + 1) 0) = X1 at hne
    refine ⟨s.p_leftBC - (s.p_leftBC - s.p_rightBC) / (X0 - X1) * X0,
      (s.p_leftBC - s.p_rightBC) / (X0 - X1), by ring, ?_⟩
    field_simp
    ring
  · intro A B hL hR i h1 h2
    obtain ⟨-, -, -, -, gm, gu, gl, gr⟩ := setup_eqn_getD Real.exp s V Up N hs
    have hdiff : ∀ r, 1 ≤ r → r ≤ N + 1 → V.getD r 0 - V.getD (r - 1) 0 = D := fun r hr1 hr2 => by
      rw [hlin r hr2, hlin (r - 1) (by omega), Nat.cast_sub hr1]
      push_cast
      ring
    have hB : ∀ r, 1 ≤ r → r ≤ N + 1 →
        (BernoulliFnc_p Real.exp s V).B_p1.getD r 0 = D / (Real.exp D - 1)
          ∧ (BernoulliFnc_p Real.exp s V).B_p2.getD r 0
            = D / (Real.exp D - 1) * Real.exp D := fun r hr1 hr2 => by
      obtain ⟨e1, e2⟩ := BernoulliFnc_p_getD Real.exp s V (by rw [hV, hs.2.2.2.2.1])
        (by rw [hV, hs.2.2.2.2.2.1]) hr1 (show r < V.length by omega)
      rw [e1, e2, hdiff r hr1 hr2]
      exact ⟨rfl, rfl⟩
    have hUp0 : Up.getD i 0 = 0 := by
      rw [hUp, List.getD_eq_getElem _ _ (by rw [List.length_replicate]; omega),
        List.getElem_replicate]
    have hprev : Real.exp (-V.getD (i - 1) 0) = Real.exp (-V.getD i 0) * Real.exp D := by
      rw [← Real.exp_add]
      congr 1
      have := hdiff i h1 (by omega)
      linarith
    have hnext : Real.exp (-V.getD (i + 1) 0) * Real.exp D = Real.exp (-V.getD i 0) := by
      rw [← Real.exp_add]
      congr 1
      have := hdiff (i + 1) (by omega) (by omega)
      rw [Nat.add_sub_cancel] at this
      linarith
    rw [gm i h1 h2, gr i h1 h2, hUp0, (hB i h1 (by omega)).2, (hB (i + 1) (by omega) (by omega)).1,
      (hB 1 (by omega) (by omega)).1, (hB (N + 1) (by omega) (by omega)).2,
      hm i (by omega), hm (i + 1) (by omega), hm 0 (by omega), hm (N + 1) (by omega), ← hL, ← hR,
      hprev]
    by_cases hi1 : i = 1 <;> by_cases hiN : i = N
    · subst hi1
      subst hiN
      rw [if_pos rfl, if_pos rfl, if_pos rfl, if_pos rfl]
      have e0 : Real.exp (-V.getD 0 0) = Real.exp (-V.getD 1 0) * Real.exp D := hprev
      rw [e0]
      generalize D / (Real.exp D - 1) = b
      linear_combination (m * b * B) * hnext
    · subst hi1
      rw [if_pos rfl, if_neg hiN, if_pos rfl, if_neg hiN, gu 1 h1 (by omega),
        (hB 2 (by omega) (by omega)).2, hm 2 (by omega)]
      have e0 : Real.exp (-V.getD 0 0) = Real.exp (-V.getD 1 0) * Real.exp D := hprev
      rw [e0]
      generalize D / (Real.exp D - 1) = b
      linear_combination (m * b * B) * hnext
    · subst hiN
      rw [if_neg hi1, if_pos rfl, if_neg hi1, if_pos rfl, gl (i - 1) (by omega) (by omega),
        Nat.sub_add_cancel h1, (hB i h1 (by omega)).1, hm i (by omega)]
      generalize D / (Real.exp D - 1) = b
      linear_combination (m * b * B) * hnext
    · rw [if_neg hi1, if_neg hiN, if_neg hi1, if_neg hiN, gl (i - 1) (by omega) (by omega),
        Nat.sub_add_cancel h1, (hB i h1 (by omega)).1, hm i (by omega), gu i h1 (by omega),
        (hB (i + 1) (by omega) (by omega)).2, hm (i + 1) (by omega)]
      generalize D / (Real.exp D - 1) = b
      linear_combination (m * b * B) * hnext

theorem exponential_profile_solves_witness :
    (1 : ℝ) ≠ 0
      ∧ (∃ A B : ℝ, A + B * Real.exp (-(linearV ℝ).getD 0 0)
            = (init Real.exp 1 (demoCParams ℝ)).p_leftBC
          ∧ A + B * Real.exp (-(linearV ℝ).getD (3 + 1) 0)
            = (init Real.exp 1 (demoCParams ℝ)).p_rightBC)
      ∧ ∀ A B : ℝ,
          A + B * Real.exp (-(linearV ℝ).getD 0 0) = (init Real.exp 1 (demoCParams ℝ)).p_leftBC →
          A + B * Real.exp (-(linearV ℝ).getD (3 + 1) 0)
            = (init Real.exp 1 (demoCParams ℝ)).p_rightBC →
          (if 2 = 1 then 0
            else (setup_eqn Real.exp (init Real.exp 1 (demoCParams ℝ)) (linearV ℝ)
                (List.replicate (3 + 1) 0)).lower_diag.getD (2 - 1) 0
              * (A + B * Real.exp (-(linearV ℝ).getD (2 - 1) 0)))
            + (setup_eqn Real.exp (init Real.exp 1 (demoCParams ℝ)) (linearV ℝ)
                (List.replicate (3 + 1) 0)).main_diag.getD 2 0
              * (A + B * Real.exp (-(linearV ℝ).getD 2 0))
            + (if 2 = 3 then 0
              else (setup_eqn Real.exp (init Real.exp 1 (demoCParams ℝ)) (linearV ℝ)
                  (List.replicate (3 + 1) 0)).upper_diag.getD 2 0
                * (A + B * Real.exp (-(linearV ℝ).getD (2 + 1) 0)))
          = (setup_eqn Real.exp (init Real.exp 1 (demoCParams ℝ)) (linearV ℝ)
              (List.replicate (3 + 1) 0)).rhs.getD 2 0 :=
  ⟨one_ne_zero,
    (exponential_profile_solves (init Real.exp 1 (demoCParams ℝ)) (linearV ℝ)
      (List.replicate (3 + 1) 0) 3 1 0 1 (by decide) demo_sized rfl
      (fun i hi => by interval_cases i <;> norm_num [linearV]) one_ne_zero rfl
      (fun i hi => by interval_cases i <;> simp [init, demoCParams])).1,
    fun A B hL hR =>
      (exponential_profile_solves (init Real.exp 1 (demoCParams ℝ)) (linearV ℝ)
        (List.replicate (3 + 1) 0) 3 1 0 1 (by decide) demo_sized rfl
        (fun i hi => by interval_cases i <;> norm_num [linearV]) one_ne_zero rfl
        (fun i hi => by interval_cases i <;> simp [init, demoCParams])).2 A B hL hR 2
        (by decide) (by decide)⟩

end Continuity_p

namespace Poisson
variable {K : Type} [Field K]

/-- C18. For `Nx, Ny >= 0`, `Nz >= 1`, `num_elements = (Nx+1)(Ny+1)(Nz+1)` and a triplet list of
the allocated length `11 * num_elements`: the run of `setup_matrix` is a sequence of
`T = 7(Nx+1)(Ny+1)Nz` writes `triplet_list[trp_cnt] = ...` starting from `trp_cnt = 0`; write
number `s` (counted from 0) goes to slot `s`, which is inside the allocation, and is not
overwritten afterwards; `T <= 11 * num_elements`; the slots from `T` on are untouched; and every
triplet written has row and column below `num_elements`. -/
theorem setup_matrix_writes_in_bounds (P : Poisson K) (hNz : 1 ≤ P.Nz)
    (hn : P.num_elements = (P.Nx + 1) * (P.Ny + 1) * (P.Nz + 1))
    (hlen : P.triplet_list.length = 11 * P.num_elements) :
    P.setup_matrix.buf = (⟨0, P.triplet_list⟩ : TrpBuf K).putAll P.closed_triplets
      ∧ P.closed_triplets.length = 7 * (P.Nx + 1) * (P.Ny + 1) * P.Nz
      ∧ 7 * (P.Nx + 1) * (P.Ny + 1) * P.Nz ≤ 11 * P.num_elements
      ∧ (∀ s, s < 7 * (P.Nx + 1) * (P.Ny + 1) * P.Nz →
          ((⟨0, P.triplet_list⟩ : TrpBuf K).putAll (P.closed_triplets.take s)).trp_cnt = s
            ∧ s < P.triplet_list.length
            ∧ P.setup_matrix.triplet_list[s]? = P.closed_triplets[s]?
            ∧ ∃ t, P.setup_matrix.triplet_list[s]? = some t
                ∧ t.row < P.num_elements ∧ t.col < P.num_elements)
      ∧ P.setup_matrix.trp_cnt = 7 * (P.Nx + 1) * (P.Ny + 1) * P.Nz
      ∧ P.setup_matrix.triplet_list.length = 11 * P.num_elements
      ∧ (∀ s, 7 * (P.Nx + 1) * (P.Ny + 1) * P.Nz ≤ s →
          P.setup_matrix.triplet_list[s]? = P.triplet_list[s]?) := by
  have hle := length_closed_triplets_le P
  have hT : P.closed_triplets.length = 7 * (P.Nx + 1) * (P.Ny + 1) * P.Nz := by
    rw [length_closed_triplets, show 6 * P.Nz + (P.Nz - 1) + 1 = 7 * P.Nz by omega]
    ring
  have hbuf : P.setup_matrix.buf = (⟨0, P.triplet_list⟩ : TrpBuf K).putAll P.closed_triplets := by
    rw [setup_matrix_eq]
    dsimp only [withBuf, buf]
  have hlist : P.setup_matrix.triplet_list
      = P.closed_triplets ++ P.triplet_list.drop P.closed_triplets.length := by
    rw [setup_matrix_eq]
    dsimp only [withBuf]
    rw [TrpBuf.putAll_triplet_list _ _ (by simp only [Nat.zero_add]; omega)]
    simp
  have hcnt := setup_matrix_trp_cnt P
  have hb := closed_triplets_bounds P
  generalize P.setup_matrix = Q at hbuf hlist hcnt ⊢
  generalize P.closed_triplets = L at hle hT hbuf hlist hcnt hb ⊢
  refine ⟨hbuf, hT, by rw [← hT, hn]; exact hle, fun s hs => ⟨?_, by rw [← hT] at hs; omega, ?_, ?_⟩,
    by rw [hcnt, hT], ?_, fun s hs => ?_⟩
  · rw [TrpBuf.putAll_trp_cnt, List.length_take, Nat.zero_add, hT]
    exact Nat.min_eq_left (Nat.le_of_lt hs)
  · rw [hlist, List.getElem?_append_left (by rw [hT]; exact hs)]
  · rw [← hT] at hs
    refine ⟨L[s], ?_, ?_⟩
    · rw [hlist, List.getElem?_append_left hs, List.getElem?_eq_getElem hs]
    · rw [hn]
      exact hb _ (List.getElem_mem hs)
  · rw [hlist, List.length_append, List.length_drop]
    omega
  · rw [← hT] at hs
    rw [hlist, List.getElem?_append_right hs, List.getElem?_drop]
    congr 1
    omega

theorem setup_matrix_writes_in_bounds_witness :
    1 ≤ demoPoisson.Nz
      ∧ demoPoisson.setup_matrix.trp_cnt
          = 7 * (demoPoisson.Nx + 1) * (demoPoisson.Ny + 1) * demoPoisson.Nz
      ∧ demoPoisson.setup_matrix.triplet_list.length = 11 * demoPoisson.num_elements :=
  ⟨by decide,
    (setup_matrix_writes_in_bounds demoPoisson (by decide) (by decide)
      (by simp [demoPoisson, init, demoParams])).2.2.2.2.1,
    (setup_matrix_writes_in_bounds demoPoisson (by decide) (by decide)
      (by simp [demoPoisson, init, demoParams])).2.2.2.2.2.1⟩

end Poisson

namespace Poisson
variable {K : Type} [Field K]

/-- C17 fails on the code: `set_main_upper_diag` loops over `k = 1..Nz`, not `1..Nz-1`.  On the
demo grid (`Nx = Ny = 1`, `Nz = 2`) it emits `8 = (Nx+1)(Ny+1)Nz` triplets while
`set_main_lower_diag` emits `4 = (Nx+1)(Ny+1)(Nz-1)`, and its second triplet is the one of node
`(1, 1, Nz)`, at position `(lin(1,1,Nz), lin(1,1,Nz+1))`, which couples the last unknown layer
to the Dirichlet node above it. -/
theorem main_upper_diag_counterexample :
    demoPoisson.trp_cnt = 0
      ∧ (demoPoisson.Nx + 1) * (demoPoisson.Ny + 1) * (demoPoisson.Nz - 1) = 4
      ∧ demoPoisson.set_main_lower_diag.trp_cnt = 4
      ∧ demoPoisson.set_main_upper_diag.trp_cnt = 8
      ∧ (demoPoisson.set_main_upper_diag.triplet_list[1]?).map (fun t => (t.row, t.col))
        = some (demoPoisson.lin 1 1 demoPoisson.Nz, demoPoisson.lin 1 1 (demoPoisson.Nz + 1)) := by
  have hx : demoPoisson.Nx = 1 := rfl
  have hy : demoPoisson.Ny = 1 := rfl
  have hz : demoPoisson.Nz = 2 := rfl
  have hc : demoPoisson.buf.trp_cnt = 0 := rfl
  have hl : demoPoisson.buf.triplet_list.length = 132 := by simp [buf, demoPoisson, init, demoParams]
  have hlu : demoPoisson.closed_main_upper_diag.length = 8 := by
    rw [closed_main_upper_diag, List.length_map, length_nodes, hx, hy, hz]
  refine ⟨rfl, rfl, ?_, ?_, ?_⟩
  · rw [set_main_lower_diag_eq]
    show (demoPoisson.buf.putAll demoPoisson.closed_main_lower_diag).trp_cnt = 4
    rw [TrpBuf.putAll_trp_cnt, closed_main_lower_diag, List.length_map, length_nodes, hx, hy, hz,
      hc]
  · rw [set_main_upper_diag_eq]
    show (demoPoisson.buf.putAll demoPoisson.closed_main_upper_diag).trp_cnt = 8
    rw [TrpBuf.putAll_trp_cnt, hlu, hc]
  · rw [set_main_upper_diag_eq]
    show ((demoPoisson.buf.putAll demoPoisson.closed_main_upper_diag).triplet_list[1]?).map _ = _
    rw [TrpBuf.putAll_triplet_list _ _ (by rw [hc, hl, hlu]; decide), hc, List.take_zero,
      List.nil_append, List.getElem?_append_left (by rw [hlu]; decide)]
    simp only [closed_main_upper_diag, hx, hy, hz, nodes]
    rfl

/-- C17, amended. `set_main_lower_diag` emits one triplet for exactly the nodes `(i,j,k)` with
`i` in `1..Nx+1`, `j` in `1..Ny+1`, `k` in `1..Nz-1`, at `(lin(i,j,k+1), lin(i,j,k))`, and
`set_main_upper_diag` one for exactly the nodes with `k` in `1..Nz`, at
`(lin(i,j,k), lin(i,j,k+1))`, each with value `-epsilon_avg_Z(i,j,k+1)`, in loop order at
consecutive slots from `trp_cnt` on.  The groups hold `(Nx+1)(Ny+1)(Nz-1)` and `(Nx+1)(Ny+1)Nz`
triplets; at every node with `k <= Nz-1` both groups emit, at mutually transposed positions
with the same value; the triplets of the upper group at `k = Nz` have no counterpart in the lower
group. -/
theorem main_lower_upper_groups (P : Poisson K) :
    P.set_main_lower_diag
        = P.withBuf (P.buf.putAll ((nodes (P.Nx + 1) (P.Ny + 1) (P.Nz - 1)).map fun (i, j, k) =>
            ⟨P.lin i j (k + 1), P.lin i j k, -P.epsilon_avg_Z i j (k + 1)⟩))
      ∧ P.set_main_upper_diag
        = P.withBuf (P.buf.putAll ((nodes (P.Nx + 1) (P.Ny + 1) P.Nz).map fun (i, j, k) =>
            ⟨P.lin i j k, P.lin i j (k + 1), -P.epsilon_avg_Z i j (k + 1)⟩))
      ∧ P.set_main_lower_diag.trp_cnt = P.trp_cnt + (P.Nx + 1) * (P.Ny + 1) * (P.Nz - 1)
      ∧ P.set_main_upper_diag.trp_cnt = P.trp_cnt + (P.Nx + 1) * (P.Ny + 1) * P.Nz
      ∧ (∀ i j k, (i, j, k) ∈ nodes (P.Nx + 1) (P.Ny + 1) (P.Nz - 1) →
          (i, j, k) ∈ nodes (P.Nx + 1) (P.Ny + 1) P.Nz)
      ∧ (∀ i j, (1 ≤ i ∧ i ≤ P.Nx + 1) → (1 ≤ j ∧ j ≤ P.Ny + 1) → 1 ≤ P.Nz →
          (i, j, P.Nz) ∈ nodes (P.Nx + 1) (P.Ny + 1) P.Nz
            ∧ (i, j, P.Nz) ∉ nodes (P.Nx + 1) (P.Ny + 1) (P.Nz - 1)) := by
  refine ⟨set_main_lower_diag_eq P, set_main_upper_diag_eq P, ?_, ?_, fun i j k h => ?_,
    fun i j hi hj hz => ⟨?_, fun h => ?_⟩⟩
  · rw [set_main_lower_diag_eq]
    show (P.buf.putAll P.closed_main_lower_diag).trp_cnt = _
    rw [TrpBuf.putAll_trp_cnt, closed_main_lower_diag, List.length_map, length_nodes]
    rfl
  · rw [set_main_upper_diag_eq]
    show (P.buf.putAll P.closed_main_upper_diag).trp_cnt = _
    rw [TrpBuf.putAll_trp_cnt, closed_main_upper_diag, List.length_map, length_nodes]
    rfl
  · rw [mem_nodes] at h ⊢
    exact ⟨h.1, h.2.1, h.2.2.1, by omega⟩
  · rw [mem_nodes]
    exact ⟨hi, hj, hz, le_refl _⟩
  · rw [mem_nodes] at h
    have h3 : P.Nz ≤ P.Nz - 1 := h.2.2.2
    omega

end Poisson

namespace Poisson
variable {K : Type} [Field K]

/-- C13. On a freshly constructed object with `Nx = Ny = 0`, `Nz = 1` (two unknowns, a node is
its own wrap partner), uniform face averages `ex`, `ey`, `ez` with `ez != 0`, zero charge, bottom
value `0` and top value `Vtop`: each of the four periodic-wrap setters writes one triplet, on the
diagonal entry `(0, 0)`, with value `-ex` or `-ey`; the assembled matrix is
`[[2*ez, -ez], [0, 1]]` (the wrap triplets cancel the X and Y face terms of the diagonal); the
right-hand side is `[0, Vtop]`; and a vector solves the system exactly when its entry of the node
`k = 1` is `Vtop/2` and its entry of the top node is `Vtop`. -/
theorem single_column_system (P : Poisson K) (ex ey ez Vtop : K) (h2 : (2 : K) ≠ 0)
    (hNx : P.Nx = 0) (hNy : P.Ny = 0) (hNz : P.Nz = 1)
    (hX : ∀ i j k, P.epsilon_avg_X i j k = ex) (hY : ∀ i j k, P.epsilon_avg_Y i j k = ey)
    (hZ : ∀ i j k, P.epsilon_avg_Z i j k = ez) (hez : ez ≠ 0)
    (hn : P.num_elements = (P.Nx + 1) * (P.Ny + 1) * (P.Nz + 1))
    (hfresh : P.triplet_list = List.replicate (11 * P.num_elements) Trp.init)
    (hr : P.rhs.length = P.num_elements)
    (p : Nat → K) (hp : ∀ r, p r = 0)
    (hbot : P.V_bottomBC 1 1 = 0) (htop : P.V_topBC 1 1 = Vtop) :
    (P.set_lowest_diag = P.withBuf (P.buf.putAll [⟨0, 0, -ex⟩])
        ∧ P.set_highest_diag = P.withBuf (P.buf.putAll [⟨0, 0, -ex⟩])
        ∧ P.set_lower_diag_Y_PBCs = P.withBuf (P.buf.putAll [⟨0, 0, -ey⟩])
        ∧ P.set_upper_diag_Y_PBCs = P.withBuf (P.buf.putAll [⟨0, 0, -ey⟩]))
      ∧ (P.setup_matrix.sp_matrix 0 0 = 2 * ez ∧ P.setup_matrix.sp_matrix 0 1 = -ez
        ∧ P.setup_matrix.sp_matrix 1 0 = 0 ∧ P.setup_matrix.sp_matrix 1 1 = 1)
      ∧ (P.setup_matrix.set_rhs p).rhs = [0, Vtop]
      ∧ ∀ x : Nat → K,
          (mulVec P.setup_matrix.sp_matrix P.num_elements x 0
                = (P.setup_matrix.set_rhs p).rhs.getD 0 0
              ∧ mulVec P.setup_matrix.sp_matrix P.num_elements x 1
                = (P.setup_matrix.set_rhs p).rhs.getD 1 0)
            ↔ (x 0 = Vtop / 2 ∧ x 1 = Vtop) := by
  have hn2 : P.num_elements = 2 := by rw [hn, hNx, hNy, hNz]
  have l0 : P.lin 1 1 1 = 0 := by simp [lin]
  have l1 : P.lin 1 1 2 = 1 := by simp [lin]
  have hi : 1 ≤ 1 ∧ 1 ≤ P.Nx + 1 := ⟨le_refl _, by omega⟩
  have hj : 1 ≤ 1 ∧ 1 ≤ P.Ny + 1 := ⟨le_refl _, by omega⟩
  have hk1 : 1 ≤ 1 ∧ 1 ≤ P.Nz + 1 := ⟨le_refl _, by omega⟩
  have hk2 : 1 ≤ 2 ∧ 2 ≤ P.Nz + 1 := ⟨by omega, by omega⟩
  have a00 : P.setup_matrix.sp_matrix 0 0 = 2 * ez := by
    have h := setup_matrix_entry P hn hfresh 0 hi hj hk1
    rw [l0] at h
    rw [h]
    simp [stencil, lin, hNx, hNy, hNz, hX, hY, hZ]
    ring
  have a01 : P.setup_matrix.sp_matrix 0 1 = -ez := by
    have h := setup_matrix_entry P hn hfresh 1 hi hj hk1
    rw [l0] at h
    rw [h]
    simp [stencil, lin, hNx, hNy, hNz, hX, hY, hZ]
  have a10 : P.setup_matrix.sp_matrix 1 0 = 0 := by
    have h := setup_matrix_entry P hn hfresh 0 hi hj hk2
    rw [l1] at h
    rw [h]
    simp [stencil, lin, hNx, hNy, hNz, hX, hY, hZ]
  have a11 : P.setup_matrix.sp_matrix 1 1 = 1 := by
    have h := setup_matrix_entry P hn hfresh 1 hi hj hk2
    rw [l1] at h
    rw [h]
    simp [stencil, lin, hNx, hNy, hNz, hX, hY, hZ]
  have hrhs : (P.setup_matrix.set_rhs p).rhs = [0, Vtop] := by
    rw [set_rhs_rhs_congr P P.setup_matrix p (setup_matrix_fields P)]
    obtain ⟨hl, hg⟩ := set_rhs_getD P p hn hr
    have g0 := hg 1 1 1 hi hj hk1
    have g1 := hg 1 1 2 hi hj hk2
    rw [l0, if_neg (by omega), if_pos rfl, hp, hbot] at g0
    rw [l1, if_pos (by omega), htop] at g1
    rw [hn2] at hl
    generalize (P.set_rhs p).rhs = R at hl g0 g1
    match R, hl with
    | [a, b], _ =>
      simp only [List.getD_cons_zero, List.getD_cons_succ] at g0 g1
      rw [g0, g1]
      simp
  refine ⟨⟨?_, ?_, ?_, ?_⟩, ⟨a00, a01, a10, a11⟩, hrhs, fun x => ?_⟩
  · rw [set_lowest_diag_eq]
    simp [closed_lowest_diag, pairs, hNx, hNy, hNz, lin, hX]
  · rw [set_highest_diag_eq]
    simp [closed_highest_diag, pairs, hNx, hNy, hNz, lin, hX]
  · rw [set_lower_diag_Y_PBCs_eq]
    simp [closed_lower_diag_Y_PBCs, pairs, hNx, hNy, hNz, lin, hY]
  · rw [set_upper_diag_Y_PBCs_eq]
    simp [closed_upper_diag_Y_PBCs, pairs, hNx, hNy, hNz, lin, hY]
  · rw [hrhs, hn2]
    simp only [mulVec, Finset.sum_range_succ, Finset.sum_range_zero, zero_add, a00, a01, a10, a11,
      List.getD_cons_zero, List.getD_cons_succ]
    constructor
    · rintro ⟨e0, e1⟩
      rw [zero_mul, zero_add, one_mul] at e1
      refine ⟨?_, e1⟩
      rw [e1] at e0
      have : ez * (2 * x 0 - Vtop) = 0 := by linear_combination e0
      rcases mul_eq_zero.1 this with h | h
      · exact absurd h hez
      · field_simp
        linear_combination h
    · rintro ⟨e0, e1⟩
      rw [e0, e1]
      refine ⟨?_, by ring⟩
      field_simp
      ring

theorem columnBiased_uniform :
    (∀ i j k, columnBiased.epsilon_avg_X i j k = 1) ∧ (∀ i j k, columnBiased.epsilon_avg_Y i j k = 1)
      ∧ (∀ i j k, columnBiased.epsilon_avg_Z i j k = 1) := by
  refine ⟨fun _ _ _ => ?_, fun _ _ _ => ?_, fun _ _ _ => ?_⟩ <;>
    simp [columnBiased, set_V_topBC, set_V_bottomBC, init, columnParams]

theorem single_column_system_witness :
    (2 : ℚ) ≠ 0 ∧ columnBiased.Nx = 0 ∧ columnBiased.Ny = 0 ∧ columnBiased.Nz = 1
      ∧ (1 : ℚ) ≠ 0
      ∧ (columnBiased.setup_matrix.sp_matrix 0 0 = 2 * 1
        ∧ columnBiased.setup_matrix.sp_matrix 0 1 = -1
        ∧ columnBiased.setup_matrix.sp_matrix 1 0 = 0
        ∧ columnBiased.setup_matrix.sp_matrix 1 1 = 1)
      ∧ (columnBiased.setup_matrix.set_rhs (fun _ => 0)).rhs = [0, 5 / 1] :=
  ⟨by norm_num, rfl, rfl, rfl, one_ne_zero,
    (single_column_system columnBiased 1 1 1 (5 / 1) (by norm_num) rfl rfl rfl
      columnBiased_uniform.1 columnBiased_uniform.2.1 columnBiased_uniform.2.2 one_ne_zero
      (by decide) rfl (by decide) (fun _ => 0) (fun _ => rfl)
      (set_V_bottomBC_apply (init 1 1 1 columnParams) (i := 1) (j := 1) (by decide) (by decide))
      (set_V_topBC_apply (init 1 1 1 columnParams).set_V_bottomBC 1 5 (i := 1) (j := 1)
        (by decide) (by decide))).2.1,
    (single_column_system columnBiased 1 1 1 (5 / 1) (by norm_num) rfl rfl rfl
      columnBiased_uniform.1 columnBiased_uniform.2.1 columnBiased_uniform.2.2 one_ne_zero
      (by decide) rfl (by decide) (fun _ => 0) (fun _ => rfl)
      (set_V_bottomBC_apply (init 1 1 1 columnParams) (i := 1) (j := 1) (by decide) (by decide))
      (set_V_topBC_apply (init 1 1 1 columnParams).set_V_bottomBC 1 5 (i := 1) (j := 1)
        (by decide) (by decide))).2.2.1⟩

end Poisson

section Positions
variable {K : Type} [Field K]

/-- If no matrix position is hit by more than one triplet of `l` (counting with `rowFold` into
`ℕ`), the triplets of `l` have pairwise distinct positions. -/
theorem pairwise_of_count_le_one (l : List (Trp K))
    (h : ∀ r c, rowFold (fun c' (_ : K) => if c' = c then (1 : Nat) else 0) l r ≤ 1) :
    l.Pairwise (fun s t => ¬(s.row = t.row ∧ s.col = t.col)) := by
  induction l with
  | nil => exact List.Pairwise.nil
  | cons t l ih =>
    refine List.Pairwise.cons (fun t' ht' hpos => ?_) (ih fun r c => ?_)
    · have h1 := h t.row t.col
      rw [rowFold_cons, if_pos rfl, if_pos rfl] at h1
      have h0 : rowFold (fun c' (_ : K) => if c' = t.col then (1 : Nat) else 0) l t.row = 0 := by
        omega
      have := Poisson.rowFold_nat_eq_zero _ _ _ h0 t' ht' hpos.1.symm
      rw [if_pos hpos.2.symm] at this
      exact absurd this one_ne_zero
    · have h1 := h r c
      rw [rowFold_cons] at h1
      omega

/-- In a list of triplets with pairwise distinct positions, the entry assembled at the position
of a triplet is the value of that triplet. -/
theorem setFromTriplets_single (l : List (Trp K))
    (h : l.Pairwise (fun s t => ¬(s.row = t.row ∧ s.col = t.col))) :
    ∀ t ∈ l, setFromTriplets l t.row t.col = t.value := by
  induction l with
  | nil => intro t ht; exact absurd ht (List.not_mem_nil t)
  | cons s l ih =>
    rw [List.pairwise_cons] at h
    intro t ht
    rw [setFromTriplets_eq_rowFold, rowFold_cons, ← setFromTriplets_eq_rowFold]
    rcases List.mem_cons.1 ht with hts | hts
    · subst hts
      rw [if_pos rfl, if_pos rfl, setFromTriplets_eq_rowFold]
      have hz : rowFold (fun c' v => if c' = t.col then v else 0) l t.row = 0 := by
        unfold rowFold
        apply List.sum_eq_zero
        intro x hx
        obtain ⟨u, hu, rfl⟩ := List.mem_map.1 hx
        by_cases hr : u.row = t.row
        · rw [if_pos hr]
          dsimp only
          rw [if_neg (fun hc => h.1 u hu ⟨hr.symm, hc.symm⟩)]
        · rw [if_neg hr]
      rw [hz, add_zero]
    · have hne := h.1 t hts
      rw [ih h.2 t hts]
      by_cases hr : s.row = t.row
      · rw [if_pos hr, if_neg (fun hc => hne ⟨hr, hc⟩), zero_add]
      · rw [if_neg hr, zero_add]

end Positions
namespace Poisson
variable {K : Type} [Field K]

/-- A coupling to the node `(a, b, c)`, present under `cond`, hits the column of `(i', j', k')`
exactly when the coordinates agree. -/
theorem link_count (P : Poisson K) (cond : Prop) [Decidable cond] (a b c i' j' k' : Nat)
    (hi' : 1 ≤ i') (hj' : 1 ≤ j' ∧ j' ≤ P.Ny + 1) (hk' : 1 ≤ k' ∧ k' ≤ P.Nz + 1)
    (hbox : cond → 1 ≤ a ∧ (1 ≤ b ∧ b ≤ P.Ny + 1) ∧ (1 ≤ c ∧ c ≤ P.Nz + 1)) :
    (if cond then (if P.lin a b c = P.lin i' j' k' then (1 : Nat) else 0) else 0)
      = if cond ∧ a = i' ∧ b = j' ∧ c = k' then 1 else 0 := by
  rw [← ite_and]
  apply if_congr _ rfl rfl
  constructor
  · rintro ⟨hc, he⟩
    obtain ⟨h1, h2, h3⟩ := hbox hc
    exact ⟨hc, (P.lin_eq_iff h1 hi' h2 hj' h3 hk').1 he⟩
  · rintro ⟨hc, he⟩
    obtain ⟨h1, h2, h3⟩ := hbox hc
    exact ⟨hc, (P.lin_eq_iff h1 hi' h2 hj' h3 hk').2 he⟩

/-- With at least three nodes in each periodic direction, no matrix position is hit by more than
one closed-form triplet. -/
theorem closed_triplets_count_le_one (P : Poisson K) (hNx : 2 ≤ P.Nx) (hNy : 2 ≤ P.Ny)
    (r c : Nat) :
    rowFold (fun c' (_ : K) => if c' = c then (1 : Nat) else 0) P.closed_triplets r ≤ 1 := by
  by_cases hrc : r < (P.Nx + 1) * (P.Ny + 1) * (P.Nz + 1)
      ∧ c < (P.Nx + 1) * (P.Ny + 1) * (P.Nz + 1)
  · obtain ⟨i, j, k, hi, hj, hk, rfl⟩ := exists_lin P r hrc.1
    obtain ⟨i', j', k', hi', hj', hk', rfl⟩ := exists_lin P c hrc.2
    rw [rowFold_closed_triplets _ P hi hj hk]
    unfold stencil
    dsimp only
    rw [ite_self]
    have e1 := link_count P (i = P.Nx + 1 ∧ k ≤ P.Nz) 1 j k i' j' k' hi'.1 hj' hk' (by omega)
    have e2 := link_count P (2 ≤ i ∧ k ≤ P.Nz) (i - 1) j k i' j' k' hi'.1 hj' hk' (by omega)
    have e3 := link_count P (j = P.Ny + 1 ∧ k ≤ P.Nz) i 1 k i' j' k' hi'.1 hj' hk' (by omega)
    have e4 := link_count P (2 ≤ j ∧ k ≤ P.Nz) i (j - 1) k i' j' k' hi'.1 hj' hk' (by omega)
    have e5 := link_count P (2 ≤ k ∧ k ≤ P.Nz) i j (k - 1) i' j' k' hi'.1 hj' hk' (by omega)
    have e6 := link_count P True i j k i' j' k' hi'.1 hj' hk' (fun _ => ⟨hi.1, hj, hk⟩)
    have e7 := link_count P (k ≤ P.Nz) i j (k + 1) i' j' k' hi'.1 hj' hk' (by omega)
    have e8 := link_count P (j ≤ P.Ny ∧ k ≤ P.Nz) i (j + 1) k i' j' k' hi'.1 hj' hk' (by omega)
    have e9 := link_count P (j = 1 ∧ k ≤ P.Nz) i (P.Ny + 1) k i' j' k' hi'.1 hj' hk' (by omega)
    have e10 := link_count P (i ≤ P.Nx ∧ k ≤ P.Nz) (i + 1) j k i' j' k' hi'.1 hj' hk' (by omega)
    have e11 := link_count P (i = 1 ∧ k ≤ P.Nz) (P.Nx + 1) j k i' j' k' hi'.1 hj' hk' (by omega)
    rw [if_pos trivial] at e6
    rw [e1, e2, e3, e4, e5, e6, e7, e8, e9, e10, e11]
    have key : ∀ (C : Prop) [Decidable C],
        (if C then 1 else 0 : Nat) = 0 ∨ ((if C then 1 else 0 : Nat) = 1 ∧ C) := fun C _ => by
      by_cases hC : C
      · exact Or.inr ⟨if_pos hC, hC⟩
      · exact Or.inl (if_neg hC)
    have f1 := key (((i = P.Nx + 1 ∧ k ≤ P.Nz) ∧ 1 = i' ∧ j = j' ∧ k = k'))
    have f2 := key ((2 ≤ i ∧ k ≤ P.Nz) ∧ i - 1 = i' ∧ j = j' ∧ k = k')
    have f3 := key ((j = P.Ny + 1 ∧ k ≤ P.Nz) ∧ i = i' ∧ 1 = j' ∧ k = k')
    have f4 := key ((2 ≤ j ∧ k ≤ P.Nz) ∧ i = i' ∧ j - 1 = j' ∧ k = k')
    have f5 := key ((2 ≤ k ∧ k ≤ P.Nz) ∧ i = i' ∧ j = j' ∧ k - 1 = k')
    have f6 := key (True ∧ i = i' ∧ j = j' ∧ k = k')
    have f7 := key (k ≤ P.Nz ∧ i = i' ∧ j = j' ∧ k + 1 = k')
    have f8 := key ((j ≤ P.Ny ∧ k ≤ P.Nz) ∧ i = i' ∧ j + 1 = j' ∧ k = k')
    have f9 := key ((j = 1 ∧ k ≤ P.Nz) ∧ i = i' ∧ P.Ny + 1 = j' ∧ k = k')
    have f10 := key ((i ≤ P.Nx ∧ k ≤ P.Nz) ∧ i + 1 = i' ∧ j = j' ∧ k = k')
    have f11 := key ((i = 1 ∧ k ≤ P.Nz) ∧ P.Nx + 1 = i' ∧ j = j' ∧ k = k')
    generalize (if (i = P.Nx + 1 ∧ k ≤ P.Nz) ∧ 1 = i' ∧ j = j' ∧ k = k' then 1 else 0) = t1
      at f1 ⊢
    generalize (if (2 ≤ i ∧ k ≤ P.Nz) ∧ i - 1 = i' ∧ j = j' ∧ k = k' then 1 else 0) = t2 at f2 ⊢
    generalize (if (j = P.Ny + 1 ∧ k ≤ P.Nz) ∧ i = i' ∧ 1 = j' ∧ k = k' then 1 else 0) = t3
      at f3 ⊢
    generalize (if (2 ≤ j ∧ k ≤ P.Nz) ∧ i = i' ∧ j - 1 = j' ∧ k = k' then 1 else 0) = t4 at f4 ⊢
    generalize (if (2 ≤ k ∧ k ≤ P.Nz) ∧ i = i' ∧ j = j' ∧ k - 1 = k' then 1 else 0) = t5 at f5 ⊢
    generalize (if True ∧ i = i' ∧ j = j' ∧ k = k' then 1 else 0) = t6 at f6 ⊢
    generalize (if k ≤ P.Nz ∧ i = i' ∧ j = j' ∧ k + 1 = k' then 1 else 0) = t7 at f7 ⊢
    generalize (if (j ≤ P.Ny ∧ k ≤ P.Nz) ∧ i = i' ∧ j + 1 = j' ∧ k = k' then 1 else 0) = t8
      at f8 ⊢
    generalize (if (j = 1 ∧ k ≤ P.Nz) ∧ i = i' ∧ P.Ny + 1 = j' ∧ k = k' then 1 else 0) = t9
      at f9 ⊢
    generalize (if (i ≤ P.Nx ∧ k ≤ P.Nz) ∧ i + 1 = i' ∧ j = j' ∧ k = k' then 1 else 0) = t10
      at f10 ⊢
    generalize (if (i = 1 ∧ k ≤ P.Nz) ∧ P.Nx + 1 = i' ∧ j = j' ∧ k = k' then 1 else 0) = t11
      at f11 ⊢
    omega
  · have hz : rowFold (fun c' (_ : K) => if c' = c then (1 : Nat) else 0) P.closed_triplets r
        = 0 := by
      unfold rowFold
      apply List.sum_eq_zero
      intro x hx
      obtain ⟨t, ht, rfl⟩ := List.mem_map.1 hx
      obtain ⟨b1, b2⟩ := closed_triplets_bounds P t ht
      by_cases h1 : t.row = r
      · rw [if_pos h1]
        dsimp only
        rw [if_neg (fun h2 : t.col = c => hrc ⟨h1 ▸ b1, h2 ▸ b2⟩)]
      · rw [if_neg h1]
    rw [hz]
    exact Nat.zero_le 1

end Poisson

section Overlap
variable {K : Type} [Field K]

/-- In a list of triplets with pairwise distinct positions no matrix position is hit by more
than one triplet. -/
theorem count_le_one_of_pairwise (l : List (Trp K))
    (h : l.Pairwise (fun s t => ¬(s.row = t.row ∧ s.col = t.col))) (r c : Nat) :
    rowFold (fun c' (_ : K) => if c' = c then (1 : Nat) else 0) l r ≤ 1 := by
  induction l with
  | nil => exact Nat.zero_le 1
  | cons t l ih =>
    rw [List.pairwise_cons] at h
    rw [rowFold_cons]
    by_cases hpos : t.row = r ∧ t.col = c
    · have hz : rowFold (fun c' (_ : K) => if c' = c then (1 : Nat) else 0) l r = 0 := by
        unfold rowFold
        apply List.sum_eq_zero
        intro x hx
        obtain ⟨u, hu, rfl⟩ := List.mem_map.1 hx
        by_cases hr : u.row = r
        · rw [if_pos hr]
          dsimp only
          rw [if_neg (fun hc : u.col = c =>
            h.1 u hu ⟨hpos.1.trans hr.symm, hpos.2.trans hc.symm⟩)]
        · rw [if_neg hr]
      rw [hz, if_pos hpos.1, if_pos hpos.2]
    · have hhead : (if t.row = r then (fun c' (_ : K) => if c' = c then (1 : Nat) else 0)
          t.col t.value else 0) = 0 := by
        by_cases hr : t.row = r
        · rw [if_pos hr]
          dsimp only
          rw [if_neg (fun hc => hpos ⟨hr, hc⟩)]
        · rw [if_neg hr]
      rw [hhead, Nat.zero_add]
      exact ih h.2

/-- If some matrix position is hit by two or more triplets of `l`, two triplets at different
places of `l` have the same position. -/
theorem exists_overlap_of_count (l : List (Trp K)) (r c : Nat)
    (h : 2 ≤ rowFold (fun c' (_ : K) => if c' = c then (1 : Nat) else 0) l r) :
    ∃ a b s t, a < b ∧ b < l.length ∧ l[a]? = some s ∧ l[b]? = some t
      ∧ s.row = t.row ∧ s.col = t.col := by
  by_contra hno
  have hp : l.Pairwise (fun s t => ¬(s.row = t.row ∧ s.col = t.col)) := by
    rw [List.pairwise_iff_getElem]
    intro a b ha hb hab hsame
    exact hno ⟨a, b, l[a], l[b], hab, hb, List.getElem?_eq_getElem ha,
      List.getElem?_eq_getElem hb, hsame.1, hsame.2⟩
  have := count_le_one_of_pairwise l hp r c
  omega

end Overlap

namespace Poisson
variable {K : Type} [Field K]

/-- The number of closed-form triplets at the position `(lin(i,j,k), lin(i',j',k'))`, group by
group: each of the eleven groups contributes `1` exactly when its coupling is present at row
`(i,j,k)` and leads to the node `(i',j',k')`. -/
theorem stencil_count_eq (P : Poisson K) (i j k i' j' k' : Nat)
    (hi : 1 ≤ i ∧ i ≤ P.Nx + 1) (hj : 1 ≤ j ∧ j ≤ P.Ny + 1) (hk : 1 ≤ k ∧ k ≤ P.Nz + 1)
    (hi' : 1 ≤ i' ∧ i' ≤ P.Nx + 1) (hj' : 1 ≤ j' ∧ j' ≤ P.Ny + 1)
    (hk' : 1 ≤ k' ∧ k' ≤ P.Nz + 1) :
    rowFold (fun c' (_ : K) => if c' = P.lin i' j' k' then (1 : Nat) else 0)
        P.closed_triplets (P.lin i j k)
      = (if (i = P.Nx + 1 ∧ k ≤ P.Nz) ∧ 1 = i' ∧ j = j' ∧ k = k' then 1 else 0)
        + (if (2 ≤ i ∧ k ≤ P.Nz) ∧ i - 1 = i' ∧ j = j' ∧ k = k' then 1 else 0)
        + (if (j = P.Ny + 1 ∧ k ≤ P.Nz) ∧ i = i' ∧ 1 = j' ∧ k = k' then 1 else 0)
        + (if (2 ≤ j ∧ k ≤ P.Nz) ∧ i = i' ∧ j - 1 = j' ∧ k = k' then 1 else 0)
        + (if (2 ≤ k ∧ k ≤ P.Nz) ∧ i = i' ∧ j = j' ∧ k - 1 = k' then 1 else 0)
        + (if True ∧ i = i' ∧ j = j' ∧ k = k' then 1 else 0)
        + (if k ≤ P.Nz ∧ i = i' ∧ j = j' ∧ k + 1 = k' then 1 else 0)
        + (if (j ≤ P.Ny ∧ k ≤ P.Nz) ∧ i = i' ∧ j + 1 = j' ∧ k = k' then 1 else 0)
        + (if (j = 1 ∧ k ≤ P.Nz) ∧ i = i' ∧ P.Ny + 1 = j' ∧ k = k' then 1 else 0)
        + (if (i ≤ P.Nx ∧ k ≤ P.Nz) ∧ i + 1 = i' ∧ j = j' ∧ k = k' then 1 else 0)
        + (if (i = 1 ∧ k ≤ P.Nz) ∧ P.Nx + 1 = i' ∧ j = j' ∧ k = k' then 1 else 0) := by
  rw [rowFold_closed_triplets _ P hi hj hk]
  unfold stencil
  dsimp only
  rw [ite_self]
  have e1 := link_count P (i = P.Nx + 1 ∧ k ≤ P.Nz) 1 j k i' j' k' hi'.1 hj' hk' (by omega)
  have e2 := link_count P (2 ≤ i ∧ k ≤ P.Nz) (i - 1) j k i' j' k' hi'.1 hj' hk' (by omega)
  have e3 := link_count P (j = P.Ny + 1 ∧ k ≤ P.Nz) i 1 k i' j' k' hi'.1 hj' hk' (by omega)
  have e4 := link_count P (2 ≤ j ∧ k ≤ P.Nz) i (j - 1) k i' j' k' hi'.1 hj' hk' (by omega)
  have e5 := link_count P (2 ≤ k ∧ k ≤ P.Nz) i j (k - 1) i' j' k' hi'.1 hj' hk' (by omega)
  have e6 := link_count P True i j k i' j' k' hi'.1 hj' hk' (fun _ => ⟨hi.1, hj, hk⟩)
  have e7 := link_count P (k ≤ P.Nz) i j (k + 1) i' j' k' hi'.1 hj' hk' (by omega)
  have e8 := link_count P (j ≤ P.Ny ∧ k ≤ P.Nz) i (j + 1) k i' j' k' hi'.1 hj' hk' (by omega)
  have e9 := link_count P (j = 1 ∧ k ≤ P.Nz) i (P.Ny + 1) k i' j' k' hi'.1 hj' hk' (by omega)
  have e10 := link_count P (i ≤ P.Nx ∧ k ≤ P.Nz) (i + 1) j k i' j' k' hi'.1 hj' hk' (by omega)
  have e11 := link_count P (i = 1 ∧ k ≤ P.Nz) (P.Nx + 1) j k i' j' k' hi'.1 hj' hk' (by omega)
  rw [if_pos trivial] at e6
  rw [e1, e2, e3, e4, e5, e6, e7, e8, e9, e10, e11]

/-- With at least one unknown layer and at most two nodes in a periodic direction, some matrix
position is hit by two closed-form triplets: the wrap coupling of the last node of a line meets
the interior coupling (two nodes) or the main diagonal (one node). -/
theorem closed_triplets_count_ge_two (P : Poisson K) (hNz : 1 ≤ P.Nz)
    (h : P.Nx ≤ 1 ∨ P.Ny ≤ 1) :
    ∃ r c, 2 ≤ rowFold (fun c' (_ : K) => if c' = c then (1 : Nat) else 0) P.closed_triplets r := by
  rcases h with h | h
  · refine ⟨P.lin (P.Nx + 1) 1 1, P.lin 1 1 1, ?_⟩
    rw [stencil_count_eq P (P.Nx + 1) 1 1 1 1 1 ⟨by omega, le_refl _⟩ ⟨le_refl _, by omega⟩ ⟨le_refl _, by omega⟩
        ⟨le_refl _, by omega⟩ ⟨le_refl _, by omega⟩ ⟨le_refl _, by omega⟩,
      if_pos (show (P.Nx + 1 = P.Nx + 1 ∧ 1 ≤ P.Nz) ∧ 1 = 1 ∧ 1 = 1 ∧ 1 = 1 from
        ⟨⟨rfl, hNz⟩, rfl, rfl, rfl⟩)]
    by_cases h0 : P.Nx = 0
    · rw [if_pos (show True ∧ P.Nx + 1 = 1 ∧ 1 = 1 ∧ 1 = 1 from
        ⟨trivial, by omega, rfl, rfl⟩)]
      omega
    · rw [if_pos (show (2 ≤ P.Nx + 1 ∧ 1 ≤ P.Nz) ∧ P.Nx + 1 - 1 = 1 ∧ 1 = 1 ∧ 1 = 1 from
        ⟨⟨by omega, hNz⟩, by omega, rfl, rfl⟩)]
      omega
  · refine ⟨P.lin 1 (P.Ny + 1) 1, P.lin 1 1 1, ?_⟩
    rw [stencil_count_eq P 1 (P.Ny + 1) 1 1 1 1 ⟨le_refl _, by omega⟩ ⟨by omega, le_refl _⟩ ⟨le_refl _, by omega⟩
        ⟨le_refl _, by omega⟩ ⟨le_refl _, by omega⟩ ⟨le_refl _, by omega⟩,
      if_pos (show (P.Ny + 1 = P.Ny + 1 ∧ 1 ≤ P.Nz) ∧ 1 = 1 ∧ 1 = 1 ∧ 1 = 1 from
        ⟨⟨rfl, hNz⟩, rfl, rfl, rfl⟩)]
    by_cases h0 : P.Ny = 0
    · rw [if_pos (show True ∧ 1 = 1 ∧ P.Ny + 1 = 1 ∧ 1 = 1 from
        ⟨trivial, rfl, by omega, rfl⟩)]
      omega
    · rw [if_pos (show (2 ≤ P.Ny + 1 ∧ 1 ≤ P.Nz) ∧ 1 = 1 ∧ P.Ny + 1 - 1 = 1 ∧ 1 = 1 from
        ⟨⟨by omega, hNz⟩, rfl, by omega, rfl⟩)]
      omega

end Poisson

namespace Poisson
variable {K : Type} [Field K]

/-- C16 fails on the code for a grid with two nodes in a periodic direction.  On the demo grid
(`Nx = Ny = 1`, `Nz = 2`) the first triplet of `set_lowest_diag` (slot 0) and the first triplet
of `set_lower_diag_Xs` (slot 4) are both at `(lin(2,1,1), lin(1,1,1))`, the wrap partner of a
node being its interior neighbour; the assembled entry is the sum `-2` of the two values `-1`,
not the value of a single triplet. -/
theorem triplet_positions_counterexample :
    4 < demoPoisson.setup_matrix.trp_cnt
      ∧ (demoPoisson.setup_matrix.triplet_list[0]?).map (fun t => (t.row, t.col))
        = some (demoPoisson.lin 2 1 1, demoPoisson.lin 1 1 1)
      ∧ (demoPoisson.setup_matrix.triplet_list[4]?).map (fun t => (t.row, t.col))
        = some (demoPoisson.lin 2 1 1, demoPoisson.lin 1 1 1)
      ∧ (demoPoisson.setup_matrix.triplet_list[0]?).map (fun t => t.value) = some (-1 : ℚ)
      ∧ (demoPoisson.setup_matrix.triplet_list[4]?).map (fun t => t.value) = some (-1 : ℚ)
      ∧ demoPoisson.setup_matrix.sp_matrix (demoPoisson.lin 2 1 1) (demoPoisson.lin 1 1 1)
        = -2 := by
  have hx : demoPoisson.Nx = 1 := rfl
  have hy : demoPoisson.Ny = 1 := rfl
  have hz : demoPoisson.Nz = 2 := rfl
  have hlen : demoPoisson.closed_triplets.length = 56 := by
    rw [length_closed_triplets, hx, hy, hz]
  have hlist := setup_matrix_triplet_list_fresh demoPoisson (by decide) rfl
  have h0 : demoPoisson.setup_matrix.triplet_list[0]? = demoPoisson.closed_triplets[0]? := by
    rw [hlist, List.getElem?_append_left (by rw [hlen]; decide)]
  have h4 : demoPoisson.setup_matrix.triplet_list[4]? = demoPoisson.closed_triplets[4]? := by
    rw [hlist, List.getElem?_append_left (by rw [hlen]; decide)]
  have c0 : demoPoisson.closed_triplets[0]?
      = some ⟨demoPoisson.lin 2 1 1, demoPoisson.lin 1 1 1, -demoPoisson.epsilon_avg_X 1 1 1⟩ := by
    simp only [closed_triplets, closed_lowest_diag, closed_lower_diag_Xs, pairs, nodes, hx, hy, hz]
    rfl
  have c4 : demoPoisson.closed_triplets[4]?
      = some ⟨demoPoisson.lin 2 1 1, demoPoisson.lin 1 1 1, -demoPoisson.epsilon_avg_X 2 1 1⟩ := by
    simp only [closed_triplets, closed_lowest_diag, closed_lower_diag_Xs, pairs, nodes, hx, hy, hz]
    rfl
  rw [h0, h4, c0, c4, setup_matrix_trp_cnt, hlen, demoPoisson_uniform.1, demoPoisson_uniform.1]
  refine ⟨by decide, rfl, rfl, rfl, rfl, ?_⟩
  rw [setup_matrix_entry demoPoisson (by decide) rfl (demoPoisson.lin 1 1 1) (i := 2) (j := 1)
    (k := 1) ⟨by decide, by decide⟩ ⟨by decide, by decide⟩ ⟨by decide, by decide⟩]
  simp [stencil, lin, hx, hy, hz, demoPoisson_uniform.1]
  norm_num

/-- C16, amended. With `num_elements = (Nx+1)(Ny+1)(Nz+1)`:
on a grid with at least three nodes in each periodic direction (`Nx >= 2`, `Ny >= 2`; any
`Nz`) and a triplet list of the allocated length, no two of the triplets written by
`setup_matrix` (slots `0 .. trp_cnt - 1`), whether of the same group or of two different groups,
have the same `(row, column)`, and on a freshly constructed object every triplet written is
alone at its position, so the assembled entry there is the value of that triplet;
on a grid with `Nz >= 1` and at most two nodes in a periodic direction (`Nx <= 1` or
`Ny <= 1`), two triplets written at different slots have the same `(row, column)`. -/
theorem triplet_positions_distinct (P : Poisson K)
    (hn : P.num_elements = (P.Nx + 1) * (P.Ny + 1) * (P.Nz + 1)) :
    (2 ≤ P.Nx → 2 ≤ P.Ny →
        (P.triplet_list.length = 11 * P.num_elements →
          ∀ a b, a < b → b < P.setup_matrix.trp_cnt →
            ∃ s t, P.setup_matrix.triplet_list[a]? = some s
              ∧ P.setup_matrix.triplet_list[b]? = some t
              ∧ ¬(s.row = t.row ∧ s.col = t.col))
        ∧ (P.triplet_list = List.replicate (11 * P.num_elements) Trp.init →
            ∀ a, a < P.setup_matrix.trp_cnt →
              ∃ t, P.setup_matrix.triplet_list[a]? = some t
                ∧ P.setup_matrix.sp_matrix t.row t.col = t.value))
      ∧ (1 ≤ P.Nz → (P.Nx ≤ 1 ∨ P.Ny ≤ 1) →
          P.triplet_list.length = 11 * P.num_elements →
          ∃ a b s t, a < b ∧ b < P.setup_matrix.trp_cnt
            ∧ P.setup_matrix.triplet_list[a]? = some s
            ∧ P.setup_matrix.triplet_list[b]? = some t
            ∧ s.row = t.row ∧ s.col = t.col) := by
  have hle := length_closed_triplets_le P
  have hcnt := setup_matrix_trp_cnt P
  have hsp := setup_matrix_sp_matrix P
  have hlist : P.triplet_list.length = 11 * P.num_elements →
      P.setup_matrix.triplet_list
        = P.closed_triplets ++ P.triplet_list.drop P.closed_triplets.length := by
    intro hlen
    rw [setup_matrix_eq]
    dsimp only [withBuf]
    rw [TrpBuf.putAll_triplet_list _ _ (by simp only [Nat.zero_add]; omega)]
    simp
  refine ⟨fun hNx hNy => ⟨?_, ?_⟩, ?_⟩
  · intro hlen a b hab hb
    have hpw := pairwise_of_count_le_one P.closed_triplets
      (closed_triplets_count_le_one P hNx hNy)
    have hlist := hlist hlen
    generalize P.setup_matrix = Q at hlist hcnt hb ⊢
    generalize P.closed_triplets = L at hlist hcnt hpw
    rw [hcnt] at hb
    have ha : a < L.length := Nat.lt_trans hab hb
    refine ⟨L[a], L[b], ?_, ?_, ?_⟩
    · rw [hlist, List.getElem?_append_left ha, List.getElem?_eq_getElem]
    · rw [hlist, List.getElem?_append_left hb, List.getElem?_eq_getElem]
    · exact (List.pairwise_iff_getElem.1 hpw) a b ha hb hab
  · intro hfresh a ha
    have hpw := pairwise_of_count_le_one P.closed_triplets
      (closed_triplets_count_le_one P hNx hNy)
    have hlist := setup_matrix_triplet_list_fresh P hn hfresh
    generalize P.setup_matrix = Q at hlist hcnt hsp ha ⊢
    generalize P.closed_triplets = L at hlist hcnt hpw
    rw [hcnt] at ha
    refine ⟨L[a], ?_, ?_⟩
    · rw [hlist, List.getElem?_append_left ha, List.getElem?_eq_getElem]
    · rw [hsp, hlist, setFromTriplets_eq_rowFold, rowFold_append,
        rowFold_replicate_init _ (fun _ => by simp), add_zero, ← setFromTriplets_eq_rowFold]
      exact setFromTriplets_single L hpw _ (List.getElem_mem ha)
  · intro hNz hsmall hlen
    obtain ⟨r, c, h2⟩ := closed_triplets_count_ge_two P hNz hsmall
    obtain ⟨a, b, s, t, hab, hb, hs, ht, hrow, hcol⟩ :=
      exists_overlap_of_count P.closed_triplets r c h2
    have hlist := hlist hlen
    generalize P.setup_matrix = Q at hlist hcnt ⊢
    generalize P.closed_triplets = L at hlist hcnt hb hs ht
    refine ⟨a, b, s, t, hab, by rw [hcnt]; exact hb, ?_, ?_, hrow, hcol⟩
    · rw [hlist, List.getElem?_append_left (Nat.lt_trans hab hb), hs]
    · rw [hlist, List.getElem?_append_left hb, ht]

theorem triplet_positions_distinct_witness :
    (2 ≤ widePoisson.Nx ∧ 2 ≤ widePoisson.Ny
        ∧ ∃ s t, widePoisson.setup_matrix.triplet_list[0]? = some s
            ∧ widePoisson.setup_matrix.triplet_list[1]? = some t
            ∧ ¬(s.row = t.row ∧ s.col = t.col))
      ∧ (1 ≤ demoPoisson.Nz ∧ demoPoisson.Nx ≤ 1
        ∧ ∃ a b s t, a < b ∧ b < demoPoisson.setup_matrix.trp_cnt
            ∧ demoPoisson.setup_matrix.triplet_list[a]? = some s
            ∧ demoPoisson.setup_matrix.triplet_list[b]? = some t
            ∧ s.row = t.row ∧ s.col = t.col) :=
  ⟨⟨by decide, by decide,
      ((triplet_positions_distinct widePoisson (by decide)).1 (by decide) (by decide)).1
        (List.length_replicate _ _) 0 1 (by decide)
        (by rw [setup_matrix_trp_cnt, length_closed_triplets]; decide)⟩,
    ⟨by decide, by decide,
      (triplet_positions_distinct demoPoisson (by decide)).2 (by decide) (Or.inl (by decide))
        (List.length_replicate _ _)⟩⟩

end Poisson

section Nonsingular
variable {F : Type} [LinearOrderedField F]

/-- A coupling term `-e * v` with `e >= 0` and `v <= M`, present under `cond`, is at least
`-e * M` times the indicator of `cond`. -/
theorem term_ge (cond : Prop) [Decidable cond] (e M v : F) (he : 0 ≤ e) (hv : cond → v ≤ M) :
    (-e * M) * (if cond then 1 else 0) ≤ (if cond then -e * v else 0) := by
  by_cases hc : cond
  · rw [if_pos hc, if_pos hc, mul_one, neg_mul, neg_mul]
    exact neg_le_neg (mul_le_mul_of_nonneg_left (hv hc) he)
  · rw [if_neg hc, if_neg hc, mul_zero]

/-- Of two complementary conditions exactly one holds. -/
theorem ind_add_ind (c₁ c₂ : Prop) [Decidable c₁] [Decidable c₂] (h : c₁ ↔ ¬c₂) :
    (if c₁ then (1 : F) else 0) + (if c₂ then 1 else 0) = 1 := by
  by_cases h2 : c₂
  · rw [if_neg (fun h1 => (h.1 h1) h2), if_pos h2, zero_add]
  · rw [if_pos (h.2 h2), if_neg h2, add_zero]

theorem ind_le_one (c : Prop) [Decidable c] : (if c then (1 : F) else 0) ≤ 1 := by
  by_cases h : c
  · rw [if_pos h]
  · rw [if_neg h]
    exact zero_le_one

/-- Maximum principle, one step: if `A x` vanishes on the non-Dirichlet row `lin(i,j,k)`, where
`x` attains a positive upper bound `M` of `x`, then `x` attains `M` on the node above. -/
theorem Poisson.max_step (P : Poisson F) (ex ey ez : F) (hex : 0 ≤ ex) (hey : 0 ≤ ey)
    (hez : 0 < ez)
    (hX : ∀ i j k, P.epsilon_avg_X i j k = ex) (hY : ∀ i j k, P.epsilon_avg_Y i j k = ey)
    (hZ : ∀ i j k, P.epsilon_avg_Z i j k = ez)
    (hn : P.num_elements = (P.Nx + 1) * (P.Ny + 1) * (P.Nz + 1))
    (hfresh : P.triplet_list = List.replicate (11 * P.num_elements) Trp.init)
    (x : Nat → F) (M : F) (hM : 0 < M) (hle : ∀ r, r < P.num_elements → x r ≤ M)
    {i j k : Nat}
    (hi : 1 ≤ i ∧ i ≤ P.Nx + 1) (hj : 1 ≤ j ∧ j ≤ P.Ny + 1) (hk : 1 ≤ k ∧ k ≤ P.Nz)
    (hrow : mulVec P.setup_matrix.sp_matrix P.num_elements x (P.lin i j k) = 0)
    (hmax : x (P.lin i j k) = M) :
    x (P.lin i j (k + 1)) = M := by
  have hb : ∀ a b c, (1 ≤ a ∧ a ≤ P.Nx + 1) → (1 ≤ b ∧ b ≤ P.Ny + 1) →
      (1 ≤ c ∧ c ≤ P.Nz + 1) → x (P.lin a b c) ≤ M := fun a b c ha hb hc =>
    hle _ (by rw [hn]; exact P.lin_lt ha hb hc)
  rw [Poisson.setup_matrix_mulVec P hn hfresh x hi hj ⟨hk.1, by omega⟩] at hrow
  unfold Poisson.stencil at hrow
  simp only [hX, hY, hZ, if_pos hk.2, hmax] at hrow
  have t1 := term_ge (i = P.Nx + 1 ∧ k ≤ P.Nz) ex M (x (P.lin 1 j k)) hex
    (fun _ => hb _ _ _ ⟨le_refl _, by omega⟩ hj ⟨hk.1, by omega⟩)
  have t2 := term_ge (2 ≤ i ∧ k ≤ P.Nz) ex M (x (P.lin (i - 1) j k)) hex
    (fun h => hb _ _ _ ⟨by omega, by omega⟩ hj ⟨hk.1, by omega⟩)
  have t3 := term_ge (j = P.Ny + 1 ∧ k ≤ P.Nz) ey M (x (P.lin i 1 k)) hey
    (fun _ => hb _ _ _ hi ⟨le_refl _, by omega⟩ ⟨hk.1, by omega⟩)
  have t4 := term_ge (2 ≤ j ∧ k ≤ P.Nz) ey M (x (P.lin i (j - 1) k)) hey
    (fun h => hb _ _ _ hi ⟨by omega, by omega⟩ ⟨hk.1, by omega⟩)
  have t5 := term_ge (2 ≤ k ∧ k ≤ P.Nz) ez M (x (P.lin i j (k - 1))) hez.le
    (fun h => hb _ _ _ hi hj ⟨by omega, by omega⟩)
  have t8 := term_ge (j ≤ P.Ny ∧ k ≤ P.Nz) ey M (x (P.lin i (j + 1) k)) hey
    (fun h => hb _ _ _ hi ⟨by omega, by omega⟩ ⟨hk.1, by omega⟩)
  have t9 := term_ge (j = 1 ∧ k ≤ P.Nz) ey M (x (P.lin i (P.Ny + 1) k)) hey
    (fun _ => hb _ _ _ hi ⟨by omega, le_refl _⟩ ⟨hk.1, by omega⟩)
  have t10 := term_ge (i ≤ P.Nx ∧ k ≤ P.Nz) ex M (x (P.lin (i + 1) j k)) hex
    (fun h => hb _ _ _ ⟨by omega, by omega⟩ hj ⟨hk.1, by omega⟩)
  have t11 := term_ge (i = 1 ∧ k ≤ P.Nz) ex M (x (P.lin (P.Nx + 1) j k)) hex
    (fun _ => hb _ _ _ ⟨by omega, le_refl _⟩ hj ⟨hk.1, by omega⟩)
  have s1 := ind_add_ind (F := F) (i = P.Nx + 1 ∧ k ≤ P.Nz) (i ≤ P.Nx ∧ k ≤ P.Nz)
    ⟨fun h h' => by omega, fun h => ⟨by omega, hk.2⟩⟩
  have s2 := ind_add_ind (F := F) (2 ≤ i ∧ k ≤ P.Nz) (i = 1 ∧ k ≤ P.Nz)
    ⟨fun h h' => by omega, fun h => ⟨by omega, hk.2⟩⟩
  have s3 := ind_add_ind (F := F) (j = P.Ny + 1 ∧ k ≤ P.Nz) (j ≤ P.Ny ∧ k ≤ P.Nz)
    ⟨fun h h' => by omega, fun h => ⟨by omega, hk.2⟩⟩
  have s4 := ind_add_ind (F := F) (2 ≤ j ∧ k ≤ P.Nz) (j = 1 ∧ k ≤ P.Nz)
    ⟨fun h h' => by omega, fun h => ⟨by omega, hk.2⟩⟩
  have s5 := ind_le_one (F := F) (2 ≤ k ∧ k ≤ P.Nz)
  have hup := hb i j (k + 1) hi hj ⟨by omega, by omega⟩
  generalize (if i = P.Nx + 1 ∧ k ≤ P.Nz then (1 : F) else 0) = d1 at t1 s1
  generalize (if 2 ≤ i ∧ k ≤ P.Nz then (1 : F) else 0) = d2 at t2 s2
  generalize (if j = P.Ny + 1 ∧ k ≤ P.Nz then (1 : F) else 0) = d3 at t3 s3
  generalize (if 2 ≤ j ∧ k ≤ P.Nz then (1 : F) else 0) = d4 at t4 s4
  generalize (if 2 ≤ k ∧ k ≤ P.Nz then (1 : F) else 0) = d5 at t5 s5
  generalize (if j ≤ P.Ny ∧ k ≤ P.Nz then (1 : F) else 0) = d8 at t8 s3
  generalize (if j = 1 ∧ k ≤ P.Nz then (1 : F) else 0) = d9 at t9 s4
  generalize (if i ≤ P.Nx ∧ k ≤ P.Nz then (1 : F) else 0) = d10 at t10 s1
  generalize (if i = 1 ∧ k ≤ P.Nz then (1 : F) else 0) = d11 at t11 s2
  generalize (if i = P.Nx + 1 ∧ k ≤ P.Nz then -ex * x (P.lin 1 j k) else 0) = T1 at t1 hrow
  generalize (if 2 ≤ i ∧ k ≤ P.Nz then -ex * x (P.lin (i - 1) j k) else 0) = T2 at t2 hrow
  generalize (if j = P.Ny + 1 ∧ k ≤ P.Nz then -ey * x (P.lin i 1 k) else 0) = T3 at t3 hrow
  generalize (if 2 ≤ j ∧ k ≤ P.Nz then -ey * x (P.lin i (j - 1) k) else 0) = T4 at t4 hrow
  generalize (if 2 ≤ k ∧ k ≤ P.Nz then -ez * x (P.lin i j (k - 1)) else 0) = T5 at t5 hrow
  generalize (if j ≤ P.Ny ∧ k ≤ P.Nz then -ey * x (P.lin i (j + 1) k) else 0) = T8 at t8 hrow
  generalize (if j = 1 ∧ k ≤ P.Nz then -ey * x (P.lin i (P.Ny + 1) k) else 0) = T9 at t9 hrow
  generalize (if i ≤ P.Nx ∧ k ≤ P.Nz then -ex * x (P.lin (i + 1) j k) else 0) = T10 at t10 hrow
  generalize (if i = 1 ∧ k ≤ P.Nz then -ex * x (P.lin (P.Nx + 1) j k) else 0) = T11 at t11 hrow
  generalize x (P.lin i j (k + 1)) = u at hup hrow ⊢
  have q1 : ex * M * d1 + ex * M * d10 = ex * M := by rw [← mul_add, s1, mul_one]
  have q2 : ex * M * d2 + ex * M * d11 = ex * M := by rw [← mul_add, s2, mul_one]
  have q3 : ey * M * d3 + ey * M * d8 = ey * M := by rw [← mul_add, s3, mul_one]
  have q4 : ey * M * d4 + ey * M * d9 = ey * M := by rw [← mul_add, s4, mul_one]
  have q5 : ez * M * d5 ≤ ez * M := by
    have := mul_le_mul_of_nonneg_left s5 (mul_pos hez hM).le
    rwa [mul_one] at this
  have hzu : ez * M ≤ ez * u := by linarith
  exact le_antisymm hup (le_of_mul_le_mul_left hzu hez)

end Nonsingular
section Nonsingular2
variable {F : Type} [LinearOrderedField F]

/-- Maximum principle: a vector in the kernel of the assembled matrix cannot attain a positive
upper bound, because the bound would travel up the column to a Dirichlet row, where `A x = x`. -/
theorem Poisson.max_propagate (P : Poisson F) (ex ey ez : F) (hex : 0 ≤ ex) (hey : 0 ≤ ey)
    (hez : 0 < ez)
    (hX : ∀ i j k, P.epsilon_avg_X i j k = ex) (hY : ∀ i j k, P.epsilon_avg_Y i j k = ey)
    (hZ : ∀ i j k, P.epsilon_avg_Z i j k = ez)
    (hn : P.num_elements = (P.Nx + 1) * (P.Ny + 1) * (P.Nz + 1))
    (hfresh : P.triplet_list = List.replicate (11 * P.num_elements) Trp.init)
    (x : Nat → F) (M : F) (hM : 0 < M) (hle : ∀ r, r < P.num_elements → x r ≤ M)
    (hker : ∀ r, r < P.num_elements → mulVec P.setup_matrix.sp_matrix P.num_elements x r = 0)
    {i j : Nat} (hi : 1 ≤ i ∧ i ≤ P.Nx + 1) (hj : 1 ≤ j ∧ j ≤ P.Ny + 1) :
    ∀ d k, k + d = P.Nz + 1 → 1 ≤ k → x (P.lin i j k) ≠ M := by
  intro d
  induction d with
  | zero =>
    intro k hkd hk1 hmax
    have hk : k = P.Nz + 1 := by omega
    subst hk
    have h0 := hker _ (by rw [hn]; exact P.lin_lt hi hj ⟨hk1, le_refl _⟩)
    rw [Poisson.mulVec_dirichlet P hn hfresh x hi hj, hmax] at h0
    exact absurd h0 hM.ne.symm
  | succ d ih =>
    intro k hkd hk1 hmax
    have hk : 1 ≤ k ∧ k ≤ P.Nz := ⟨hk1, by omega⟩
    have h0 := hker _ (by rw [hn]; exact P.lin_lt hi hj ⟨hk1, by omega⟩)
    exact ih (k + 1) (by omega) (by omega)
      (Poisson.max_step P ex ey ez hex hey hez hX hY hZ hn hfresh x M hM hle hi hj hk h0 hmax)

/-- Every entry of a vector in the kernel of the assembled matrix is non-positive. -/
theorem Poisson.kernel_nonpos (P : Poisson F) (ex ey ez : F) (hex : 0 ≤ ex) (hey : 0 ≤ ey)
    (hez : 0 < ez)
    (hX : ∀ i j k, P.epsilon_avg_X i j k = ex) (hY : ∀ i j k, P.epsilon_avg_Y i j k = ey)
    (hZ : ∀ i j k, P.epsilon_avg_Z i j k = ez)
    (hn : P.num_elements = (P.Nx + 1) * (P.Ny + 1) * (P.Nz + 1))
    (hfresh : P.triplet_list = List.replicate (11 * P.num_elements) Trp.init)
    (x : Nat → F)
    (hker : ∀ r, r < P.num_elements → mulVec P.setup_matrix.sp_matrix P.num_elements x r = 0) :
    ∀ r, r < P.num_elements → x r ≤ 0 := by
  intro r hr
  by_contra hpos
  rw [not_le] at hpos
  obtain ⟨r0, hr0, hmax⟩ := Finset.exists_max_image (Finset.range P.num_elements) x
    ⟨r, Finset.mem_range.2 hr⟩
  rw [Finset.mem_range] at hr0
  have hM : 0 < x r0 := lt_of_lt_of_le hpos (hmax r (Finset.mem_range.2 hr))
  obtain ⟨i, j, k, hi, hj, hk, hlin⟩ := Poisson.exists_lin P r0 (by rw [← hn]; exact hr0)
  exact Poisson.max_propagate P ex ey ez hex hey hez hX hY hZ hn hfresh x (x r0) hM
    (fun s hs => hmax s (Finset.mem_range.2 hs)) hker hi hj (P.Nz + 1 - k) k (by omega) hk.1
    (by rw [hlin])

theorem mulVec_neg (A : Nat → Nat → F) (n : Nat) (x : Nat → F) (r : Nat) :
    mulVec A n (fun c => -x c) r = -mulVec A n x r := by
  simp [mulVec, Finset.sum_neg_distrib]

theorem mulVec_sub (A : Nat → Nat → F) (n : Nat) (x y : Nat → F) (r : Nat) :
    mulVec A n (fun c => x c - y c) r = mulVec A n x r - mulVec A n y r := by
  simp [mulVec, mul_sub, Finset.sum_sub_distrib]

/-- The kernel of the matrix assembled with uniform permittivity is trivial. -/
theorem Poisson.kernel_trivial (P : Poisson F) (ex ey ez : F) (hex : 0 ≤ ex) (hey : 0 ≤ ey)
    (hez : 0 < ez)
    (hX : ∀ i j k, P.epsilon_avg_X i j k = ex) (hY : ∀ i j k, P.epsilon_avg_Y i j k = ey)
    (hZ : ∀ i j k, P.epsilon_avg_Z i j k = ez)
    (hn : P.num_elements = (P.Nx + 1) * (P.Ny + 1) * (P.Nz + 1))
    (hfresh : P.triplet_list = List.replicate (11 * P.num_elements) Trp.init)
    (x : Nat → F)
    (hker : ∀ r, r < P.num_elements → mulVec P.setup_matrix.sp_matrix P.num_elements x r = 0) :
    ∀ r, r < P.num_elements → x r = 0 := by
  intro r hr
  have h1 := Poisson.kernel_nonpos P ex ey ez hex hey hez hX hY hZ hn hfresh x hker r hr
  have h2 := Poisson.kernel_nonpos P ex ey ez hex hey hez hX hY hZ hn hfresh (fun c => -x c)
    (fun s hs => by rw [mulVec_neg, hker s hs, neg_zero]) r hr
  dsimp only at h2
  linarith

/-- A square system over a field whose matrix (given by its entries on `0 .. n-1`) has trivial
kernel has a solution for every right-hand side. -/
theorem exists_solution_of_kernel_trivial (A : Nat → Nat → F) (n : Nat)
    (hker : ∀ x : Nat → F, (∀ r, r < n → mulVec A n x r = 0) → ∀ r, r < n → x r = 0)
    (b : Nat → F) : ∃ x : Nat → F, ∀ r, r < n → mulVec A n x r = b r := by
  have hmv : ∀ (v : Fin n → F) (r : Fin n),
      (Matrix.of fun (a c : Fin n) => A a c).mulVec v r
        = mulVec A n (fun c => if h : c < n then v ⟨c, h⟩ else 0) r := by
    intro v r
    unfold mulVec
    rw [Finset.sum_range]
    simp [Matrix.mulVec, Matrix.dotProduct]
  have hinj : Function.Injective (Matrix.of fun (a c : Fin n) => A a c).mulVec := by
    intro v w hvw
    have h0 : (Matrix.of fun (a c : Fin n) => A a c).mulVec (v - w) = 0 := by
      rw [Matrix.mulVec_sub, hvw, sub_self]
    have hz := hker (fun c => if h : c < n then (v - w) ⟨c, h⟩ else 0) (fun r hr => by
      rw [← hmv (v - w) ⟨r, hr⟩, h0]
      rfl)
    funext r
    have := hz r r.2
    simp only [r.2, dite_true, Pi.sub_apply, Fin.eta] at this
    exact sub_eq_zero.1 this
  have hsurj := Matrix.mulVec_surjective_iff_isUnit.2 (Matrix.mulVec_injective_iff_isUnit.1 hinj)
  obtain ⟨v, hv⟩ := hsurj (fun r => b r)
  refine ⟨fun c => if h : c < n then v ⟨c, h⟩ else 0, fun r hr => ?_⟩
  rw [← hmv v ⟨r, hr⟩, hv]

end Nonsingular2
section Nonsingular3
variable {F : Type} [LinearOrderedField F]

/-- C19. On a freshly constructed object with uniform positive face averages `ex`, `ey`, `ez`
(uniform positive permittivity), for every `Nx, Ny, Nz >= 0` (in particular `Nz >= 1`), the
matrix `A` assembled by `setup_matrix` is nonsingular: `A x = 0` implies `x = 0`; and for every
charge vector `p` the system `A x = rhs` with the right-hand side produced by `set_rhs` has
exactly one solution. -/
theorem Poisson.sp_matrix_nonsingular (P : Poisson F) (ex ey ez : F) (hex : 0 < ex)
    (hey : 0 < ey) (hez : 0 < ez)
    (hX : ∀ i j k, P.epsilon_avg_X i j k = ex) (hY : ∀ i j k, P.epsilon_avg_Y i j k = ey)
    (hZ : ∀ i j k, P.epsilon_avg_Z i j k = ez)
    (hn : P.num_elements = (P.Nx + 1) * (P.Ny + 1) * (P.Nz + 1))
    (hfresh : P.triplet_list = List.replicate (11 * P.num_elements) Trp.init) :
    (∀ x : Nat → F,
        (∀ r, r < P.num_elements →
          mulVec P.setup_matrix.sp_matrix P.num_elements x r = 0) →
        ∀ r, r < P.num_elements → x r = 0)
      ∧ ∀ p : Nat → F, ∃ x : Nat → F,
          (∀ r, r < P.num_elements →
            mulVec (P.setup_matrix.set_rhs p).sp_matrix P.num_elements x r
              = (P.setup_matrix.set_rhs p).VecXd_rhs.getD r 0)
          ∧ ∀ y : Nat → F,
              (∀ r, r < P.num_elements →
                mulVec (P.setup_matrix.set_rhs p).sp_matrix P.num_elements y r
                  = (P.setup_matrix.set_rhs p).VecXd_rhs.getD r 0) →
              ∀ r, r < P.num_elements → y r = x r := by
  have hker := Poisson.kernel_trivial P ex ey ez hex.le hey.le hez hX hY hZ hn hfresh
  refine ⟨hker, fun p => ?_⟩
  rw [(Poisson.set_rhs_sp_matrix P.setup_matrix p).1]
  obtain ⟨x, hx⟩ := exists_solution_of_kernel_trivial P.setup_matrix.sp_matrix P.num_elements
    hker (fun r => (P.setup_matrix.set_rhs p).VecXd_rhs.getD r 0)
  refine ⟨x, hx, fun y hy r hr => ?_⟩
  have h0 := hker (fun c => y c - x c) (fun s hs => by rw [mulVec_sub, hy s hs, hx s hs, sub_self])
    r hr
  exact sub_eq_zero.1 h0

theorem Poisson.sp_matrix_nonsingular_witness :
    (0 : ℚ) < 1
      ∧ ∀ x : Nat → ℚ,
        (∀ r, r < demoPoisson.num_elements →
          mulVec demoPoisson.setup_matrix.sp_matrix demoPoisson.num_elements x r = 0) →
        ∀ r, r < demoPoisson.num_elements → x r = 0 :=
  ⟨zero_lt_one,
    (Poisson.sp_matrix_nonsingular demoPoisson 1 1 1 zero_lt_one zero_lt_one zero_lt_one
      Poisson.demoPoisson_uniform.1 Poisson.demoPoisson_uniform.2.1
      Poisson.demoPoisson_uniform.2.2 (by decide) rfl).1⟩

end Nonsingular3

end DriftDiffusion
